import Mathlib

/-!
# The incremental-rehashing dictionary of `dict/dict.go`

A shallow embedding of the hash table of `dict/dict.go` and a verification of its
contract.

Modelling conventions.

* `uint64` fields are natural numbers; every arithmetic operation that can leave the
  range is written with an explicit `% 2 ^ 64`.
* A bucket chain (the `next`-linked entries hanging off a slot of `table`) is the list
  of its entries, head first.  A `nil` slice is the empty list: `make` is only ever
  called with a length that `nextPower` returned, which is never `0`.
* A Go panic (index out of range, `nil` dereference) and a loop that never exits make
  an operation return `none`.
* `Dup` and `Destructor` calls on keys and values are recorded, in order, in a list of
  `Event`s returned next to the result.
* A value of a key type `K` is the Go value that the interface `Key` holds, so the
  comparison `key == he.key` is equality in `K`.  The chain walks test
  `key == he.key || key.Compare(he.key) == 0` (`keyMatch`); for a reflexive `Compare` the
  first disjunct adds nothing.
* `make([]*Entry, n)` panics for a length that the machine does not grant.
  `Dict.expandOn` is `expand` on a machine given by the lengths it grants; `Dict.expand`,
  which the public methods call, is `expand` on a machine that grants every length.
* A process cannot hold `2 ^ 62` entries, so the dictionaries called reachable are those
  built from `Create()` by calls of the public methods with fewer than `2 ^ 62` entries
  linked at any time (`Reachable`).  Within that bound no counter wraps around and
  `nextPower` is never asked for more than `2 ^ 63`.
* The invariant `Inv` has a part that holds for every key type (the shape of the tables,
  the counters, the rehash cursor) and a part that is only asserted for key types that
  keep the contract `KeyLaws` (every entry stands in the bucket of its hash, no two
  entries have keys that compare equal).
-/

namespace dict

/-! ## Constants -/

/-- The result code `DictOK`. -/
def DictOK : Int := 1

/-- The result code `DictErr`. -/
def DictErr : Int := 2

/-- The switch `dictCanResize`. -/
def dictCanResize : Int := 1

/-- The ratio `dictForceResizeRatio`. -/
def dictForceResizeRatio : Nat := 5

/-- The initial size of every hash table. -/
def dictHTInitailSize : Nat := 4

/-- The values of the Go type `error` that the package returns. -/
inductive GoError where
  | nil
  | ErrDict
  deriving DecidableEq, Repr

/-! ## Capabilities of keys and values -/

/-- The pure methods of the interface `Key`.  `HashFunction` returns a `uint64`; the
dictionary only ever uses it under `&` with a mask below `2 ^ 64`.  A value of `K` is the
Go value that the interface holds (for a pointer type, the pointer), and `decEq` decides
the comparison `==` of two such values, which is equality in `K`. -/
class Key (K : Type) where
  HashFunction : K → Nat
  Compare : K → K → Int
  Dup : K → K
  decEq : DecidableEq K

/-- The test `key == he.key || key.Compare(he.key) == 0` of the chain walks of `keyIndex`,
`Find` and `genericDelete` (the last two write `he.key == key`). -/
def keyMatch [Key K] (key hekey : K) : Bool :=
  @decide (key = hekey) (Key.decEq key hekey) || decide (Key.Compare key hekey = 0)

/-- The pure method of the interface `Value`. -/
class Value (V : Type) where
  Dup : V → V

/-- The calls of `Dup` and of `Destructor` that an operation makes. -/
inductive Event (K V : Type) where
  | keyDup (k : K)
  | valDup (v : V)
  | keyDestructor (k : K)
  | valDestructor (v : V)
  deriving DecidableEq, Repr

/-! ## Data model -/

/-- The struct `Entry`; `value` is `none` while the interface value is `nil`, and the
`next` link is the tail of the chain the entry stands in. -/
structure Entry (K V : Type) where
  key : K
  value : Option V
  deriving DecidableEq, Repr

/-- The struct `dictht`. -/
structure dictht (K V : Type) where
  table : List (List (Entry K V))
  size : Nat
  sizemask : Nat
  used : Nat
  deriving DecidableEq, Repr

/-- The struct `Dict`, with `ht[0]` and `ht[1]` as two fields. -/
structure Dict (K V : Type) where
  ht0 : dictht K V
  ht1 : dictht K V
  rehashidx : Int
  iterators : Nat
  deriving DecidableEq, Repr

/-- A pointer to an entry linked in the dictionary: the table, the bucket and the
position in the bucket's chain. -/
structure EntryRef where
  table : Nat
  idx : Nat
  pos : Nat
  deriving DecidableEq, Repr

variable {K V : Type}

/-- The function `_dictReset`. -/
def _dictReset : dictht K V :=
  { table := [], size := 0, sizemask := 0, used := 0 }

/-- The function `Create` (with `_dictInit` unfolded). -/
def Create : Dict K V :=
  { ht0 := _dictReset, ht1 := _dictReset, rehashidx := -1, iterators := 0 }

/-- The method `Dict.size`. -/
def Dict.size (d : Dict K V) : Nat :=
  (d.ht0.size + d.ht1.size) % 2 ^ 64

/-- The method `Dict.isRehashing`. -/
def Dict.isRehashing (d : Dict K V) : Bool :=
  d.rehashidx != -1

/-- One more than `x`, as a `uint64`. -/
def incr (x : Nat) : Nat := (x + 1) % 2 ^ 64

/-- One less than `x`, as a `uint64`. -/
def decr (x : Nat) : Nat := (x + (2 ^ 64 - 1)) % 2 ^ 64

/-- The read `table[i]` with a signed index, which panics outside the slice. -/
def bucketAt (table : List (List (Entry K V))) (i : Int) : Option (List (Entry K V)) :=
  if i < 0 then none else table[i.toNat]?

/-! ## Capacity arithmetic -/

/-- The loop `for i < size { i *= 2 }` of `nextPower`, run for at most `fuel` tests of
its condition. -/
def nextPowerLoop : Nat → Nat → Nat → Option Nat
  | 0, _, _ => none
  | fuel + 1, i, size =>
    if i < size then nextPowerLoop fuel (i * 2 % 2 ^ 64) size else some i

/-- The function `nextPower` with a bound on the number of loop tests. -/
def nextPowerFuel (fuel : Nat) (size : Nat) : Option Nat :=
  if size >>> 1 ≥ 2 ^ 63 - 1 then some (2 ^ 63)
  else nextPowerLoop fuel dictHTInitailSize size

/-- The function `nextPower`.  From `4` the variable `i` reaches `0` after 62
doublings and stays there, so a loop that has not exited after 64 tests never does. -/
def nextPower (size : Nat) : Option Nat :=
  nextPowerFuel 64 size

/-! ## Growth -/

/-- The table `&dictht{size: realsize, sizemask: realsize - 1, used: 0,
table: make([]*Entry, realsize)}` that `expand` allocates when `make` returns. -/
def freshTable (realsize : Nat) : dictht K V :=
  { size := realsize, sizemask := decr realsize, used := 0,
    table := List.replicate realsize [] }

/-- The method `Dict.expand` on a machine on which `make([]*Entry, n)` returns for the
lengths `n` that `canMake` accepts and panics for the others.  The allocation comes after
the two tests that return `DictErr`. -/
def Dict.expandOn (canMake : Nat → Bool) (d : Dict K V) (size : Nat) :
    Option (Dict K V × Int) :=
  if d.isRehashing || d.ht0.used > size then some (d, DictErr)
  else
    match nextPower size with
    | none => none
    | some realsize =>
      if realsize = d.ht0.size then some (d, DictErr)
      else if canMake realsize then
        let n : dictht K V := freshTable realsize
        if d.ht0.table.isEmpty then some ({ d with ht0 := n }, DictOK)
        else some ({ d with ht1 := n, rehashidx := 0 }, DictOK)
      else none

/-- The lengths that `make` accepts at best: a length has to fit the type `int`. -/
def fitsInt (n : Nat) : Bool :=
  decide (n < 2 ^ 63)

/-- The method `Dict.expand` on a machine that can hold the tables it is asked for,
which is the machine of the reachable dictionaries: every `make` returns. -/
def Dict.expand (d : Dict K V) (size : Nat) : Option (Dict K V × Int) :=
  d.expandOn (fun _ => true) size

/-- The method `Dict.expandIfNeeded`. -/
def Dict.expandIfNeeded (d : Dict K V) : Option (Dict K V × Int) :=
  if d.isRehashing then some (d, DictOK)
  else if d.ht0.size = 0 then d.expand dictHTInitailSize
  else if d.ht0.used ≥ d.ht0.size ∧
      (dictCanResize = 1 ∨ d.ht0.used / d.ht0.size > dictForceResizeRatio) then
    d.expand (d.ht0.used * 2 % 2 ^ 64)
  else some (d, DictOK)

/-! ## Incremental rehashing -/

/-- The loop `for de != nil` of `rehash`: every entry of the chain is linked at the
head of its bucket of `ht[1]`, and the two counters are adjusted. -/
def migrate [Key K] :
    List (Entry K V) → dictht K V → dictht K V → Option (dictht K V × dictht K V)
  | [], h0, h1 => some (h0, h1)
  | de :: nextde, h0, h1 =>
    let h := Key.HashFunction de.key &&& h1.sizemask
    match h1.table[h]? with
    | none => none
    | some chain =>
      migrate nextde { h0 with used := decr h0.used }
        { h1 with table := h1.table.set h (de :: chain), used := incr h1.used }

/-- The loop `for d.ht[0].table[d.rehashidx] == nil` of `rehash`, by recursion on
`emptyVisits`.  The result is the new `rehashidx`, the new `emptyVisits`, and whether the
loop left through `return 1`.  The index never exceeds the length of the table, so that
`rehashidx++` cannot leave the range of `int64`. -/
def skipEmpty (table : List (List (Entry K V))) :
    Nat → Int → Option (Int × Nat × Bool)
  | 0, idx =>
    match bucketAt table idx with
    | none => none
    | some (_ :: _) => some (idx, 0, false)
    | some [] => some (idx + 1, 0, true)
  | ev + 1, idx =>
    match bucketAt table idx with
    | none => none
    | some (_ :: _) => some (idx, ev + 1, false)
    | some [] => skipEmpty table ev (idx + 1)

/-- The loop `for ; n > 0 && d.ht[0].used != 0; n--` of `rehash`.  The flag tells
whether the method returned from inside the loop. -/
def rehashLoop [Key K] : Nat → Nat → Dict K V → Option (Dict K V × Bool)
  | 0, _, d => some (d, false)
  | n + 1, emptyVisits, d =>
    if d.ht0.used = 0 then some (d, false)
    else
      match skipEmpty d.ht0.table emptyVisits d.rehashidx with
      | none => none
      | some (idx, _, true) => some ({ d with rehashidx := idx }, true)
      | some (idx, ev, false) =>
        match bucketAt d.ht0.table idx with
        | none => none
        | some de =>
          match migrate de d.ht0 d.ht1 with
          | none => none
          | some (h0, h1) =>
            rehashLoop n ev
              { d with ht0 := { h0 with table := h0.table.set idx.toNat [] },
                       ht1 := h1, rehashidx := idx + 1 }

/-- The method `Dict.rehash`; `n` is a non-negative `int` small enough for `n * 10` not
to overflow. -/
def Dict.rehash [Key K] (d : Dict K V) (n : Nat) : Option (Dict K V × Int) :=
  if !d.isRehashing then some (d, 0)
  else
    match rehashLoop n (n * 10) d with
    | none => none
    | some (d1, true) => some (d1, 1)
    | some (d1, false) =>
      if d1.ht0.used = 0 then
        some ({ d1 with ht0 := d1.ht1, ht1 := _dictReset, rehashidx := -1 }, 1)
      else some (d1, 1)

/-- The method `Dict.rehashStep`. -/
def Dict.rehashStep [Key K] (d : Dict K V) : Option (Dict K V) :=
  if d.iterators = 0 then (d.rehash 1).map Prod.fst else some d

/-- The statement `if d.isRehashing() { d.rehashStep() }` that opens the lookup and
update methods. -/
def Dict.stepIfRehashing [Key K] (d : Dict K V) : Option (Dict K V) :=
  if d.isRehashing then d.rehashStep else some d

/-! ## Chains -/

/-- The chain walk `for ; he != nil; he = he.next` of `Find`: the first entry whose
key is the key itself or compares equal to it. -/
def chainFind [Key K] (key : K) : List (Entry K V) → Option (Entry K V)
  | [] => none
  | he :: next => if keyMatch key he.key then some he else chainFind key next

/-- The chain walk of `keyIndex`: the position of the first entry whose key is the key
itself or compares equal to it. -/
def chainPos [Key K] (key : K) : List (Entry K V) → Option Nat
  | [] => none
  | he :: next =>
    if keyMatch key he.key then some 0 else (chainPos key next).map (· + 1)

/-- The chain walk of `genericDelete`: the first entry whose key is the key itself or
compares equal to it, and the chain with that entry unlinked. -/
def chainUnlink [Key K] (key : K) :
    List (Entry K V) → Option (Entry K V × List (Entry K V))
  | [] => none
  | he :: next =>
    if keyMatch key he.key then some (he, next)
    else (chainUnlink key next).map (fun r => (r.1, he :: r.2))

/-- The table `d.ht[t]`. -/
def Dict.ht (d : Dict K V) (t : Nat) : dictht K V :=
  if t = 0 then d.ht0 else d.ht1

/-- The dictionary with `d.ht[t]` replaced. -/
def Dict.setHt (d : Dict K V) (t : Nat) (h : dictht K V) : Dict K V :=
  if t = 0 then { d with ht0 := h } else { d with ht1 := h }

/-- The entry a pointer points to. -/
def Dict.deref (d : Dict K V) (r : EntryRef) : Option (Entry K V) :=
  match (d.ht r.table).table[r.idx]? with
  | none => none
  | some chain => chain[r.pos]?

/-- The dictionary after an assignment to the `value` field of the entry `r` points
to. -/
def Dict.storeVal (d : Dict K V) (r : EntryRef) (v : V) : Option (Dict K V) :=
  match (d.ht r.table).table[r.idx]? with
  | none => none
  | some chain =>
    match chain[r.pos]? with
    | none => none
    | some e =>
      some (d.setHt r.table
        { d.ht r.table with
          table := (d.ht r.table).table.set r.idx (chain.set r.pos { e with value := some v }) })

/-! ## Lookup and update -/

/-- The method `Dict.keyIndex`: the dictionary after the growth check, the returned
index, and the pointer left in `*existing` (a caller that passes `nil` ignores it). -/
def Dict.keyIndex [Key K] (d : Dict K V) (key : K) (hash : Nat) :
    Option (Dict K V × Int × Option EntryRef) :=
  match d.expandIfNeeded with
  | none => none
  | some (d1, r) =>
    if r = DictErr then some (d1, -1, none)
    else
      let idx0 := hash &&& d1.ht0.sizemask
      match d1.ht0.table[idx0]? with
      | none => none
      | some c0 =>
        match chainPos key c0 with
        | some p => some (d1, -1, some ⟨0, idx0, p⟩)
        | none =>
          if !d1.isRehashing then some (d1, idx0, none)
          else
            let idx1 := hash &&& d1.ht1.sizemask
            match d1.ht1.table[idx1]? with
            | none => none
            | some c1 =>
              match chainPos key c1 with
              | some p => some (d1, -1, some ⟨1, idx1, p⟩)
              | none => some (d1, idx1, none)

/-- What `addRaw` hands back: the dictionary, the pointer it returns (`none` for
`nil`), the pointer left in `*existing`, and the calls it made. -/
structure AddRawResult (K V : Type) where
  dict : Dict K V
  entry : Option EntryRef
  existing : Option EntryRef
  events : List (Event K V)

/-- The method `Dict.addRaw`. -/
def Dict.addRaw [Key K] (d : Dict K V) (key : K) : Option (AddRawResult K V) :=
  match d.stepIfRehashing with
  | none => none
  | some d1 =>
    match d1.keyIndex key (Key.HashFunction key) with
    | none => none
    | some (d2, index, existing) =>
      if index = -1 then some ⟨d2, none, existing, []⟩
      else
        let t := if d2.isRehashing then 1 else 0
        let ht := d2.ht t
        match bucketAt ht.table index with
        | none => none
        | some chain =>
          let entiry : Entry K V := { key := Key.Dup key, value := none }
          some ⟨d2.setHt t
                  { ht with table := ht.table.set index.toNat (entiry :: chain),
                            used := incr ht.used },
                some ⟨t, index.toNat, 0⟩, existing, [Event.keyDup key]⟩

/-- The method `Entry.setVal` applied through a pointer into the dictionary. -/
def Dict.setVal [Value V] (d : Dict K V) (r : EntryRef) (val : V) :
    Option (Dict K V × List (Event K V)) :=
  (d.storeVal r (Value.Dup val)).map (fun d1 => (d1, [Event.valDup val]))

/-- The method `Entry.freeKey`. -/
def Entry.freeKey (e : Entry K V) : List (Event K V) :=
  [Event.keyDestructor e.key]

/-- The method `Entry.freeVal`, which panics on a `nil` value. -/
def Entry.freeVal (e : Entry K V) : Option (List (Event K V)) :=
  e.value.map (fun v => [Event.valDestructor v])

/-- The method `Dict.Add`. -/
def Dict.Add [Key K] [Value V] (d : Dict K V) (key : K) (value : V) :
    Option (Dict K V × GoError × List (Event K V)) :=
  match d.addRaw key with
  | none => none
  | some r =>
    match r.entry with
    | none => some (r.dict, GoError.ErrDict, r.events)
    | some entry =>
      match r.dict.setVal entry value with
      | none => none
      | some (d1, ev) => some (d1, GoError.nil, r.events ++ ev)

/-- The method `Dict.Replace`. -/
def Dict.Replace [Key K] [Value V] (d : Dict K V) (key : K) (value : V) :
    Option (Dict K V × Int × List (Event K V)) :=
  match d.addRaw key with
  | none => none
  | some r =>
    match r.entry with
    | some entry =>
      match r.dict.setVal entry value with
      | none => none
      | some (d1, ev) => some (d1, 1, r.events ++ ev)
    | none =>
      match r.existing with
      | none => none
      | some existing =>
        match r.dict.deref existing with
        | none => none
        | some auxentry =>
          match r.dict.setVal existing value with
          | none => none
          | some (d1, ev) =>
            match auxentry.freeVal with
            | none => none
            | some ev1 => some (d1, 0, r.events ++ ev ++ ev1)

/-- The method `Dict.Find`. -/
def Dict.Find [Key K] (d : Dict K V) (key : K) : Option (Dict K V × Option (Entry K V)) :=
  if d.size = 0 then some (d, none)
  else
    match d.stepIfRehashing with
    | none => none
    | some d1 =>
      let h := Key.HashFunction key
      match d1.ht0.table[h &&& d1.ht0.sizemask]? with
      | none => none
      | some c0 =>
        match chainFind key c0 with
        | some he => some (d1, some he)
        | none =>
          if !d1.isRehashing then some (d1, none)
          else
            match d1.ht1.table[h &&& d1.ht1.sizemask]? with
            | none => none
            | some c1 => some (d1, chainFind key c1)

/-- The method `Dict.FetchValue`; the result `none` is the `nil` value. -/
def Dict.FetchValue [Key K] (d : Dict K V) (key : K) : Option (Dict K V × Option V) :=
  match d.Find key with
  | none => none
  | some (d1, none) => some (d1, none)
  | some (d1, some he) => some (d1, he.value)

/-- The statements of `genericDelete` that follow the unlinking of `he` from table
`t`. -/
def Dict.afterUnlink (d : Dict K V) (t : Nat) (idx : Nat) (he : Entry K V)
    (rest : List (Entry K V)) (nofree : Int) :
    Option (Dict K V × Option (Entry K V) × List (Event K V)) :=
  let ht := d.ht t
  let d1 := d.setHt t { ht with table := ht.table.set idx rest, used := decr ht.used }
  if nofree = 0 then
    match he.freeVal with
    | none => none
    | some ev => some (d1, some he, he.freeKey ++ ev)
  else some (d1, some he, [])

/-- The method `Dict.genericDelete`. -/
def Dict.genericDelete [Key K] (d : Dict K V) (key : K) (nofree : Int) :
    Option (Dict K V × Option (Entry K V) × List (Event K V)) :=
  if d.size = 0 then some (d, none, [])
  else
    match d.stepIfRehashing with
    | none => none
    | some d1 =>
      let h := Key.HashFunction key
      let idx0 := h &&& d1.ht0.sizemask
      match d1.ht0.table[idx0]? with
      | none => none
      | some c0 =>
        match chainUnlink key c0 with
        | some (he, rest) => d1.afterUnlink 0 idx0 he rest nofree
        | none =>
          if !d1.isRehashing then some (d1, none, [])
          else
            let idx1 := h &&& d1.ht1.sizemask
            match d1.ht1.table[idx1]? with
            | none => none
            | some c1 =>
              match chainUnlink key c1 with
              | some (he, rest) => d1.afterUnlink 1 idx1 he rest nofree
              | none => some (d1, none, [])

/-- The method `Dict.Delete`. -/
def Dict.Delete [Key K] (d : Dict K V) (key : K) :
    Option (Dict K V × Int × List (Event K V)) :=
  match d.genericDelete key 0 with
  | none => none
  | some (d1, none, ev) => some (d1, DictErr, ev)
  | some (d1, some _, ev) => some (d1, DictOK, ev)

/-- The method `Dict.Unlink`. -/
def Dict.Unlink [Key K] (d : Dict K V) (key : K) :
    Option (Dict K V × Option (Entry K V) × List (Event K V)) :=
  d.genericDelete key 1

/-- The method `Dict.Resize`. -/
def Dict.Resize (d : Dict K V) : Option (Dict K V × Int) :=
  if d.isRehashing then some (d, DictErr)
  else
    let minimal := if d.ht0.used < dictHTInitailSize then dictHTInitailSize else d.ht0.used
    d.expand minimal

/-! ## Calls and runs -/

/-- A call of one of the public methods. -/
inductive Op (K V : Type) where
  | Add (key : K) (value : V)
  | Replace (key : K) (value : V)
  | Find (key : K)
  | FetchValue (key : K)
  | Delete (key : K)
  | Unlink (key : K)
  | Resize
  deriving DecidableEq, Repr

/-- A call of a public method: the dictionary it leaves behind, and whether it reports
success (`Add` returns `nil`, `Find`, `FetchValue` and `Unlink` return something other
than `nil`, `Delete` and `Resize` return `DictOK`; `Replace` always stores the value).
The result is `none` when the call does not return. -/
def Dict.call [Key K] [Value V] (d : Dict K V) : Op K V → Option (Dict K V × Bool)
  | Op.Add key value => (d.Add key value).map (fun r => (r.1, r.2.1 = GoError.nil))
  | Op.Replace key value => (d.Replace key value).map (fun r => (r.1, true))
  | Op.Find key => (d.Find key).map (fun r => (r.1, r.2.isSome))
  | Op.FetchValue key => (d.FetchValue key).map (fun r => (r.1, r.2.isSome))
  | Op.Delete key => (d.Delete key).map (fun r => (r.1, r.2.1 = DictOK))
  | Op.Unlink key => (d.Unlink key).map (fun r => (r.1, r.2.1.isSome))
  | Op.Resize => d.Resize.map (fun r => (r.1, r.2 = DictOK))

/-- The dictionary a call leaves behind. -/
def Dict.exec [Key K] [Value V] (d : Dict K V) (op : Op K V) : Option (Dict K V) :=
  (d.call op).map (·.1)

/-- The dictionary a sequence of calls leaves behind. -/
def Dict.run [Key K] [Value V] (d : Dict K V) : List (Op K V) → Option (Dict K V)
  | [] => some d
  | op :: ops =>
    match d.exec op with
    | none => none
    | some d1 => d1.run ops

/-- The dictionary a sequence of calls leaves behind, and the calls with what they
reported, oldest first. -/
def Dict.runLog [Key K] [Value V] (d : Dict K V) :
    List (Op K V) → Option (Dict K V × List (Op K V × Bool))
  | [] => some (d, [])
  | op :: ops =>
    match d.call op with
    | none => none
    | some (d1, ok) =>
      match d1.runLog ops with
      | none => none
      | some (d2, log) => some (d2, (op, ok) :: log)

/-- The calls `Add` of a list of pairs, in order, with the errors they return. -/
def Dict.addAll [Key K] [Value V] (d : Dict K V) :
    List (K × V) → Option (Dict K V × List GoError)
  | [] => some (d, [])
  | kv :: kvs =>
    match d.Add kv.1 kv.2 with
    | none => none
    | some (d1, err, _) =>
      match d1.addAll kvs with
      | none => none
      | some (d2, errs) => some (d2, err :: errs)

/-- The dictionary after `m` calls `rehash(1)`. -/
def Dict.rehashTimes [Key K] (d : Dict K V) : Nat → Option (Dict K V)
  | 0 => some d
  | m + 1 =>
    match d.rehash 1 with
    | none => none
    | some (d1, _) => d1.rehashTimes m

/-- The finite map of the specification, read off a history of calls: the value that the
last successful `Add` or the last `Replace` stored for a key that compares equal to `k`,
unless a later `Delete` or `Unlink` removed it.  The argument `cur` is the value stored
before the history starts. -/
def lastStored [Key K] (k : K) : Option V → List (Op K V × Bool) → Option V
  | cur, [] => cur
  | cur, (Op.Add key value, ok) :: log =>
    lastStored k (if ok = true ∧ Key.Compare k key = 0 then some value else cur) log
  | cur, (Op.Replace key value, _) :: log =>
    lastStored k (if Key.Compare k key = 0 then some value else cur) log
  | cur, (Op.Delete key, _) :: log =>
    lastStored k (if Key.Compare k key = 0 then none else cur) log
  | cur, (Op.Unlink key, _) :: log =>
    lastStored k (if Key.Compare k key = 0 then none else cur) log
  | cur, (_, _) :: log => lastStored k cur log

/-- The entries linked in a table, bucket after bucket. -/
def dictht.entries (h : dictht K V) : List (Entry K V) :=
  h.table.flatten

/-- The entries linked in the dictionary. -/
def Dict.entries (d : Dict K V) : List (Entry K V) :=
  d.ht0.entries ++ d.ht1.entries

/-- The number of `Entry` objects a process can hold at the same time: an `Entry` takes
five machine words, so an address space of `2 ^ 64` bytes has room for fewer. -/
def entryLimit : Nat := 2 ^ 62

/-- The dictionaries that calls of the public methods build from `Create()` on a machine
that can hold them: the calls return, and fewer than `entryLimit` entries are linked
after each of them. -/
inductive Reachable [Key K] [Value V] : Dict K V → Prop where
  | create : Reachable Create
  | step (d d1 : Dict K V) (op : Op K V) :
      Reachable d → d.exec op = some d1 → d1.entries.length < entryLimit → Reachable d1

/-! ## The key and value types of the test suite -/

/-- The key type `keyT` of `dict_test.go`, by the struct a pointer points to.  Two
pointers to structs with the same field compare equal under `Compare`, so the test
`key == he.key || key.Compare(he.key) == 0` has the same outcome on the pointers as on
the structs. -/
structure keyT where
  key : Nat
  deriving DecidableEq, Repr

/-- The value type `valueT` of `dict_test.go`. -/
structure valueT where
  value : Nat
  deriving DecidableEq, Repr

instance : Key keyT where
  HashFunction k := k.key % 10
  Compare k key := if k.key = key.key then 0 else 1
  Dup k := { key := k.key }
  decEq := inferInstance

instance : Value valueT where
  Dup v := { value := v.value }

/-- The calls `dict.Add(test.key, test.value)` of `TestDict` for the keys below `num`. -/
def testAdds (num : Nat) : List (Op keyT valueT) :=
  (List.range num).map (fun i => Op.Add ⟨i⟩ ⟨i⟩)

/-! ## The contract on keys and the invariant of the dictionary -/

/-- What the dictionary asks of a key type: `Compare` is an equivalence, keys that
compare equal have the same hash, and a duplicate compares equal to its original. -/
structure KeyLaws (K : Type) [Key K] : Prop where
  compare_refl : ∀ a : K, Key.Compare a a = 0
  compare_symm : ∀ a b : K, Key.Compare a b = 0 → Key.Compare b a = 0
  compare_trans : ∀ a b c : K, Key.Compare a b = 0 → Key.Compare b c = 0 →
    Key.Compare a c = 0
  hash_congr : ∀ a b : K, Key.Compare a b = 0 → Key.HashFunction a = Key.HashFunction b
  dup_compare : ∀ a : K, Key.Compare (Key.Dup a) a = 0

/-- A table that `expand` allocated: its size is a power of two between `4` and
`2 ^ 63`, the mask is the size less one, and there is one bucket per index. -/
def dictht.Allocated (h : dictht K V) : Prop :=
  ∃ n, 2 ≤ n ∧ n ≤ 63 ∧ h.size = 2 ^ n ∧ h.sizemask = h.size - 1 ∧ h.table.length = h.size

/-- The invariant of one table: it is unallocated or allocated, `used` counts the linked
entries, every linked entry has a value, and, when the key type keeps its contract, every
entry stands in the bucket of its hash. -/
structure dictht.WF [Key K] (h : dictht K V) : Prop where
  shape : h = _dictReset ∨ h.Allocated
  used_eq : h.used = h.entries.length
  vals : ∀ e ∈ h.entries, e.value ≠ none
  place : KeyLaws K → ∀ (i : Nat) (chain : List (Entry K V)), h.table[i]? = some chain →
    ∀ e ∈ chain, Key.HashFunction e.key &&& h.sizemask = i

/-- The invariant that holds between any two statements of `rehash`: both tables are
well formed; `ht[1]` is unallocated unless a rehash is in progress; while one is, both
tables are allocated, with different sizes, and the buckets of `ht[0]` below `rehashidx`
are empty; and, when the key type keeps its contract, no two linked entries have keys
that compare equal. -/
structure InvW [Key K] (d : Dict K V) : Prop where
  wf0 : d.ht0.WF
  wf1 : d.ht1.WF
  nodup : KeyLaws K → d.entries.Pairwise (fun a b => Key.Compare a.key b.key ≠ 0)
  idle : d.rehashidx = -1 → d.ht1 = _dictReset
  busy : d.rehashidx ≠ -1 → ∃ r : Nat, d.rehashidx = (r : Int) ∧ r ≤ d.ht0.size ∧
    d.ht0.Allocated ∧ d.ht1.Allocated ∧ d.ht0.size ≠ d.ht1.size ∧
    ∀ i, i < r → d.ht0.table[i]? = some []

/-- The invariant of the dictionary between two calls: `InvW`, and `rehashidx` is an
index of `ht[0]` while a rehash is in progress. -/
structure Inv [Key K] (d : Dict K V) : Prop where
  toInvW : InvW d
  idx_lt : d.rehashidx ≠ -1 → d.rehashidx < (d.ht0.size : Int)

/-- The entry at which the search that `Find`, `keyIndex` and `genericDelete` share
stops: the first entry with a key that is the key itself or compares equal to it in the
bucket of the hash in `ht[0]`, or else, while rehashing, in the bucket of the hash in
`ht[1]`. -/
def Dict.lookup [Key K] (d : Dict K V) (key : K) : Option (Entry K V) :=
  match d.ht0.table[Key.HashFunction key &&& d.ht0.sizemask]? with
  | none => none
  | some c0 =>
    match chainFind key c0 with
    | some he => some he
    | none =>
      if !d.isRehashing then none
      else
        match d.ht1.table[Key.HashFunction key &&& d.ht1.sizemask]? with
        | none => none
        | some c1 => chainFind key c1

/-- An entry with a key that compares equal to `k` is linked in the dictionary. -/
def Dict.Stored [Key K] (d : Dict K V) (k : K) (e : Entry K V) : Prop :=
  e ∈ d.entries ∧ Key.Compare k e.key = 0

/-- The sum `ht[0].used + ht[1].used`. -/
def Dict.total (d : Dict K V) : Nat :=
  d.ht0.used + d.ht1.used

/-- The number `t` is the least power of two that is at least `m`. -/
def IsLeastPow2 (m t : Nat) : Prop :=
  (∃ n, t = 2 ^ n) ∧ m ≤ t ∧ ∀ p, (∃ n, p = 2 ^ n) → m ≤ p → t ≤ p

/-- The pairs `(test.key, test.value)` of `TestDict` for the keys below `num`. -/
def testPairs (num : Nat) : List (keyT × valueT) :=
  (List.range num).map (fun i => (⟨i⟩, ⟨i⟩))

/-- The dictionary a sequence of calls builds from `Create()` in the test suite. -/
def testDict (ops : List (Op keyT valueT)) : Dict keyT valueT :=
  ((Create : Dict keyT valueT).run ops).getD Create

/-- A run that leaves a table of size `8` with three entries: five insertions, three
lookups that finish the rehash, and two deletions. -/
def shrinkOps : List (Op keyT valueT) :=
  testAdds 5 ++ [Op.Find ⟨0⟩, Op.Find ⟨0⟩, Op.Find ⟨0⟩, Op.Delete ⟨0⟩, Op.Delete ⟨1⟩]

/-- The dictionary stands for the finite map `f`: a key has an entry exactly when `f`
has a value for it, and the entry then holds the duplicate of that value. -/
def Dict.Represents [Key K] [Value V] (d : Dict K V) (f : K → Option V) : Prop :=
  ∀ k, (∀ e, d.Stored k e → ∃ v, f k = some v ∧ e.value = some (Value.Dup v)) ∧
    (∀ v, f k = some v → ∃ e, d.Stored k e)

/-- One step of `lastStored`: the value stored for `k` after a call that reported `ok`. -/
def storedAfter [Key K] (k : K) (cur : Option V) : Op K V → Bool → Option V
  | Op.Add key value, ok => if ok = true ∧ Key.Compare k key = 0 then some value else cur
  | Op.Replace key value, _ => if Key.Compare k key = 0 then some value else cur
  | Op.Delete key, _ => if Key.Compare k key = 0 then none else cur
  | Op.Unlink key, _ => if Key.Compare k key = 0 then none else cur
  | _, _ => cur

/-- The calls of `TestDict`, in order. -/
def testScenario : List (Op keyT valueT) :=
  testAdds 20 ++
    [Op.FetchValue ⟨3⟩, Op.Delete ⟨2⟩, Op.Find ⟨2⟩, Op.Unlink ⟨4⟩, Op.Replace ⟨20⟩ ⟨20⟩,
     Op.Replace ⟨5⟩ ⟨55555⟩, Op.FetchValue ⟨5⟩]

/-! ## Teardown -/

/-- The calls `he.freeKey(); he.freeVal()` on one entry, when its value is not `nil`. -/
def Entry.destructorCalls (e : Entry K V) : List (Event K V) :=
  e.freeKey ++ (e.freeVal).getD []

/-- The inner loop `for he = ht.table[i]; he != nil; he = nextHe` of `clear`: the
counter `used` after the chain, and the calls made. -/
def clearChain : List (Entry K V) → Nat → Option (Nat × List (Event K V))
  | [], used => some (used, [])
  | he :: nextHe, used =>
    match he.freeVal with
    | none => none
    | some ev =>
      match clearChain nextHe (decr used) with
      | none => none
      | some (u, evs) => some (u, he.freeKey ++ ev ++ evs)

/-- The outer loop `for i = 0; i < ht.size && ht.used > 0; i++` of `clear`, by recursion
on `ht.size - i`. -/
def clearLoop (table : List (List (Entry K V))) :
    Nat → Nat → Nat → Option (Nat × List (Event K V))
  | 0, _, used => some (used, [])
  | k + 1, i, used =>
    if used > 0 then
      match table[i]? with
      | none => none
      | some chain =>
        match clearChain chain used with
        | none => none
        | some (u, ev) =>
          match clearLoop table k (i + 1) u with
          | none => none
          | some (u1, evs) => some (u1, ev ++ evs)
    else some (used, [])

/-- The method `Dict.clear`: the table object it leaves behind and the calls it makes.
The assignment `ht = _dictReset()` rebinds the parameter only, so `size` and `sizemask`
keep their values. -/
def clear (ht : dictht K V) : Option (dictht K V × List (Event K V)) :=
  match clearLoop ht.table ht.size 0 ht.used with
  | none => none
  | some (u, ev) => some ({ ht with table := [], used := u }, ev)

/-- The method `Dict.Close`; the assignment `d = nil` rebinds the receiver only. -/
def Dict.Close (d : Dict K V) : Option (Dict K V × List (Event K V)) :=
  match clear d.ht0 with
  | none => none
  | some (h0, ev0) =>
    match clear d.ht1 with
    | none => none
    | some (h1, ev1) => some ({ d with ht0 := h0, ht1 := h1 }, ev0 ++ ev1)

/-- The dictionaries built from `Create()` by calls of the public methods and of
`rehash`, on a machine that can hold them. -/
inductive ReachableR [Key K] [Value V] : Dict K V → Prop where
  | create : ReachableR Create
  | step (d d1 : Dict K V) (op : Op K V) :
      ReachableR d → d.exec op = some d1 → d1.entries.length < entryLimit → ReachableR d1
  | rehash (d d1 : Dict K V) (n : Nat) (r : Int) :
      ReachableR d → d.rehash n = some (d1, r) → ReachableR d1

/-- A key type whose hash is the key itself. -/
structure idKeyT where
  key : Nat
  deriving DecidableEq, Repr

instance : Key idKeyT where
  HashFunction k := k.key
  Compare k key := if k.key = key.key then 0 else 1
  Dup k := { key := k.key }
  decEq := inferInstance

/-- A run that leaves a table of size `16` with one entry, in bucket `12`, at the start
of a rehash to size `4`: ten insertions, lookups that finish the rehash to size `16`,
nine deletions and a call of `Resize`. -/
def sparseOps : List (Op idKeyT valueT) :=
  ([0, 1, 2, 3, 4, 5, 6, 7, 8, 12].map (fun i => Op.Add ⟨i⟩ ⟨i⟩)) ++
  (List.replicate 8 (Op.Find ⟨12⟩)) ++
  ((List.range 9).map (fun i => Op.Delete ⟨i⟩)) ++ [Op.Resize]

/-- The dictionary that `sparseOps` builds from `Create()`. -/
def sparseDict : Dict idKeyT valueT :=
  ((Create : Dict idKeyT valueT).run sparseOps).getD Create

/-- A key type that breaks the contract on keys: `Compare` never returns `0`, and `Dup`
returns its receiver, so that the key of an entry is the key that was passed to `Add`. -/
structure loneKeyT where
  key : Nat
  deriving DecidableEq, Repr

instance : Key loneKeyT where
  HashFunction k := k.key
  Compare _ _ := 1
  Dup k := k
  decEq := inferInstance

/-- A run that leaves the chain of the keys `12`, `8`, `4`, `0` in bucket `0` of a table
of size `4`, at the start of the rehash to size `8` that the insertion of `16` begins. -/
def splitOps : List (Op idKeyT valueT) :=
  [0, 4, 8, 12, 16].map (fun i => Op.Add ⟨i⟩ ⟨i⟩)

/-- The dictionary that `splitOps` builds from `Create()`. -/
def splitDict : Dict idKeyT valueT :=
  ((Create : Dict idKeyT valueT).run splitOps).getD Create

/-! ## Growth along a run of insertions -/

/-- The size of the table that the growth check allocates on `d`, if it allocates one:
`expand` installs a new `ht[0]` or a new `ht[1]`. -/
def Dict.allocatedBy (d : Dict K V) : Option Nat :=
  match d.expandIfNeeded with
  | none => none
  | some (d1, _) =>
    if d1.ht0.size ≠ d.ht0.size then some d1.ht0.size
    else if d1.ht1.size ≠ d.ht1.size then some d1.ht1.size
    else none

/-- The sizes of the tables that the calls `Add` of a list of pairs allocate, in order.
The growth check of a call runs on the dictionary that the rehash step of that call
leaves behind. -/
def Dict.allocSizes [Key K] [Value V] (d : Dict K V) : List (K × V) → List Nat
  | [] => []
  | kv :: kvs =>
    match d.stepIfRehashing with
    | none => []
    | some d0 =>
      match d.Add kv.1 kv.2 with
      | none => d0.allocatedBy.toList
      | some (d1, _, _) => d0.allocatedBy.toList ++ d1.allocSizes kvs

/-! ## The order of a chain -/

/-- The index, in a run that starts at `d` with the call number `i`, of the last call
that created an entry for a key that compares equal to `k`: an `Add` that returned `nil`
or a `Replace` that returned `1`.  The argument `cur` is the index known so far. -/
def Dict.linkedAt [Key K] [Value V] (d : Dict K V) (k : K) :
    Nat → Option Nat → List (Op K V) → Option Nat
  | _, cur, [] => cur
  | i, cur, op :: ops =>
    match d.exec op with
    | none => cur
    | some d1 =>
      let created : Bool :=
        match op with
        | Op.Add key value =>
          (d.Add key value).map (fun r => r.2.1) == some GoError.nil && Key.Compare k key == 0
        | Op.Replace key value =>
          (d.Replace key value).map (fun r => r.2.1) == some 1 && Key.Compare k key == 0
        | _ => false
      d1.linkedAt k (i + 1) (if created then some i else cur) ops

/-- The order of chains as the specification words it: in the dictionary `d` that the run
`ops` builds from `Create()`, whenever an entry `a` precedes an entry `b` in a bucket
chain of `ht[0]` or of `ht[1]`, the key of `a` was added by a later call than the key of
`b`. -/
def MostRecentFirst [Key K] [Value V] (ops : List (Op K V)) (d : Dict K V) : Prop :=
  ∀ (t i p q : Nat) (chain : List (Entry K V)) (a b : Entry K V),
    (t = 0 ∨ t = 1) → (d.ht t).table[i]? = some chain → p < q →
    chain[p]? = some a → chain[q]? = some b →
    ∃ ta tb, (Create : Dict K V).linkedAt a.key 0 none ops = some ta ∧
      (Create : Dict K V).linkedAt b.key 0 none ops = some tb ∧ tb < ta

end dict

/-! # The package `adlist`

A pointer to a `Node` is the index of the node in a heap that holds every node allocated
so far; `nil` is `none`.  A method that would dereference `nil` returns `none`. -/

namespace adlist

/-- The struct `Node`. -/
structure Node (V : Type) where
  prev : Option Nat
  next : Option Nat
  value : V

/-- The nodes allocated so far; `&Node{value: value}` appends one. -/
abbrev Heap (V : Type) := List (Node V)

/-- The direction `ALStartHead`. -/
def ALStartHead : Int := 0

/-- The direction `ALStartTail`. -/
def ALStartTail : Int := 1

/-- The struct `Iter`. -/
structure Iter where
  next : Option Nat
  direction : Int

/-- The struct `List`, with the heap of its nodes.  The field `match_` is the field
`match`; the hooks `free` and `dup` are not read by the methods below. -/
structure List (V : Type) where
  heap : Heap V
  head : Option Nat
  tail : Option Nat
  match_ : Option (V → V → Int)
  len : Int

variable {V : Type}

/-- The statement `l.len++` on an `int64`. -/
def incrLen (len : Int) : Int :=
  if len + 1 = 2 ^ 63 then -(2 ^ 63) else len + 1

/-- The function `ListCreate`, called with the option `WithMatch(m)` when `m` is given. -/
def ListCreate (m : Option (V → V → Int)) : List V :=
  { heap := [], head := none, tail := none, match_ := m, len := 0 }

/-- The method `List.AddNodeHead`.  On an empty list the statements
`l.head, l.tail = node, node` and `l.head.next, l.tail.prev = node, node` make the new
node its own successor and its own predecessor. -/
def List.AddNodeHead (l : List V) (value : V) : Option (List V) :=
  let node := l.heap.length
  match l.head with
  | none =>
    some { l with heap := l.heap ++ [{ prev := some node, next := some node, value := value }],
                  head := some node, tail := some node, len := incrLen l.len }
  | some head =>
    match l.heap[head]? with
    | none => none
    | some hn =>
      some { l with heap := l.heap.set head { hn with prev := some node } ++
                      [{ prev := none, next := some head, value := value }],
                    head := some node, len := incrLen l.len }

/-- The method `List.AddNodeTail`. -/
def List.AddNodeTail (l : List V) (value : V) : Option (List V) :=
  let node := l.heap.length
  match l.head with
  | none =>
    some { l with heap := l.heap ++ [{ prev := some node, next := some node, value := value }],
                  head := some node, tail := some node, len := incrLen l.len }
  | some _ =>
    match l.tail with
    | none => none
    | some tail =>
      match l.heap[tail]? with
      | none => none
      | some tn =>
        some { l with heap := l.heap.set tail { tn with next := some node } ++
                        [{ prev := some tail, next := none, value := value }],
                      tail := some node, len := incrLen l.len }

/-- The method `List.Rewind`. -/
def List.Rewind (l : List V) : Iter :=
  { next := l.head, direction := ALStartHead }

/-- The method `Iter.Next`: the iterator after the call and the node returned. -/
def Iter.Next (heap : Heap V) (i : Iter) : Option (Iter × Option Nat) :=
  match i.next with
  | none => some (i, none)
  | some current =>
    match heap[current]? with
    | none => none
    | some n =>
      if i.direction = ALStartHead then some ({ i with next := n.next }, some current)
      else some ({ i with next := n.prev }, some current)

/-- The loop of `SearchKey`, for at most `fuel` calls of `iter.Next()`.  The result
`some none` is `return nil`, `some (some node)` is `return node`, and `none` is a loop
that has not returned after `fuel` rounds.  Without a `match` hook the value of the node
is compared with the key by `==`, which is equality in `V` when a value of `V` is the Go
value that the interface holds (for a pointer type, the pointer). -/
def List.searchLoop [DecidableEq V] (l : List V) (key : V) : Nat → Iter → Option (Option Nat)
  | 0, _ => none
  | fuel + 1, iter =>
    match iter.Next l.heap with
    | none => none
    | some (_, none) => some none
    | some (iter1, some node) =>
      match l.heap[node]? with
      | none => none
      | some n =>
        match l.match_ with
        | some m =>
          if m n.value key > 0 then some (some node) else l.searchLoop key fuel iter1
        | none =>
          if key = n.value then some (some node) else l.searchLoop key fuel iter1

/-- The method `List.SearchKey`, for at most `fuel` rounds of its loop. -/
def List.SearchKey [DecidableEq V] (l : List V) (key : V) (fuel : Nat) : Option (Option Nat) :=
  l.searchLoop key fuel l.Rewind

/-- The value type `valueT` of `adlist_test.go`, by the struct a pointer points to.
The test sets the hook `match`, which reads the field only, so its searches never compare
two pointers; a search without the hook needs a type of pointers instead. -/
structure valueT where
  value : Int
  deriving DecidableEq, Repr

/-- The function `match` of `adlist_test.go`. -/
def testMatch (ptr key : valueT) : Int :=
  if key.value = ptr.value then 1 else 0

/-- The list of `TestAdlist`: the values `1`, `2`, `3` added at the head and `4` at the
tail of `ListCreate(WithMatch(match))`. -/
def testList : Option (List valueT) :=
  (((((ListCreate (some testMatch)).AddNodeHead ⟨1⟩).bind (fun l => l.AddNodeHead ⟨2⟩)).bind
    (fun l => l.AddNodeHead ⟨3⟩)).bind (fun l => l.AddNodeTail ⟨4⟩))

/-- The list `ListCreate(WithMatch(match))` after `AddNodeHead(&valueT{1})`. -/
def oneNodeList : List valueT :=
  ((ListCreate (some testMatch)).AddNodeHead ⟨1⟩).getD (ListCreate none)

end adlist

namespace dict

variable {K V : Type}

/-! ## Lists of buckets -/

theorem flatten_set_append {α : Type} (T : List (List α)) (i : Nat) (c old : List α)
    (h : T[i]? = some old) : ((T.set i c).flatten ++ old).Perm (T.flatten ++ c) := by
  induction T generalizing i with
  | nil => simp at h
  | cons b T ih =>
    cases i with
    | zero =>
      simp only [List.getElem?_cons_zero, Option.some.injEq] at h
      subst h
      simp only [List.set_cons_zero, List.flatten_cons]
      rw [List.append_assoc]
      exact List.perm_append_comm.trans (List.Perm.append_right c List.perm_append_comm)
    | succ i =>
      simp only [List.getElem?_cons_succ] at h
      simp only [List.set_cons_succ, List.flatten_cons, List.append_assoc]
      exact List.Perm.append_left b (ih i h)

theorem flatten_set_cons {α : Type} (T : List (List α)) (i : Nat) (e : α) (old : List α)
    (h : T[i]? = some old) : (T.set i (e :: old)).flatten.Perm (e :: T.flatten) := by
  have h1 := flatten_set_append T i (e :: old) old h
  have h2 : (T.flatten ++ e :: old).Perm ((e :: T.flatten) ++ old) := by
    simp
  exact (List.perm_append_right_iff old).1 (h1.trans h2)

theorem flatten_set_nil {α : Type} (T : List (List α)) (i : Nat) (old : List α)
    (h : T[i]? = some old) : T.flatten.Perm ((T.set i []).flatten ++ old) := by
  simpa using (flatten_set_append T i [] old h).symm

theorem flatten_set_perm {α : Type} (T : List (List α)) (i : Nat) (c old : List α)
    (h : T[i]? = some old) (hc : old.Perm c) : (T.set i c).flatten.Perm T.flatten := by
  have h1 := flatten_set_append T i c old h
  have h2 : (T.flatten ++ c).Perm (T.flatten ++ old) := List.Perm.append_left _ hc.symm
  exact (List.perm_append_right_iff old).1 (h1.trans h2)

theorem mem_flatten_iff_getElem? {α : Type} (T : List (List α)) (e : α) :
    e ∈ T.flatten ↔ ∃ (i : Nat) (ch : List α), T[i]? = some ch ∧ e ∈ ch := by
  rw [List.mem_flatten]
  constructor
  · rintro ⟨c, hc, he⟩
    obtain ⟨i, hi⟩ := List.mem_iff_getElem?.1 hc
    exact ⟨i, c, hi, he⟩
  · rintro ⟨i, c, hi, he⟩
    exact ⟨c, List.mem_iff_getElem?.2 ⟨i, hi⟩, he⟩

theorem getElem?_set_some {α : Type} (T : List α) (i j : Nat) (a c : α)
    (h : (T.set i a)[j]? = some c) : (j = i ∧ c = a) ∨ (j ≠ i ∧ T[j]? = some c) := by
  rw [List.getElem?_set] at h
  by_cases hij : i = j
  · subst hij
    simp only [if_true] at h
    split at h
    · left; simp at h; exact ⟨rfl, h.symm⟩
    · simp at h
  · right
    simp only [hij, if_false] at h
    exact ⟨fun h' => hij h'.symm, h⟩

/-! ## Chains -/

section chains
variable [Key K]

theorem keyMatch_iff_or (a b : K) :
    keyMatch a b = true ↔ (a = b ∨ Key.Compare a b = 0) := by
  unfold keyMatch
  simp only [Bool.or_eq_true, decide_eq_true_eq]

/-- For a key type that keeps its contract the identity test of the chain walks adds
nothing to the comparison. -/
theorem keyMatch_iff (hk : KeyLaws K) (a b : K) :
    keyMatch a b = true ↔ Key.Compare a b = 0 := by
  rw [keyMatch_iff_or]
  constructor
  · rintro (rfl | h)
    · exact hk.compare_refl a
    · exact h
  · exact Or.inr

theorem chainFind_some_match (k : K) (ch : List (Entry K V)) (e : Entry K V)
    (h : chainFind k ch = some e) : e ∈ ch ∧ keyMatch k e.key = true := by
  induction ch with
  | nil => simp [chainFind] at h
  | cons he next ih =>
    simp only [chainFind] at h
    split at h
    · simp only [Option.some.injEq] at h
      subst h
      exact ⟨List.mem_cons_self _ _, by assumption⟩
    · exact ⟨List.mem_cons_of_mem _ (ih h).1, (ih h).2⟩

theorem chainFind_none_match (k : K) (ch : List (Entry K V)) (h : chainFind k ch = none) :
    ∀ e ∈ ch, ¬ keyMatch k e.key = true := by
  induction ch with
  | nil => simp
  | cons he next ih =>
    simp only [chainFind] at h
    split at h
    · simp at h
    · intro e he'
      rcases List.mem_cons.1 he' with rfl | hm
      · assumption
      · exact ih h e hm

theorem chainFind_some (hk : KeyLaws K) (k : K) (ch : List (Entry K V)) (e : Entry K V)
    (h : chainFind k ch = some e) : e ∈ ch ∧ Key.Compare k e.key = 0 :=
  ⟨(chainFind_some_match k ch e h).1, (keyMatch_iff hk _ _).1 (chainFind_some_match k ch e h).2⟩

theorem chainFind_none (hk : KeyLaws K) (k : K) (ch : List (Entry K V))
    (h : chainFind k ch = none) : ∀ e ∈ ch, Key.Compare k e.key ≠ 0 :=
  fun e he hc => chainFind_none_match k ch h e he ((keyMatch_iff hk _ _).2 hc)

theorem chainFind_eq_none_iff (hk : KeyLaws K) (k : K) (ch : List (Entry K V)) :
    chainFind k ch = none ↔ ∀ e ∈ ch, Key.Compare k e.key ≠ 0 := by
  constructor
  · exact chainFind_none hk k ch
  · intro h
    cases hf : chainFind k ch with
    | none => rfl
    | some e =>
      exact absurd (chainFind_some hk k ch e hf).2 (h e (chainFind_some hk k ch e hf).1)

theorem chainPos_spec (k : K) (ch : List (Entry K V)) :
    (chainPos k ch).bind (fun p => ch[p]?) = chainFind k ch ∧
      (chainPos k ch = none ↔ chainFind k ch = none) := by
  induction ch with
  | nil => simp [chainPos, chainFind]
  | cons he next ih =>
    simp only [chainPos, chainFind]
    split
    · simp
    · obtain ⟨ih1, ih2⟩ := ih
      cases hp : chainPos k next with
      | none => simp [hp] at ih1 ih2 ⊢; exact ⟨ih2.symm, ih2⟩
      | some p => simp [hp] at ih1 ih2 ⊢; exact ⟨ih1, ih2⟩

theorem chainPos_some (k : K) (ch : List (Entry K V)) (p : Nat) (h : chainPos k ch = some p) :
    ∃ e, ch[p]? = some e ∧ chainFind k ch = some e := by
  have h1 := (chainPos_spec k ch).1
  rw [h] at h1
  simp only [Option.some_bind] at h1
  cases hc : ch[p]? with
  | none =>
    rw [hc] at h1
    have := (chainPos_spec k ch).2.2 h1.symm
    rw [h] at this; simp at this
  | some e => exact ⟨e, rfl, by rw [← h1, hc]⟩

theorem chainPos_none (k : K) (ch : List (Entry K V)) (h : chainPos k ch = none) :
    chainFind k ch = none := (chainPos_spec k ch).2.1 h

theorem chainUnlink_some (k : K) (ch : List (Entry K V)) (e : Entry K V)
    (rest : List (Entry K V)) (h : chainUnlink k ch = some (e, rest)) :
    chainFind k ch = some e ∧ ch.Perm (e :: rest) := by
  induction ch generalizing rest with
  | nil => simp [chainUnlink] at h
  | cons he next ih =>
    simp only [chainUnlink] at h
    simp only [chainFind]
    split
    · rename_i hc
      simp only [hc, if_true, Option.some.injEq, Prod.mk.injEq] at h
      obtain ⟨rfl, rfl⟩ := h
      exact ⟨rfl, List.Perm.refl _⟩
    · rename_i hc
      simp only [hc, if_false] at h
      cases hu : chainUnlink k next with
      | none => simp [hu] at h
      | some r =>
        obtain ⟨e', rest'⟩ := r
        simp only [hu, Option.map_some', Option.some.injEq, Prod.mk.injEq] at h
        obtain ⟨rfl, rfl⟩ := h
        obtain ⟨h1, h2⟩ := ih rest' hu
        exact ⟨h1, (List.Perm.cons he h2).trans (List.Perm.swap _ _ _)⟩

theorem chainUnlink_none (k : K) (ch : List (Entry K V)) (h : chainUnlink k ch = none) :
    chainFind k ch = none := by
  induction ch with
  | nil => rfl
  | cons he next ih =>
    simp only [chainUnlink] at h
    simp only [chainFind]
    split
    · rename_i hc; simp [hc] at h
    · rename_i hc
      simp only [hc, Bool.false_eq_true, if_false, Option.map_eq_none'] at h
      exact ih h

theorem chainUnlink_of_find (k : K) (ch : List (Entry K V)) (e : Entry K V)
    (h : chainFind k ch = some e) : ∃ rest, chainUnlink k ch = some (e, rest) := by
  cases hu : chainUnlink k ch with
  | none => rw [chainUnlink_none k ch hu] at h; simp at h
  | some r =>
    obtain ⟨e', rest⟩ := r
    have := (chainUnlink_some k ch e' rest hu).1
    rw [h] at this
    simp only [Option.some.injEq] at this
    subst this
    exact ⟨rest, rfl⟩

end chains

/-! ## Arithmetic on `uint64` -/

theorem incr_eq (x : Nat) (h : x < 2 ^ 63) : incr x = x + 1 := by
  unfold incr
  exact Nat.mod_eq_of_lt (by omega)

theorem decr_eq (x : Nat) (h0 : 0 < x) (h : x < 2 ^ 64) : decr x = x - 1 := by
  unfold decr
  have : x + (2 ^ 64 - 1) = (x - 1) + 2 ^ 64 := by omega
  rw [this, Nat.add_mod_right]
  exact Nat.mod_eq_of_lt (by omega)

theorem nextPowerLoop_spec (size : Nat) (hs : size ≤ 2 ^ 63) :
    ∀ (fuel n : Nat), 2 ≤ n → n ≤ 63 → 64 ≤ fuel + n → (n = 2 ∨ 2 ^ (n - 1) < size) →
      ∃ m, 2 ≤ m ∧ m ≤ 63 ∧ nextPowerLoop fuel (2 ^ n) size = some (2 ^ m) ∧
        size ≤ 2 ^ m ∧ (m = 2 ∨ 2 ^ (m - 1) < size) := by
  intro fuel
  induction fuel with
  | zero => intro n _ h2 h3; omega
  | succ fuel ih =>
    intro n h1 h2 h3 h4
    simp only [nextPowerLoop]
    by_cases hlt : 2 ^ n < size
    · simp only [hlt, if_true]
      have hn : n < 63 := by
        by_contra hcon
        have : n = 63 := by omega
        subst this
        omega
      have hpow : 2 ^ n * 2 % 2 ^ 64 = 2 ^ (n + 1) := by
        rw [← pow_succ]
        apply Nat.mod_eq_of_lt
        exact Nat.pow_lt_pow_right (by norm_num) (by omega)
      rw [hpow]
      exact ih (n + 1) (by omega) (by omega) (by omega) (Or.inr (by simpa using hlt))
    · simp only [hlt, if_false]
      exact ⟨n, h1, h2, rfl, by omega, h4⟩

theorem nextPower_spec (size : Nat) (hs : size ≤ 2 ^ 63) :
    ∃ m, 2 ≤ m ∧ m ≤ 63 ∧ nextPower size = some (2 ^ m) ∧ size ≤ 2 ^ m ∧
      (m = 2 ∨ 2 ^ (m - 1) < size) := by
  unfold nextPower nextPowerFuel
  have hg : ¬ (size >>> 1 ≥ 2 ^ 63 - 1) := by
    rw [Nat.shiftRight_eq_div_pow]
    omega
  simp only [hg, if_false]
  have := nextPowerLoop_spec size hs 64 2 (by norm_num) (by norm_num) (by norm_num) (Or.inl rfl)
  simpa [dictHTInitailSize] using this

theorem nextPower_least (size m : Nat) (h2 : 2 ≤ m) (hle : size ≤ 2 ^ m)
    (hm : m = 2 ∨ 2 ^ (m - 1) < size) : IsLeastPow2 (max size 4) (2 ^ m) := by
  refine ⟨⟨m, rfl⟩, ?_, ?_⟩
  · have : (4 : Nat) ≤ 2 ^ m := by
      calc (4 : Nat) = 2 ^ 2 := by norm_num
        _ ≤ 2 ^ m := Nat.pow_le_pow_right (by norm_num) h2
    exact max_le hle this
  · rintro p ⟨n, rfl⟩ hp
    apply Nat.pow_le_pow_right (by norm_num)
    rcases hm with rfl | hm
    · by_contra hcon
      have hn : n ≤ 1 := by omega
      have : 2 ^ n ≤ 2 ^ 1 := Nat.pow_le_pow_right (by norm_num) hn
      have h4 : 4 ≤ 2 ^ n := le_trans (le_max_right _ _) hp
      omega
    · by_contra hcon
      have hn : n ≤ m - 1 := by omega
      have : 2 ^ n ≤ 2 ^ (m - 1) := Nat.pow_le_pow_right (by norm_num) hn
      have h4 : size ≤ 2 ^ n := le_trans (le_max_left _ _) hp
      omega

theorem isLeastPow2_unique (m t t1 : Nat) (h : IsLeastPow2 m t) (h1 : IsLeastPow2 m t1) :
    t = t1 :=
  le_antisymm (h.2.2 t1 h1.1 h1.2.1) (h1.2.2 t h.1 h.2.1)

/-! ## Tables -/

theorem entries_dictReset : (_dictReset : dictht K V).entries = [] := rfl

theorem wf_dictReset [Key K] : (_dictReset : dictht K V).WF where
  shape := Or.inl rfl
  used_eq := rfl
  vals := by intro e he; simp [_dictReset, dictht.entries] at he
  place := by intro _ i ch h; simp [_dictReset] at h

theorem not_allocated_dictReset : ¬ (_dictReset : dictht K V).Allocated := by
  rintro ⟨n, _, _, h, _⟩
  simp only [_dictReset] at h
  exact absurd h.symm (by positivity)

theorem dictht.Allocated.size_pos {h : dictht K V} (ha : h.Allocated) : 0 < h.size := by
  obtain ⟨n, _, _, hs, _⟩ := ha
  rw [hs]; positivity

theorem dictht.Allocated.size_le {h : dictht K V} (ha : h.Allocated) : h.size ≤ 2 ^ 63 := by
  obtain ⟨n, _, hn, hs, _⟩ := ha
  rw [hs]; exact Nat.pow_le_pow_right (by norm_num) hn

theorem dictht.Allocated.size_ge {h : dictht K V} (ha : h.Allocated) : 4 ≤ h.size := by
  obtain ⟨n, hn, _, hs, _⟩ := ha
  rw [hs]
  calc (4 : Nat) = 2 ^ 2 := by norm_num
    _ ≤ 2 ^ n := Nat.pow_le_pow_right (by norm_num) hn

theorem dictht.Allocated.length_eq {h : dictht K V} (ha : h.Allocated) : h.table.length = h.size := by
  obtain ⟨n, _, _, _, _, hl⟩ := ha
  exact hl

theorem dictht.Allocated.mask_eq {h : dictht K V} (ha : h.Allocated) : h.sizemask = h.size - 1 := by
  obtain ⟨n, _, _, _, hm, _⟩ := ha
  exact hm

theorem dictht.Allocated.index_lt {h : dictht K V} (ha : h.Allocated) (x : Nat) :
    x &&& h.sizemask < h.table.length := by
  have h1 : x &&& h.sizemask ≤ h.sizemask := Nat.and_le_right
  have h2 := ha.size_pos
  have h3 := ha.mask_eq
  rw [ha.length_eq]
  omega

theorem dictht.Allocated.bucket {h : dictht K V} (ha : h.Allocated) (x : Nat) :
    ∃ ch, h.table[x &&& h.sizemask]? = some ch := by
  have := ha.index_lt x
  exact ⟨h.table[x &&& h.sizemask], List.getElem?_eq_getElem this⟩

theorem dictht.Allocated.table_ne_nil {h : dictht K V} (ha : h.Allocated) :
    h.table.isEmpty = false := by
  have h1 := ha.size_pos
  have h2 := ha.length_eq
  cases ht : h.table with
  | nil => rw [ht] at h2; simp at h2; omega
  | cons a l => rfl

theorem allocated_freshTable (m : Nat) (h2 : 2 ≤ m) (h63 : m ≤ 63) :
    (freshTable (2 ^ m) : dictht K V).Allocated := by
  refine ⟨m, h2, h63, rfl, ?_, ?_⟩
  · simp only [freshTable]
    apply decr_eq
    · positivity
    · exact Nat.pow_lt_pow_right (by norm_num) (by omega)
  · simp [freshTable]

theorem entries_freshTable (n : Nat) : (freshTable n : dictht K V).entries = [] := by
  simp [freshTable, dictht.entries]

theorem wf_freshTable [Key K] (m : Nat) (h2 : 2 ≤ m) (h63 : m ≤ 63) :
    (freshTable (2 ^ m) : dictht K V).WF where
  shape := Or.inr (allocated_freshTable m h2 h63)
  used_eq := by rw [entries_freshTable]; rfl
  vals := by intro e he; rw [entries_freshTable] at he; simp at he
  place := by
    intro _ i ch h e he
    simp only [freshTable, List.getElem?_replicate] at h
    split at h
    · simp only [Option.some.injEq] at h; subst h; simp at he
    · simp at h

theorem dictht.WF.size_zero [Key K] {h : dictht K V} (hw : h.WF) (hs : h.size = 0) :
    h = _dictReset := by
  rcases hw.shape with h1 | h1
  · exact h1
  · have := h1.size_pos; omega

theorem dictht.WF.allocated_of_size [Key K] {h : dictht K V} (hw : h.WF) (hs : h.size ≠ 0) :
    h.Allocated := by
  rcases hw.shape with h1 | h1
  · rw [h1] at hs; simp [_dictReset] at hs
  · exact h1

theorem dictht.WF.mem_entries [Key K] (hk : KeyLaws K) {h : dictht K V} (hw : h.WF)
    (e : Entry K V) (he : e ∈ h.entries) :
    h.Allocated ∧ ∃ ch, h.table[Key.HashFunction e.key &&& h.sizemask]? = some ch ∧ e ∈ ch := by
  obtain ⟨i, ch, hi, hm⟩ := (mem_flatten_iff_getElem? h.table e).1 he
  have hp := hw.place hk i ch hi e hm
  refine ⟨?_, ch, by rw [hp]; exact hi, hm⟩
  rcases hw.shape with h1 | h1
  · rw [h1] at hi; simp [_dictReset] at hi
  · exact h1

theorem mem_entries_of_bucket {h : dictht K V} (i : Nat) (ch : List (Entry K V))
    (e : Entry K V) (hi : h.table[i]? = some ch) (he : e ∈ ch) : e ∈ h.entries :=
  (mem_flatten_iff_getElem? h.table e).2 ⟨i, ch, hi, he⟩

/-- The search of one bucket decides whether the table holds the key. -/
theorem dictht.WF.bucket_none [Key K] (hk : KeyLaws K) {h : dictht K V} (hw : h.WF) (k : K)
    (ch : List (Entry K V)) (hi : h.table[Key.HashFunction k &&& h.sizemask]? = some ch)
    (hf : chainFind k ch = none) : ∀ e ∈ h.entries, Key.Compare k e.key ≠ 0 := by
  intro e he hc
  obtain ⟨_, ch1, h1, h2⟩ := hw.mem_entries hk e he
  rw [← hk.hash_congr k e.key hc, hi] at h1
  simp only [Option.some.injEq] at h1
  subst h1
  exact chainFind_none hk k ch hf e h2 hc

theorem dictht.WF.bucket_some [Key K] (hk : KeyLaws K) {h : dictht K V} (k : K) (i : Nat)
    (ch : List (Entry K V)) (hi : h.table[i]? = some ch) (e : Entry K V)
    (hf : chainFind k ch = some e) : e ∈ h.entries ∧ Key.Compare k e.key = 0 :=
  ⟨mem_entries_of_bucket i ch e hi (chainFind_some hk k ch e hf).1,
    (chainFind_some hk k ch e hf).2⟩

/-! ## Growth -/

theorem expand_eq (d : Dict K V) (size m : Nat) (hnr : d.rehashidx = -1)
    (hu : d.ht0.used ≤ size) (hp : nextPower size = some (2 ^ m)) :
    d.expand size =
      if 2 ^ m = d.ht0.size then some (d, DictErr)
      else if d.ht0.table.isEmpty then some ({ d with ht0 := freshTable (2 ^ m) }, DictOK)
      else some ({ d with ht1 := freshTable (2 ^ m), rehashidx := 0 }, DictOK) := by
  unfold Dict.expand Dict.expandOn
  simp [Dict.isRehashing, hnr, hp, not_lt.2 hu]

theorem Inv.idle_entries [Key K] {d : Dict K V} (hi : Inv d) (hnr : d.rehashidx = -1) :
    d.entries = d.ht0.entries := by
  simp [Dict.entries, hi.toInvW.idle hnr, entries_dictReset]

theorem inv_firstTable [Key K] {d : Dict K V} (hi : Inv d) (hnr : d.rehashidx = -1)
    (h0 : d.ht0 = _dictReset) (m : Nat) (h2 : 2 ≤ m) (h63 : m ≤ 63) :
    Inv ({ d with ht0 := freshTable (2 ^ m) } : Dict K V) ∧
      ({ d with ht0 := freshTable (2 ^ m) } : Dict K V).entries = d.entries := by
  have he : ({ d with ht0 := freshTable (2 ^ m) } : Dict K V).entries = d.entries := by
    simp [Dict.entries, entries_freshTable, h0, entries_dictReset]
  refine ⟨⟨⟨wf_freshTable m h2 h63, hi.toInvW.wf1, ?_, hi.toInvW.idle, ?_⟩, ?_⟩, he⟩
  · rw [he]; exact hi.toInvW.nodup
  · intro h; exact absurd hnr h
  · intro h; exact absurd hnr h

theorem inv_startRehash [Key K] {d : Dict K V} (hi : Inv d) (hnr : d.rehashidx = -1)
    (h0 : d.ht0.Allocated) (m : Nat) (h2 : 2 ≤ m) (h63 : m ≤ 63) (hne : 2 ^ m ≠ d.ht0.size) :
    Inv ({ d with ht1 := freshTable (2 ^ m), rehashidx := 0 } : Dict K V) ∧
      ({ d with ht1 := freshTable (2 ^ m), rehashidx := 0 } : Dict K V).entries = d.entries := by
  have he : ({ d with ht1 := freshTable (2 ^ m), rehashidx := 0 } : Dict K V).entries
      = d.entries := by
    simp [Dict.entries, entries_freshTable, hi.toInvW.idle hnr, entries_dictReset]
  refine ⟨⟨⟨hi.toInvW.wf0, wf_freshTable m h2 h63, ?_, ?_, ?_⟩, ?_⟩, he⟩
  · rw [he]; exact hi.toInvW.nodup
  · intro h; simp at h
  · intro _
    refine ⟨0, rfl, Nat.zero_le _, h0, allocated_freshTable m h2 h63, ?_, ?_⟩
    · simpa [freshTable] using hne.symm
    · intro i hi0; omega
  · intro _
    have := h0.size_pos
    simpa using this

/-- The growth check of `keyIndex` succeeds on a dictionary that holds at most `2 ^ 62`
entries, allocates `ht[0]` if need be, and links or unlinks nothing. -/
theorem expandIfNeeded_spec [Key K] {d : Dict K V} (hi : Inv d)
    (hb : d.entries.length ≤ 2 ^ 62) :
    ∃ d1, d.expandIfNeeded = some (d1, DictOK) ∧ Inv d1 ∧ d1.entries = d.entries ∧
      d1.ht0.Allocated ∧ d1.iterators = d.iterators := by
  unfold Dict.expandIfNeeded
  by_cases hr : d.rehashidx = -1
  · have hnr : d.isRehashing = false := by simp [Dict.isRehashing, hr]
    simp only [hnr, Bool.false_eq_true, if_false]
    by_cases hs : d.ht0.size = 0
    · simp only [hs, if_true]
      have h0 := hi.toInvW.wf0.size_zero hs
      have hu : d.ht0.used ≤ dictHTInitailSize := by rw [h0]; simp [_dictReset]
      have hp : nextPower dictHTInitailSize = some (2 ^ 2) := by decide
      rw [expand_eq d _ 2 hr hu hp]
      have hne : ¬ (2 ^ 2 = d.ht0.size) := by rw [hs]; norm_num
      have hem : d.ht0.table.isEmpty = true := by rw [h0]; rfl
      simp only [hne, if_false, hem, if_true]
      obtain ⟨h1, h2⟩ := inv_firstTable hi hr h0 2 (by norm_num) (by norm_num)
      exact ⟨_, rfl, h1, h2, allocated_freshTable 2 (by norm_num) (by norm_num), rfl⟩
    · simp only [hs, if_false]
      have ha := hi.toInvW.wf0.allocated_of_size hs
      by_cases hg : d.ht0.used ≥ d.ht0.size
      · have hcond : d.ht0.used ≥ d.ht0.size ∧
            (dictCanResize = 1 ∨ d.ht0.used / d.ht0.size > dictForceResizeRatio) :=
          ⟨hg, Or.inl rfl⟩
        simp only [hcond, and_self, if_true]
        have hused : d.ht0.used ≤ 2 ^ 62 := by
          rw [hi.toInvW.wf0.used_eq, ← hi.idle_entries hr]; exact hb
        have hmod : d.ht0.used * 2 % 2 ^ 64 = d.ht0.used * 2 := Nat.mod_eq_of_lt (by omega)
        rw [hmod]
        obtain ⟨m, h2, h63, hp, hle, _⟩ := nextPower_spec (d.ht0.used * 2) (by omega)
        rw [expand_eq d _ m hr (by omega) hp]
        have hpos := ha.size_pos
        have hne : ¬ (2 ^ m = d.ht0.size) := by omega
        simp only [hne, if_false, ha.table_ne_nil, Bool.false_eq_true]
        obtain ⟨h1, h2'⟩ := inv_startRehash hi hr ha m h2 h63 hne
        exact ⟨_, rfl, h1, h2', ha, rfl⟩
      · have hcond : ¬ (d.ht0.used ≥ d.ht0.size ∧
            (dictCanResize = 1 ∨ d.ht0.used / d.ht0.size > dictForceResizeRatio)) :=
          fun h => hg h.1
        simp only [hcond, if_false]
        exact ⟨d, rfl, hi, rfl, ha, rfl⟩
  · have hnr : d.isRehashing = true := by simp [Dict.isRehashing, hr]
    simp only [hnr, if_true]
    obtain ⟨r, _, _, ha, _⟩ := hi.toInvW.busy hr
    exact ⟨d, rfl, hi, rfl, ha, rfl⟩

/-! ## Incremental rehashing -/

theorem bucketAt_natCast (T : List (List (Entry K V))) (r : Nat) :
    bucketAt T (r : Int) = T[r]? := by
  simp [bucketAt]

/-- The chain walk of `rehash` links every entry of the chain in `ht[1]` and moves the
two counters by the length of the chain. -/
theorem migrate_spec [Key K] (de : List (Entry K V)) :
    ∀ (h0 h1 : dictht K V) (a : Nat), h1.WF → h1.Allocated →
      h0.used = a + de.length → a + de.length < 2 ^ 64 → h1.used + de.length < 2 ^ 63 →
      (∀ e ∈ de, e.value ≠ none) →
      ∃ h1', migrate de h0 h1 = some ({ h0 with used := a }, h1') ∧ h1'.WF ∧ h1'.Allocated ∧
        h1'.size = h1.size ∧ h1'.entries.Perm (de ++ h1.entries) := by
  induction de with
  | nil =>
    intro h0 h1 a hw ha hu _ _ _
    refine ⟨h1, ?_, hw, ha, rfl, by simp⟩
    simp only [migrate]
    cases h0
    simp only [List.length_nil, Nat.add_zero] at hu
    simp [hu]
  | cons e next ih =>
    intro h0 h1 a hw ha hu hlt hlt1 hv
    simp only [migrate]
    obtain ⟨ch, hch⟩ := ha.bucket (Key.HashFunction e.key)
    simp only [hch]
    have hperm := flatten_set_cons h1.table _ e ch hch
    have hw' : ({ h1 with table := h1.table.set (Key.HashFunction e.key &&& h1.sizemask) (e :: ch),
                          used := incr h1.used } : dictht K V).WF := by
      refine ⟨Or.inr ?_, ?_, ?_, ?_⟩
      · obtain ⟨n, h2, h63, hs, hm, hl⟩ := ha
        exact ⟨n, h2, h63, hs, hm, by simpa using hl⟩
      · simp only [dictht.entries]
        rw [hperm.length_eq, incr_eq _ (by simp at hlt1; omega), hw.used_eq]
        simp [dictht.entries]
      · intro x hx
        simp only [dictht.entries] at hx
        rcases List.mem_cons.1 (hperm.mem_iff.1 hx) with rfl | hx'
        · exact hv _ (List.mem_cons_self _ _)
        · exact hw.vals x hx'
      · intro hk i c1 hi x hx
        rcases getElem?_set_some _ _ _ _ _ hi with ⟨rfl, rfl⟩ | ⟨_, hi'⟩
        · rcases List.mem_cons.1 hx with rfl | hx'
          · rfl
          · exact hw.place hk _ ch hch x hx'
        · exact hw.place hk i c1 hi' x hx
    have ha' : ({ h1 with table := h1.table.set (Key.HashFunction e.key &&& h1.sizemask) (e :: ch),
                          used := incr h1.used } : dictht K V).Allocated := by
      obtain ⟨n, h2, h63, hs, hm, hl⟩ := ha
      exact ⟨n, h2, h63, hs, hm, by simpa using hl⟩
    have hd : decr h0.used = a + next.length := by
      rw [decr_eq _ (by simp at hu; omega) (by omega), hu]
      simp
    have hinc : incr h1.used = h1.used + 1 := incr_eq _ (by simp at hlt1; omega)
    obtain ⟨h1', hm, hw'', ha'', hs'', hp''⟩ :=
      ih { h0 with used := decr h0.used } _ a hw' ha' hd (by simp at hlt; omega)
        (by simp only [hinc]; simp at hlt1; omega)
        (fun x hx => hv x (List.mem_cons_of_mem _ hx))
    refine ⟨h1', hm, hw'', ha'', hs'', ?_⟩
    refine hp''.trans ?_
    simp only [dictht.entries]
    refine (List.Perm.append_left next hperm).trans ?_
    simp

theorem skipEmpty_spec (T : List (List (Entry K V))) (j : Nat) (x : Entry K V)
    (xs : List (Entry K V)) (hj : T[j]? = some (x :: xs)) :
    ∀ (ev r : Nat), r ≤ j → (∀ i, i < r → T[i]? = some []) →
      ∃ (r1 ev1 : Nat) (fl : Bool), skipEmpty T ev (r : Int) = some ((r1 : Int), ev1, fl) ∧
        r ≤ r1 ∧ r1 ≤ j ∧ (∀ i, i < r1 → T[i]? = some []) ∧
        (fl = false → r1 + ev1 = r + ev ∧ ∃ y ys, T[r1]? = some (y :: ys)) ∧
        (fl = true → r1 = r + ev + 1 ∧ ev1 = 0) := by
  intro ev
  induction ev with
  | zero =>
    intro r hr he
    have hjl : j < T.length := (List.getElem?_eq_some.1 hj).1
    have hrl : r < T.length := by omega
    simp only [skipEmpty]
    rw [bucketAt_natCast, List.getElem?_eq_getElem hrl]
    cases hb : T[r] with
    | nil =>
      have hrj : r ≠ j := by
        rintro rfl
        rw [List.getElem?_eq_getElem hrl, hb] at hj
        simp at hj
      refine ⟨r + 1, 0, true, by simp, by omega, by omega, ?_, by simp, by simp⟩
      intro i hi
      by_cases hir : i = r
      · subst hir; rw [List.getElem?_eq_getElem hrl, hb]
      · exact he i (by omega)
    | cons y ys =>
      refine ⟨r, 0, false, by simp, le_refl _, hr, he, ?_, by simp⟩
      intro _
      exact ⟨rfl, y, ys, by rw [List.getElem?_eq_getElem hrl, hb]⟩
  | succ ev ih =>
    intro r hr he
    have hjl : j < T.length := (List.getElem?_eq_some.1 hj).1
    have hrl : r < T.length := by omega
    simp only [skipEmpty]
    rw [bucketAt_natCast, List.getElem?_eq_getElem hrl]
    cases hb : T[r] with
    | nil =>
      have hrj : r ≠ j := by
        rintro rfl
        rw [List.getElem?_eq_getElem hrl, hb] at hj
        simp at hj
      have he' : ∀ i, i < r + 1 → T[i]? = some [] := by
        intro i hi
        by_cases hir : i = r
        · subst hir; rw [List.getElem?_eq_getElem hrl, hb]
        · exact he i (by omega)
      obtain ⟨r1, ev1, fl, h1, h0, h2, h3, h4, h5⟩ := ih (r + 1) (by omega) he'
      refine ⟨r1, ev1, fl, ?_, by omega, h2, h3, ?_, ?_⟩
      · simpa using h1
      · intro hf; obtain ⟨h6, h7⟩ := h4 hf; exact ⟨by omega, h7⟩
      · intro hf; obtain ⟨h6, h7⟩ := h5 hf; exact ⟨by omega, h7⟩
    | cons y ys =>
      refine ⟨r, ev + 1, false, by simp, le_refl _, hr, he, ?_, by simp⟩
      intro _
      exact ⟨rfl, y, ys, by rw [List.getElem?_eq_getElem hrl, hb]⟩

theorem nodup_perm [Key K] (hk : KeyLaws K) {l1 l2 : List (Entry K V)} (hp : l1.Perm l2)
    (h : l1.Pairwise (fun a b => Key.Compare a.key b.key ≠ 0)) :
    l2.Pairwise (fun a b => Key.Compare a.key b.key ≠ 0) :=
  hp.pairwise h (fun hxy hyx => hxy (hk.compare_symm _ _ hyx))

theorem exists_bucket_of_used [Key K] {h : dictht K V} (hw : h.WF) (hu : h.used ≠ 0)
    (r : Nat) (he : ∀ i, i < r → h.table[i]? = some []) :
    ∃ j x xs, h.table[j]? = some (x :: xs) ∧ r ≤ j ∧ j < h.table.length := by
  rw [hw.used_eq] at hu
  obtain ⟨e, hmem⟩ := List.exists_mem_of_length_pos (Nat.pos_of_ne_zero hu)
  obtain ⟨j, ch, hj, hm⟩ := (mem_flatten_iff_getElem? h.table e).1 hmem
  cases ch with
  | nil => simp at hm
  | cons x xs =>
    refine ⟨j, x, xs, hj, ?_, (List.getElem?_eq_some.1 hj).1⟩
    by_contra hcon
    have := he j (by omega)
    rw [hj] at this
    simp at this

/-- One pass of the outer loop of `rehash` keeps the invariant, links the same entries,
and moves `rehashidx` forward. -/
theorem rehashLoop_spec [Key K] (n : Nat) :
    ∀ (ev : Nat) (d : Dict K V), InvW d → d.rehashidx ≠ -1 → d.entries.length ≤ 2 ^ 62 →
      ∃ d1 fl, rehashLoop n ev d = some (d1, fl) ∧ InvW d1 ∧ d1.rehashidx ≠ -1 ∧
        d1.entries.Perm d.entries ∧ d1.iterators = d.iterators ∧
        d1.ht0.size = d.ht0.size ∧ d1.ht1.size = d.ht1.size ∧
        d.rehashidx ≤ d1.rehashidx ∧ (fl = true → d1.ht0.used ≠ 0) ∧
        (n ≠ 0 → d.ht0.used ≠ 0 → d.rehashidx < d1.rehashidx) ∧
        (d.ht0.used = 0 → d1 = d ∧ fl = false) := by
  induction n with
  | zero =>
    intro ev d hi hr hb
    exact ⟨d, false, rfl, hi, hr, List.Perm.refl _, rfl, rfl, rfl, le_refl _, by simp, by simp,
      fun _ => ⟨rfl, rfl⟩⟩
  | succ n ih =>
    intro ev d hi hr hb
    simp only [rehashLoop]
    by_cases hu : d.ht0.used = 0
    · rw [if_pos hu]
      exact ⟨d, false, rfl, hi, hr, List.Perm.refl _, rfl, rfl, rfl, le_refl _, by simp,
        fun _ h => absurd hu h, fun _ => ⟨rfl, rfl⟩⟩
    · rw [if_neg hu]
      obtain ⟨r, hrr, hrs, ha0, ha1, hne, hemp⟩ := hi.busy hr
      obtain ⟨j, x, xs, hj, hrj, hjl⟩ := exists_bucket_of_used hi.wf0 hu r hemp
      obtain ⟨r1, ev1, fl, hsk, hrr1, hr1j, hemp1, hff, hft⟩ :=
        skipEmpty_spec d.ht0.table j x xs hj ev r hrj hemp
      rw [hrr, hsk]
      have hlen := ha0.length_eq
      cases fl with
      | true =>
        obtain ⟨hr1, _⟩ := hft rfl
        refine ⟨{ d with rehashidx := (r1 : Int) }, true, rfl, ?_, ?_, List.Perm.refl _, rfl,
          rfl, rfl, ?_, fun _ => hu, fun _ _ => ?_, fun h => absurd h hu⟩
        · refine ⟨hi.wf0, hi.wf1, hi.nodup, ?_, ?_⟩
          · intro h; simp only at h; omega
          · intro _
            exact ⟨r1, rfl, by simp only; omega, ha0, ha1, hne, hemp1⟩
        · simp only; omega
        · simp only [Nat.cast_le]; omega
        · simp only [Nat.cast_lt]; omega
      | false =>
        obtain ⟨hsum, y, ys, hde⟩ := hff rfl
        simp only [bucketAt_natCast, hde, Int.toNat_natCast]
        have hperm0 := flatten_set_nil d.ht0.table r1 (y :: ys) hde
        have hlen0 : d.ht0.entries.length =
            (d.ht0.table.set r1 []).flatten.length + (y :: ys).length := by
          simp only [dictht.entries]
          rw [hperm0.length_eq, List.length_append]
        have htot : d.entries.length = d.ht0.entries.length + d.ht1.entries.length := by
          simp [Dict.entries]
        obtain ⟨h1', hmig, hw1', ha1', hs1', hp1'⟩ :=
          migrate_spec (y :: ys) d.ht0 d.ht1 (d.ht0.table.set r1 []).flatten.length hi.wf1 ha1
            (by rw [hi.wf0.used_eq, hlen0]) (by omega)
            (by rw [hi.wf1.used_eq]; omega)
            (fun e he => hi.wf0.vals e (mem_entries_of_bucket r1 _ e hde he))
        rw [hmig]
        simp only
        have hentries : ({ d with
            ht0 := { d.ht0 with table := d.ht0.table.set r1 [],
                                used := (d.ht0.table.set r1 []).flatten.length },
            ht1 := h1', rehashidx := (r1 : Int) + 1 } : Dict K V).entries.Perm d.entries := by
          simp only [Dict.entries, dictht.entries]
          refine (List.Perm.append_left _ hp1').trans ?_
          rw [← List.append_assoc]
          exact List.Perm.append_right _ hperm0.symm
        have hinv : InvW ({ d with
            ht0 := { d.ht0 with table := d.ht0.table.set r1 [],
                                used := (d.ht0.table.set r1 []).flatten.length },
            ht1 := h1', rehashidx := (r1 : Int) + 1 } : Dict K V) := by
          have hall : ({ d.ht0 with
              table := d.ht0.table.set r1 [],
              used := (d.ht0.table.set r1 []).flatten.length } : dictht K V).Allocated := by
            obtain ⟨m, h2, h63, hs, hm, hl⟩ := ha0
            exact ⟨m, h2, h63, hs, hm, by simpa using hl⟩
          refine ⟨⟨Or.inr hall, rfl, ?_, ?_⟩, hw1',
            fun hk => nodup_perm hk hentries.symm (hi.nodup hk), ?_, ?_⟩
          · intro e he
            apply hi.wf0.vals e
            simp only [dictht.entries] at he ⊢
            exact hperm0.mem_iff.2 (List.mem_append_left _ he)
          · intro hk i c1 hc1 e he
            rcases getElem?_set_some _ _ _ _ _ hc1 with ⟨rfl, rfl⟩ | ⟨_, hc1'⟩
            · simp at he
            · exact hi.wf0.place hk i c1 hc1' e he
          · intro h
            have h' : ((r1 + 1 : Nat) : Int) = -1 := by push_cast; exact h
            omega
          · intro _
            refine ⟨r1 + 1, by push_cast; rfl, by simp only; omega, hall, ha1', ?_, ?_⟩
            · simp only [hs1']; exact hne
            · intro i hi1
              simp only
              by_cases hir : i = r1
              · subst hir
                rw [List.getElem?_set_self (by omega)]
              · rw [List.getElem?_set_ne (fun h => hir h.symm)]
                exact hemp1 i (by omega)
        obtain ⟨d1, fl1, hloop, hi1, hr1', hp1, hit1, hsz0, hsz1, hle1, hfl1, _, _⟩ :=
          ih ev1 _ hinv (by
            intro h
            have h' : ((r1 + 1 : Nat) : Int) = -1 := by push_cast; exact h
            omega) (by rw [hentries.length_eq]; exact hb)
        refine ⟨d1, fl1, hloop, hi1, hr1', hp1.trans hentries, hit1, hsz0, by rw [hsz1, hs1'],
          ?_, hfl1, fun _ _ => ?_, fun h => absurd h hu⟩
        · simp only at hle1
          have : ((r : Nat) : Int) ≤ (r1 : Int) := by
            simp only [Nat.cast_le]; omega
          omega
        · simp only at hle1
          have : ((r : Nat) : Int) ≤ (r1 : Int) := by
            simp only [Nat.cast_le]; omega
          omega

theorem InvW.idx_lt_of_used [Key K] {d : Dict K V} (hi : InvW d) (hr : d.rehashidx ≠ -1)
    (hu : d.ht0.used ≠ 0) : d.rehashidx < (d.ht0.size : Int) := by
  obtain ⟨r, hrr, _, ha0, _, _, hemp⟩ := hi.busy hr
  obtain ⟨j, x, xs, _, hrj, hjl⟩ := exists_bucket_of_used hi.wf0 hu r hemp
  rw [hrr, ← ha0.length_eq]
  simp only [Nat.cast_lt]
  omega

/-- A call of `rehash` returns, keeps the invariant and links the same entries; when
the dictionary is still rehashing afterwards, the tables have kept their sizes and
`rehashidx` has moved forward. -/
theorem rehash_spec [Key K] {d : Dict K V} (hi : Inv d)
    (hb : d.entries.length ≤ 2 ^ 62) (n : Nat) :
    ∃ d1 r, d.rehash n = some (d1, r) ∧ Inv d1 ∧ d1.entries.Perm d.entries ∧
      d1.iterators = d.iterators ∧ (d.ht0.Allocated → d1.ht0.Allocated) ∧
      (d.rehashidx = -1 → d1 = d) ∧
      (d1.rehashidx ≠ -1 → d.rehashidx ≠ -1 ∧ d1.ht0.size = d.ht0.size ∧
        d1.ht1.size = d.ht1.size ∧ (n ≠ 0 → d.rehashidx < d1.rehashidx)) := by
  unfold Dict.rehash
  by_cases hr : d.rehashidx = -1
  · have hnr : d.isRehashing = false := by simp [Dict.isRehashing, hr]
    simp only [hnr, Bool.not_false, if_true]
    exact ⟨d, 0, rfl, hi, List.Perm.refl _, rfl, id, fun _ => rfl, fun h => absurd hr h⟩
  · have hnr : d.isRehashing = true := by simp [Dict.isRehashing, hr]
    simp only [hnr, Bool.not_true, Bool.false_eq_true, if_false]
    obtain ⟨d1, fl, hloop, hi1, hr1, hp1, hit1, hs0, hs1, hle, hfl, hprog, hzero⟩ :=
      rehashLoop_spec n (n * 10) d hi.toInvW hr hb
    rw [hloop]
    obtain ⟨r1, hrr1, _, ha0, ha1, _, _⟩ := hi1.busy hr1
    cases fl with
    | true =>
      have hu1 := hfl rfl
      refine ⟨d1, 1, rfl, ⟨hi1, fun _ => hi1.idx_lt_of_used hr1 hu1⟩, hp1, hit1, fun _ => ha0,
        fun h => absurd h hr, fun _ => ⟨hr, hs0, hs1, fun hn => hprog hn ?_⟩⟩
      intro hu
      exact absurd (hzero hu).2 (by simp)
    | false =>
      simp only
      by_cases hu1 : d1.ht0.used = 0
      · rw [if_pos hu1]
        have he0 : d1.ht0.entries = [] := by
          apply List.eq_nil_of_length_eq_zero
          rw [← hi1.wf0.used_eq]; exact hu1
        have hent : ({ d1 with ht0 := d1.ht1, ht1 := _dictReset, rehashidx := -1 } :
            Dict K V).entries = d1.entries := by
          simp [Dict.entries, he0, entries_dictReset]
        refine ⟨_, 1, rfl, ⟨⟨hi1.wf1, wf_dictReset, ?_, fun _ => rfl, fun h => absurd rfl h⟩,
          fun h => absurd rfl h⟩, ?_, hit1, fun _ => ha1, fun h => absurd h hr,
          fun h => absurd rfl h⟩
        · rw [hent]; exact hi1.nodup
        · rw [hent]; exact hp1
      · rw [if_neg hu1]
        refine ⟨d1, 1, rfl, ⟨hi1, fun _ => hi1.idx_lt_of_used hr1 hu1⟩, hp1, hit1, fun _ => ha0,
          fun h => absurd h hr, fun _ => ⟨hr, hs0, hs1, fun hn => hprog hn ?_⟩⟩
        intro hu
        rw [(hzero hu).1] at hu1
        exact hu1 hu

/-- The rehash step that opens the lookup and update methods returns, keeps the
invariant and links the same entries. -/
theorem stepIfRehashing_spec [Key K] {d : Dict K V} (hi : Inv d)
    (hb : d.entries.length ≤ 2 ^ 62) :
    ∃ d1, d.stepIfRehashing = some d1 ∧ Inv d1 ∧ d1.entries.Perm d.entries ∧
      d1.iterators = d.iterators ∧ (d.ht0.Allocated → d1.ht0.Allocated) := by
  unfold Dict.stepIfRehashing Dict.rehashStep
  by_cases hr : d.isRehashing = true
  · rw [if_pos hr]
    by_cases hit : d.iterators = 0
    · rw [if_pos hit]
      obtain ⟨d1, r, h1, h2, h3, h4, h5, _⟩ := rehash_spec hi hb 1
      exact ⟨d1, by rw [h1]; rfl, h2, h3, h4, h5⟩
    · rw [if_neg hit]
      exact ⟨d, rfl, hi, List.Perm.refl _, rfl, id⟩
  · rw [if_neg hr]
    exact ⟨d, rfl, hi, List.Perm.refl _, rfl, id⟩

/-! ## The keys a dictionary holds -/

theorem Inv.reset_of_size_zero [Key K] {d : Dict K V} (hi : Inv d) (hs : d.size = 0) :
    d.ht0 = _dictReset ∧ d.rehashidx = -1 := by
  unfold Dict.size at hs
  by_cases hr : d.rehashidx = -1
  · have h1 := hi.toInvW.idle hr
    refine ⟨?_, hr⟩
    rcases hi.toInvW.wf0.shape with h0 | h0
    · exact h0
    · have := h0.size_pos
      have := h0.size_le
      rw [h1] at hs
      simp only [_dictReset, Nat.add_zero] at hs
      omega
  · obtain ⟨r, _, _, ha0, ha1, hne, _⟩ := hi.toInvW.busy hr
    have := ha0.size_ge
    have := ha0.size_le
    have := ha1.size_ge
    have := ha1.size_le
    omega

theorem Inv.size_eq_zero [Key K] {d : Dict K V} (hi : Inv d) (hs : d.size = 0) :
    d.entries = [] := by
  obtain ⟨h0, hr⟩ := hi.reset_of_size_zero hs
  rw [hi.idle_entries hr, h0]
  rfl

theorem Inv.ht0_allocated [Key K] {d : Dict K V} (hi : Inv d) (hs : d.size ≠ 0) :
    d.ht0.Allocated := by
  by_cases hr : d.rehashidx = -1
  · have h1 := hi.toInvW.idle hr
    apply hi.toInvW.wf0.allocated_of_size
    intro h0
    apply hs
    unfold Dict.size
    rw [h0, h1]
    rfl
  · obtain ⟨r, _, _, ha0, _⟩ := hi.toInvW.busy hr
    exact ha0

theorem Inv.size_zero_of_reset [Key K] {d : Dict K V} (hi : Inv d) (h0 : ¬ d.ht0.Allocated) :
    d.size = 0 := by
  by_contra hs
  exact h0 (hi.ht0_allocated hs)

theorem stored_perm [Key K] {d d1 : Dict K V} (hp : d1.entries.Perm d.entries) (k : K)
    (e : Entry K V) : d1.Stored k e ↔ d.Stored k e := by
  unfold Dict.Stored
  rw [hp.mem_iff]

theorem Inv.stored_unique [Key K] (hk : KeyLaws K) {d : Dict K V} (hi : Inv d) (k : K)
    (e e1 : Entry K V) (h : d.Stored k e) (h1 : d.Stored k e1) : e = e1 := by
  by_contra hne
  have hsym : Symmetric (fun a b : Entry K V => Key.Compare a.key b.key ≠ 0) :=
    fun a b hab hba => hab (hk.compare_symm _ _ hba)
  have := (hi.toInvW.nodup hk).forall hsym h.1 h1.1 hne
  exact this (hk.compare_trans _ _ _ (hk.compare_symm _ _ h.2) h1.2)

theorem mem_entries_ht0 {d : Dict K V} {e : Entry K V} (h : e ∈ d.ht0.entries) :
    e ∈ d.entries := List.mem_append_left _ h

theorem mem_entries_ht1 {d : Dict K V} {e : Entry K V} (h : e ∈ d.ht1.entries) :
    e ∈ d.entries := List.mem_append_right _ h

/-- What the search computes on a dictionary whose `ht[0]` is allocated. -/
theorem Inv.lookup_eq [Key K] {d : Dict K V} (hi : Inv d) (k : K) (ha : d.ht0.Allocated) :
    ∃ c0, d.ht0.table[Key.HashFunction k &&& d.ht0.sizemask]? = some c0 ∧
      (∀ e, chainFind k c0 = some e → d.lookup k = some e) ∧
      (chainFind k c0 = none → d.rehashidx = -1 → d.lookup k = none) ∧
      (chainFind k c0 = none → d.rehashidx ≠ -1 → d.ht1.Allocated ∧
        ∃ c1, d.ht1.table[Key.HashFunction k &&& d.ht1.sizemask]? = some c1 ∧
          d.lookup k = chainFind k c1) := by
  obtain ⟨c0, hc0⟩ := ha.bucket (Key.HashFunction k)
  refine ⟨c0, hc0, ?_, ?_, ?_⟩
  · intro e he
    simp [Dict.lookup, hc0, he]
  · intro hn hr
    simp [Dict.lookup, hc0, hn, Dict.isRehashing, hr]
  · intro hn hr
    obtain ⟨r, _, _, _, ha1, _, _⟩ := hi.toInvW.busy hr
    obtain ⟨c1, hc1⟩ := ha1.bucket (Key.HashFunction k)
    refine ⟨ha1, c1, hc1, ?_⟩
    simp [Dict.lookup, hc0, hn, Dict.isRehashing, hr, hc1]

/-- With keys that keep their contract, the search stops at an entry exactly when that
entry is linked in the dictionary and its key compares equal to the key searched. -/
theorem Inv.lookup_iff [Key K] (hk : KeyLaws K) {d : Dict K V} (hi : Inv d) (k : K)
    (e : Entry K V) : d.lookup k = some e ↔ d.Stored k e := by
  by_cases ha : d.ht0.Allocated
  · obtain ⟨c0, hc0, hf0, hn0, hn1⟩ := hi.lookup_eq k ha
    cases hfind : chainFind k c0 with
    | some e0 =>
      have hs0 : d.Stored k e0 :=
        ⟨mem_entries_ht0 (dictht.WF.bucket_some hk k _ c0 hc0 e0 hfind).1,
          (chainFind_some hk k c0 e0 hfind).2⟩
      rw [hf0 e0 hfind]
      constructor
      · intro h; simp only [Option.some.injEq] at h; subst h; exact hs0
      · intro h; rw [hi.stored_unique hk k e e0 h hs0]
    | none =>
      have h0 := hi.toInvW.wf0.bucket_none hk k c0 hc0 hfind
      by_cases hr : d.rehashidx = -1
      · rw [hn0 hfind hr]
        constructor
        · intro h; simp at h
        · intro h
          have hmem := h.1
          rw [hi.idle_entries hr] at hmem
          exact absurd h.2 (h0 e hmem)
      · obtain ⟨_, c1, hc1, hl⟩ := hn1 hfind hr
        rw [hl]
        constructor
        · intro h
          exact ⟨mem_entries_ht1 (dictht.WF.bucket_some hk k _ c1 hc1 e h).1,
            (chainFind_some hk k c1 e h).2⟩
        · intro h
          cases hf1 : chainFind k c1 with
          | none =>
            have h1 := hi.toInvW.wf1.bucket_none hk k c1 hc1 hf1
            rcases List.mem_append.1 h.1 with hm | hm
            · exact absurd h.2 (h0 e hm)
            · exact absurd h.2 (h1 e hm)
          | some e1 =>
            have hs1 : d.Stored k e1 :=
              ⟨mem_entries_ht1 (dictht.WF.bucket_some hk k _ c1 hc1 e1 hf1).1,
                (chainFind_some hk k c1 e1 hf1).2⟩
            rw [hi.stored_unique hk k e e1 h hs1]
  · have hs := hi.size_zero_of_reset ha
    obtain ⟨h0, _⟩ := hi.reset_of_size_zero hs
    have hl : d.lookup k = none := by simp [Dict.lookup, h0, _dictReset]
    rw [hl]
    constructor
    · intro h; simp at h
    · intro h
      have := h.1
      rw [hi.size_eq_zero hs] at this
      simp at this

theorem Inv.lookup_perm [Key K] (hk : KeyLaws K) {d d1 : Dict K V} (hi : Inv d)
    (hi1 : Inv d1) (hp : d1.entries.Perm d.entries) (k : K) : d1.lookup k = d.lookup k := by
  cases h : d.lookup k with
  | some e => exact (hi1.lookup_iff hk k e).2 ((stored_perm hp k e).2 ((hi.lookup_iff hk k e).1 h))
  | none =>
    cases h1 : d1.lookup k with
    | none => rfl
    | some e =>
      have := (hi.lookup_iff hk k e).2 ((stored_perm hp k e).1 ((hi1.lookup_iff hk k e).1 h1))
      rw [h] at this; simp at this

/-- The method `Find` makes the rehash step and returns what the search finds in the
dictionary the step leaves behind; it keeps the invariant and links the same entries. -/
theorem Find_eq [Key K] {d : Dict K V} (hi : Inv d) (hb : d.entries.length ≤ 2 ^ 62) (k : K) :
    ∃ d1, d.Find k = some (d1, d1.lookup k) ∧ Inv d1 ∧ d1.entries.Perm d.entries ∧
      d1.iterators = d.iterators := by
  unfold Dict.Find
  by_cases hs : d.size = 0
  · rw [if_pos hs]
    obtain ⟨h0, _⟩ := hi.reset_of_size_zero hs
    have hl : d.lookup k = none := by simp [Dict.lookup, h0, _dictReset]
    exact ⟨d, by rw [hl], hi, List.Perm.refl _, rfl⟩
  · rw [if_neg hs]
    obtain ⟨d1, hstep, hi1, hp1, hit1, ha1⟩ := stepIfRehashing_spec hi hb
    rw [hstep]
    simp only
    obtain ⟨c0, hc0, hf0, hn0, hn1⟩ := hi1.lookup_eq k (ha1 (hi.ht0_allocated hs))
    rw [hc0]
    simp only
    refine ⟨d1, ?_, hi1, hp1, hit1⟩
    cases hfind : chainFind k c0 with
    | some he => rw [hf0 he hfind]
    | none =>
      simp only
      by_cases hr : d1.rehashidx = -1
      · have hnr : d1.isRehashing = false := by simp [Dict.isRehashing, hr]
        simp only [hnr, Bool.not_false, if_true]
        rw [hn0 hfind hr]
      · have hnr : d1.isRehashing = true := by simp [Dict.isRehashing, hr]
        simp only [hnr, Bool.not_true, Bool.false_eq_true, if_false]
        obtain ⟨_, c1, hc1, hl⟩ := hn1 hfind hr
        rw [hc1, hl]

/-- With keys that keep their contract, `Find` returns the entry stored for the key, or
`nil` when there is none. -/
theorem Find_spec [Key K] (hk : KeyLaws K) {d : Dict K V} (hi : Inv d)
    (hb : d.entries.length ≤ 2 ^ 62) (k : K) :
    ∃ d1 r, d.Find k = some (d1, r) ∧ Inv d1 ∧ d1.entries.Perm d.entries ∧
      d1.iterators = d.iterators ∧ r = d.lookup k ∧ (∀ e, r = some e ↔ d.Stored k e) := by
  obtain ⟨d1, h1, h2, h3, h4⟩ := Find_eq hi hb k
  refine ⟨d1, d1.lookup k, h1, h2, h3, h4, hi.lookup_perm hk h2 h3 k, ?_⟩
  intro e
  rw [h2.lookup_iff hk k e, stored_perm h3]

/-! ## Changes to one bucket -/

theorem allocated_set {h : dictht K V} (ha : h.Allocated) (T : List (List (Entry K V)))
    (u : Nat) (hT : T.length = h.table.length) :
    ({ h with table := T, used := u } : dictht K V).Allocated := by
  obtain ⟨n, h2, h63, hs, hm, hl⟩ := ha
  exact ⟨n, h2, h63, hs, hm, by simp only; omega⟩

/-- Linking an entry at the head of a bucket. -/
theorem wf_insert [Key K] {h : dictht K V} (hw : h.WF) (ha : h.Allocated) (i : Nat)
    (e : Entry K V) (ch : List (Entry K V)) (hch : h.table[i]? = some ch)
    (hpl : KeyLaws K → Key.HashFunction e.key &&& h.sizemask = i)
    (hv : e.value ≠ none) (hu : h.used < 2 ^ 63) :
    ({ h with table := h.table.set i (e :: ch), used := incr h.used } : dictht K V).WF ∧
    ({ h with table := h.table.set i (e :: ch), used := incr h.used } :
      dictht K V).entries.Perm (e :: h.entries) := by
  have hperm := flatten_set_cons h.table _ e ch hch
  refine ⟨⟨Or.inr (allocated_set ha _ _ (by simp)), ?_, ?_, ?_⟩, hperm⟩
  · simp only [dictht.entries]
    rw [hperm.length_eq, incr_eq _ hu, hw.used_eq]
    simp [dictht.entries]
  · intro x hx
    simp only [dictht.entries] at hx
    rcases List.mem_cons.1 (hperm.mem_iff.1 hx) with rfl | hx'
    · exact hv
    · exact hw.vals x hx'
  · intro hk j c1 hj x hx
    rcases getElem?_set_some _ _ _ _ _ hj with ⟨rfl, rfl⟩ | ⟨_, hj'⟩
    · rcases List.mem_cons.1 hx with rfl | hx'
      · exact hpl hk
      · exact hw.place hk _ ch hch x hx'
    · exact hw.place hk j c1 hj' x hx

/-- Unlinking an entry from its bucket. -/
theorem wf_unlink [Key K] {h : dictht K V} (hw : h.WF) (ha : h.Allocated) (i : Nat)
    (e : Entry K V) (ch rest : List (Entry K V)) (hch : h.table[i]? = some ch)
    (hp : ch.Perm (e :: rest)) (hu : h.used < 2 ^ 64) :
    ({ h with table := h.table.set i rest, used := decr h.used } : dictht K V).WF ∧
    h.entries.Perm
      (e :: ({ h with table := h.table.set i rest, used := decr h.used } : dictht K V).entries) := by
  have hperm : h.table.flatten.Perm (e :: (h.table.set i rest).flatten) := by
    have h1 := flatten_set_append h.table i rest ch hch
    have h2 : ((h.table.set i rest).flatten ++ ch).Perm
        ((e :: (h.table.set i rest).flatten) ++ rest) := by
      refine (List.Perm.append_left _ hp).trans ?_
      simp
    have h3 : (h.table.flatten ++ rest).Perm ((e :: (h.table.set i rest).flatten) ++ rest) :=
      h1.symm.trans h2
    exact (List.perm_append_right_iff rest).1 h3
  refine ⟨⟨Or.inr (allocated_set ha _ _ (by simp)), ?_, ?_, ?_⟩, hperm⟩
  · simp only [dictht.entries]
    have hl := hperm.length_eq
    have hue := hw.used_eq
    simp only [dictht.entries, List.length_cons] at hl hue
    rw [decr_eq _ (by omega) hu]
    omega
  · intro x hx
    apply hw.vals x
    simp only [dictht.entries] at hx ⊢
    exact hperm.mem_iff.2 (List.mem_cons_of_mem _ hx)
  · intro hk j c1 hj x hx
    rcases getElem?_set_some _ _ _ _ _ hj with ⟨rfl, rfl⟩ | ⟨_, hj'⟩
    · exact hw.place hk _ ch hch x (hp.mem_iff.2 (List.mem_cons_of_mem _ hx))
    · exact hw.place hk j c1 hj' x hx

theorem perm_set_of_getElem? {α : Type} (l : List α) (p : Nat) (a b : α)
    (h : l[p]? = some a) : ∃ m, l.Perm (a :: m) ∧ (l.set p b).Perm (b :: m) := by
  induction l generalizing p with
  | nil => simp at h
  | cons x xs ih =>
    cases p with
    | zero =>
      simp only [List.getElem?_cons_zero, Option.some.injEq] at h
      subst h
      exact ⟨xs, List.Perm.refl _, by simp⟩
    | succ p =>
      simp only [List.getElem?_cons_succ] at h
      obtain ⟨m, h1, h2⟩ := ih p h
      refine ⟨x :: m, ?_, ?_⟩
      · exact (List.Perm.cons x h1).trans (List.Perm.swap _ _ _)
      · simp only [List.set_cons_succ]
        exact (List.Perm.cons x h2).trans (List.Perm.swap _ _ _)

/-- Storing a value in a linked entry. -/
theorem wf_store [Key K] {h : dictht K V} (hw : h.WF) (ha : h.Allocated) (i p : Nat)
    (e : Entry K V) (ch : List (Entry K V)) (v : V) (hch : h.table[i]? = some ch)
    (he : ch[p]? = some e) :
    ({ h with table := h.table.set i (ch.set p { e with value := some v }) } : dictht K V).WF ∧
    ∃ m, h.entries.Perm (e :: m) ∧
      ({ h with table := h.table.set i (ch.set p { e with value := some v }) } :
        dictht K V).entries.Perm ({ e with value := some v } :: m) := by
  obtain ⟨m, hm1, hm2⟩ := perm_set_of_getElem? ch p e { e with value := some v } he
  have hrest := flatten_set_nil h.table i ch hch
  have hnew : (h.table.set i (ch.set p { e with value := some v })).flatten.Perm
      ((h.table.set i []).flatten ++ ch.set p { e with value := some v }) := by
    have hlt : i < h.table.length := (List.getElem?_eq_some.1 hch).1
    have := flatten_set_nil (h.table.set i (ch.set p { e with value := some v })) i
      (ch.set p { e with value := some v }) (by rw [List.getElem?_set_self hlt])
    simpa [List.set_set] using this
  have hA : h.entries.Perm (e :: ((h.table.set i []).flatten ++ m)) := by
    simp only [dictht.entries]
    refine hrest.trans ((List.Perm.append_left _ hm1).trans ?_)
    simp
  have hB : (h.table.set i (ch.set p { e with value := some v })).flatten.Perm
      ({ e with value := some v } :: ((h.table.set i []).flatten ++ m)) := by
    refine hnew.trans ((List.Perm.append_left _ hm2).trans ?_)
    simp
  refine ⟨⟨Or.inr ?_, ?_, ?_, ?_⟩, _, hA, hB⟩
  · obtain ⟨n, h2, h63, hs, hmk, hl⟩ := ha
    exact ⟨n, h2, h63, hs, hmk, by simpa using hl⟩
  · simp only [dictht.entries]
    rw [hB.length_eq, hw.used_eq, hA.length_eq]
    simp
  · intro x hx
    simp only [dictht.entries] at hx
    rcases List.mem_cons.1 (hB.mem_iff.1 hx) with rfl | hx'
    · simp
    · exact hw.vals x (hA.mem_iff.2 (List.mem_cons_of_mem _ hx'))
  · intro hk j c1 hj x hx
    rcases getElem?_set_some _ _ _ _ _ hj with ⟨rfl, rfl⟩ | ⟨_, hj'⟩
    · rcases List.mem_cons.1 (hm2.mem_iff.1 hx) with rfl | hx'
      · exact hw.place hk _ ch hch e (hm1.mem_iff.2 (List.mem_cons_self _ _))
      · exact hw.place hk _ ch hch x (hm1.mem_iff.2 (List.mem_cons_of_mem _ hx'))
    · exact hw.place hk j c1 hj' x hx

/-! ## Changes to one table of the dictionary -/

theorem inv_set_ht0 [Key K] {d : Dict K V} (hi : Inv d) (h : dictht K V) (hw : h.WF)
    (ha : h.Allocated) (hs : h.size = d.ht0.size)
    (hemp : d.rehashidx ≠ -1 → ∀ i : Nat, d.ht0.table[i]? = some [] → h.table[i]? = some [])
    (hnd : KeyLaws K →
      (h.entries ++ d.ht1.entries).Pairwise (fun a b => Key.Compare a.key b.key ≠ 0)) :
    Inv ({ d with ht0 := h } : Dict K V) := by
  refine ⟨⟨hw, hi.toInvW.wf1, hnd, hi.toInvW.idle, ?_⟩, ?_⟩
  · intro hr
    obtain ⟨r, h1, h2, _, h4, h5, h6⟩ := hi.toInvW.busy hr
    exact ⟨r, h1, by simp only [hs]; exact h2, ha, h4, by simp only [hs]; exact h5,
      fun i hir => hemp hr i (h6 i hir)⟩
  · intro hr
    simp only [hs]
    exact hi.idx_lt hr

theorem inv_set_ht1 [Key K] {d : Dict K V} (hi : Inv d) (hr : d.rehashidx ≠ -1)
    (h : dictht K V) (hw : h.WF) (ha : h.Allocated) (hs : h.size = d.ht1.size)
    (hnd : KeyLaws K →
      (d.ht0.entries ++ h.entries).Pairwise (fun a b => Key.Compare a.key b.key ≠ 0)) :
    Inv ({ d with ht1 := h } : Dict K V) := by
  refine ⟨⟨hi.toInvW.wf0, hw, hnd, fun h0 => absurd h0 hr, ?_⟩, hi.idx_lt⟩
  intro _
  obtain ⟨r, h1, h2, h3, _, h5, h6⟩ := hi.toInvW.busy hr
  exact ⟨r, h1, h2, h3, ha, by simp only [hs]; exact h5, h6⟩

theorem getElem?_set_nil_of_nil {α : Type} (T : List (List α)) (i j : Nat) (e : α)
    (ch rest : List α) (hch : T[i]? = some ch) (he : e ∈ ch) (hj : T[j]? = some []) :
    (T.set i rest)[j]? = some [] := by
  have hne : i ≠ j := by
    rintro rfl
    rw [hch] at hj
    simp only [Option.some.injEq] at hj
    subst hj
    simp at he
  rw [List.getElem?_set_ne hne]
  exact hj

/-- The method `keyIndex` returns: either the search stops at an entry and `*existing`
points to it, or it finds none and the index of the bucket of the hash in the table that
takes new entries is returned. -/
theorem keyIndex_spec [Key K] {d : Dict K V} (hi : Inv d)
    (hb : d.entries.length ≤ 2 ^ 62) (k : K) :
    ∃ d2, Inv d2 ∧ d2.entries = d.entries ∧ d2.iterators = d.iterators ∧
      d.expandIfNeeded = some (d2, DictOK) ∧
      ((∃ e t i p ch, d2.lookup k = some e ∧
          d.keyIndex k (Key.HashFunction k) = some (d2, -1, some ⟨t, i, p⟩) ∧
          (t = 0 ∨ (t = 1 ∧ d2.rehashidx ≠ -1)) ∧ (d2.ht t).Allocated ∧
          (d2.ht t).table[i]? = some ch ∧ ch[p]? = some e) ∨
       (d2.lookup k = none ∧ ∃ t ch,
          d.keyIndex k (Key.HashFunction k) =
            some (d2, ((Key.HashFunction k &&& (d2.ht t).sizemask : Nat) : Int), none) ∧
          ((t = 0 ∧ d2.isRehashing = false) ∨ (t = 1 ∧ d2.isRehashing = true)) ∧
          (d2.ht t).Allocated ∧
          (d2.ht t).table[Key.HashFunction k &&& (d2.ht t).sizemask]? = some ch)) := by
  obtain ⟨d2, hex, hi2, he2, ha2, hit2⟩ := expandIfNeeded_spec hi hb
  refine ⟨d2, hi2, he2, hit2, hex, ?_⟩
  unfold Dict.keyIndex
  rw [hex]
  have hne : ¬ (DictOK = DictErr) := by decide
  simp only [hne, if_false]
  obtain ⟨c0, hc0, hf0, hn0, hn1⟩ := hi2.lookup_eq k ha2
  rw [hc0]
  simp only
  cases hpos : chainPos k c0 with
  | some p =>
    obtain ⟨e, hp1, hp2⟩ := chainPos_some k c0 p hpos
    left
    exact ⟨e, 0, _, p, c0, hf0 e hp2, rfl, Or.inl rfl, ha2, hc0, hp1⟩
  | none =>
    have hfind := chainPos_none k c0 hpos
    simp only
    by_cases hr : d2.rehashidx = -1
    · have hnr : d2.isRehashing = false := by simp [Dict.isRehashing, hr]
      simp only [hnr, Bool.not_false, if_true]
      right
      exact ⟨hn0 hfind hr, 0, c0, rfl, Or.inl ⟨rfl, trivial⟩, ha2, hc0⟩
    · have hnr : d2.isRehashing = true := by simp [Dict.isRehashing, hr]
      simp only [hnr, Bool.not_true, Bool.false_eq_true, if_false]
      obtain ⟨ha1, c1, hc1, hl⟩ := hn1 hfind hr
      rw [hc1]
      simp only
      cases hpos1 : chainPos k c1 with
      | some p =>
        obtain ⟨e, hp1, hp2⟩ := chainPos_some k c1 p hpos1
        left
        exact ⟨e, 1, _, p, c1, by rw [hl, hp2], rfl, Or.inr ⟨rfl, hr⟩, ha1, hc1, hp1⟩
      | none =>
        have hfind1 := chainPos_none k c1 hpos1
        right
        exact ⟨by rw [hl, hfind1], 1, c1, rfl, Or.inr ⟨rfl, trivial⟩, ha1, hc1⟩

/-! ## Insertion -/

/-- The method `addRaw` returns: either the search stops at an entry, `nil` is returned
and `*existing` points to that entry, or a new entry with a duplicate of the key and no
value is linked at the head of the bucket of the hash in the table that takes new
entries. -/
theorem addRaw_spec [Key K] {d : Dict K V} (hi : Inv d)
    (hb : d.entries.length ≤ 2 ^ 62) (k : K) :
    ∃ d2, Inv d2 ∧ d2.entries.Perm d.entries ∧ d2.iterators = d.iterators ∧
      ((∃ e t i p ch, d2.lookup k = some e ∧
          d.addRaw k = some ⟨d2, none, some ⟨t, i, p⟩, []⟩ ∧
          (t = 0 ∨ (t = 1 ∧ d2.rehashidx ≠ -1)) ∧ (d2.ht t).Allocated ∧
          (d2.ht t).table[i]? = some ch ∧ ch[p]? = some e) ∨
       (d2.lookup k = none ∧ ∃ t ch,
          d.addRaw k = some
            ⟨d2.setHt t { d2.ht t with
                table := (d2.ht t).table.set (Key.HashFunction k &&& (d2.ht t).sizemask)
                  ({ key := Key.Dup k, value := none } :: ch),
                used := incr (d2.ht t).used },
              some ⟨t, Key.HashFunction k &&& (d2.ht t).sizemask, 0⟩, none, [Event.keyDup k]⟩ ∧
          ((t = 0 ∧ d2.isRehashing = false) ∨ (t = 1 ∧ d2.isRehashing = true)) ∧
          (d2.ht t).Allocated ∧
          (d2.ht t).table[Key.HashFunction k &&& (d2.ht t).sizemask]? = some ch)) := by
  obtain ⟨d1, hstep, hi1, hp1, hit1, _⟩ := stepIfRehashing_spec hi hb
  obtain ⟨d2, hi2, he2, hit2, _, hcase⟩ :=
    keyIndex_spec hi1 (by rw [hp1.length_eq]; exact hb) k
  refine ⟨d2, hi2, by rw [he2]; exact hp1, by rw [hit2, hit1], ?_⟩
  unfold Dict.addRaw
  rw [hstep]
  simp only
  rcases hcase with ⟨e, t, i, p, ch, hs, hki, ht, ha, hch, hp⟩ | ⟨hns, t, ch, hki, ht, ha, hch⟩
  · left
    rw [hki]
    exact ⟨e, t, i, p, ch, hs, rfl, ht, ha, hch, hp⟩
  · right
    refine ⟨hns, t, ch, ?_, ht, ha, hch⟩
    rw [hki]
    have hneg : ¬ (((Key.HashFunction k &&& (d2.ht t).sizemask : Nat) : Int) = -1) := by omega
    simp only [hneg, if_false]
    rcases ht with ⟨rfl, hr⟩ | ⟨rfl, hr⟩
    · simp only [hr, Bool.false_eq_true, if_false, bucketAt_natCast, hch, Int.toNat_natCast]
    · simp only [hr, if_true, bucketAt_natCast, hch, Int.toNat_natCast]

/-- Storing the value in the entry that `addRaw` has just linked. -/
theorem setVal_new [Key K] [Value V] {d2 : Dict K V} (hi2 : Inv d2)
    (hb : d2.entries.length ≤ 2 ^ 62) (k : K) (v : V) (t : Nat) (ch : List (Entry K V))
    (hns : d2.lookup k = none)
    (ht : (t = 0 ∧ d2.isRehashing = false) ∨ (t = 1 ∧ d2.isRehashing = true))
    (ha : (d2.ht t).Allocated)
    (hch : (d2.ht t).table[Key.HashFunction k &&& (d2.ht t).sizemask]? = some ch) :
    ∃ d4, (d2.setHt t { d2.ht t with
                table := (d2.ht t).table.set (Key.HashFunction k &&& (d2.ht t).sizemask)
                  ({ key := Key.Dup k, value := none } :: ch),
                used := incr (d2.ht t).used }).setVal
            ⟨t, Key.HashFunction k &&& (d2.ht t).sizemask, 0⟩ v = some (d4, [Event.valDup v]) ∧
      Inv d4 ∧ d4.entries.Perm ({ key := Key.Dup k, value := some (Value.Dup v) } :: d2.entries) ∧
      d4.iterators = d2.iterators := by
  have hlt : Key.HashFunction k &&& (d2.ht t).sizemask < (d2.ht t).table.length :=
    (List.getElem?_eq_some.1 hch).1
  have hhash : KeyLaws K → Key.HashFunction (Key.Dup k) = Key.HashFunction k :=
    fun hk => hk.hash_congr _ _ (hk.dup_compare k)
  have hfresh : KeyLaws K → ∀ x ∈ d2.entries, Key.Compare (Key.Dup k) x.key ≠ 0 := by
    intro hk x hx hc
    have hst : d2.Stored k x :=
      ⟨hx, hk.compare_trans _ _ _ (hk.compare_symm _ _ (hk.dup_compare k)) hc⟩
    rw [(hi2.lookup_iff hk k x).2 hst] at hns
    simp at hns
  have htot : d2.entries.length = d2.ht0.entries.length + d2.ht1.entries.length := by
    simp [Dict.entries]
  rcases ht with ⟨rfl, hr⟩ | ⟨rfl, hr⟩
  · simp only [Dict.ht, if_true] at ha hch hlt ⊢
    have hidle : d2.rehashidx = -1 := by simpa [Dict.isRehashing] using hr
    obtain ⟨hw, hperm⟩ := wf_insert hi2.toInvW.wf0 ha _
      ({ key := Key.Dup k, value := some (Value.Dup v) } : Entry K V) ch hch
      (fun hk => by simp only [hhash hk]) (by simp)
      (by rw [hi2.toInvW.wf0.used_eq]; omega)
    have hp2 := List.Perm.append_right d2.ht1.entries hperm
    refine ⟨_, ?_, inv_set_ht0 hi2 _ hw (allocated_set ha _ _ (by simp)) rfl ?_ ?_, hp2, rfl⟩
    · simp [Dict.setVal, Dict.storeVal, Dict.setHt, Dict.ht, hlt]
    · intro h; exact absurd hidle h
    · intro hk
      exact nodup_perm hk hp2.symm (List.Pairwise.cons (hfresh hk) (hi2.toInvW.nodup hk))
  · simp only [Dict.ht, one_ne_zero, if_false] at ha hch hlt ⊢
    have hbusy : d2.rehashidx ≠ -1 := by simpa [Dict.isRehashing] using hr
    obtain ⟨hw, hperm⟩ := wf_insert hi2.toInvW.wf1 ha _
      ({ key := Key.Dup k, value := some (Value.Dup v) } : Entry K V) ch hch
      (fun hk => by simp only [hhash hk]) (by simp)
      (by rw [hi2.toInvW.wf1.used_eq]; omega)
    have hp2 := (List.Perm.append_left d2.ht0.entries hperm).trans List.perm_middle
    refine ⟨_, ?_, inv_set_ht1 hi2 hbusy _ hw (allocated_set ha _ _ (by simp)) rfl ?_, hp2, rfl⟩
    · simp [Dict.setVal, Dict.storeVal, Dict.setHt, Dict.ht, hlt]
    · intro hk
      exact nodup_perm hk hp2.symm (List.Pairwise.cons (hfresh hk) (hi2.toInvW.nodup hk))

theorem nodup_store [Key K] (hk : KeyLaws K) {l l1 m : List (Entry K V)} (e : Entry K V)
    (v : V) (h : l.Pairwise (fun a b => Key.Compare a.key b.key ≠ 0))
    (hp : l.Perm (e :: m)) (hp1 : l1.Perm ({ e with value := some v } :: m)) :
    l1.Pairwise (fun a b => Key.Compare a.key b.key ≠ 0) := by
  have h1 := nodup_perm hk hp h
  rw [List.pairwise_cons] at h1
  exact nodup_perm hk hp1.symm (List.Pairwise.cons h1.1 h1.2)

theorem mem_entries_of_ref {d : Dict K V} (t i : Nat) (ch : List (Entry K V))
    (e : Entry K V) (hch : (d.ht t).table[i]? = some ch) (he : e ∈ ch) : e ∈ d.entries := by
  by_cases h0 : t = 0
  · subst h0
    exact mem_entries_ht0 (mem_entries_of_bucket i ch e hch he)
  · simp only [Dict.ht, h0, if_false] at hch
    exact mem_entries_ht1 (mem_entries_of_bucket i ch e hch he)

theorem Inv.value_ne_none [Key K] {d : Dict K V} (hi : Inv d) (e : Entry K V)
    (he : e ∈ d.entries) : e.value ≠ none := by
  rcases List.mem_append.1 he with h0 | h1
  · exact hi.toInvW.wf0.vals _ h0
  · exact hi.toInvW.wf1.vals _ h1

/-- Storing a value in the entry `*existing` points to. -/
theorem setVal_existing [Key K] [Value V] {d2 : Dict K V} (hi2 : Inv d2)
    (v : V) (t i p : Nat) (ch : List (Entry K V)) (e : Entry K V)
    (ht : t = 0 ∨ (t = 1 ∧ d2.rehashidx ≠ -1)) (ha : (d2.ht t).Allocated)
    (hch : (d2.ht t).table[i]? = some ch) (hp : ch[p]? = some e) :
    ∃ d3 m, d2.deref ⟨t, i, p⟩ = some e ∧
      d2.setVal ⟨t, i, p⟩ v = some (d3, [Event.valDup v]) ∧ Inv d3 ∧
      d2.entries.Perm (e :: m) ∧
      d3.entries.Perm ({ e with value := some (Value.Dup v) } :: m) ∧
      d3.iterators = d2.iterators := by
  have hmem : e ∈ ch := List.mem_iff_getElem?.2 ⟨p, hp⟩
  rcases ht with rfl | ⟨rfl, hr⟩
  · simp only [Dict.ht, if_true] at ha hch
    obtain ⟨hw, m, hm1, hm2⟩ := wf_store hi2.toInvW.wf0 ha i p e ch (Value.Dup v) hch hp
    have hA : d2.entries.Perm (e :: (m ++ d2.ht1.entries)) := List.Perm.append_right _ hm1
    have hB := List.Perm.append_right d2.ht1.entries hm2
    refine ⟨_, m ++ d2.ht1.entries, ?_, ?_,
      inv_set_ht0 hi2 _ hw (allocated_set ha _ _ (by simp)) rfl ?_ ?_, hA, hB, rfl⟩
    · simp [Dict.deref, Dict.ht, hch, hp]
    · simp [Dict.setVal, Dict.storeVal, Dict.setHt, Dict.ht, hch, hp]
    · intro _ j hj
      exact getElem?_set_nil_of_nil _ i j e ch _ hch hmem hj
    · intro hk
      exact nodup_store hk e (Value.Dup v) (hi2.toInvW.nodup hk) hA hB
  · simp only [Dict.ht, one_ne_zero, if_false] at ha hch
    obtain ⟨hw, m, hm1, hm2⟩ := wf_store hi2.toInvW.wf1 ha i p e ch (Value.Dup v) hch hp
    have hA : d2.entries.Perm (e :: (d2.ht0.entries ++ m)) :=
      (List.Perm.append_left _ hm1).trans List.perm_middle
    have hB := (List.Perm.append_left d2.ht0.entries hm2).trans List.perm_middle
    refine ⟨_, d2.ht0.entries ++ m, ?_, ?_,
      inv_set_ht1 hi2 hr _ hw (allocated_set ha _ _ (by simp)) rfl ?_, hA, hB, rfl⟩
    · simp [Dict.deref, Dict.ht, hch, hp]
    · simp [Dict.setVal, Dict.storeVal, Dict.setHt, Dict.ht, hch, hp]
    · intro hk
      exact nodup_store hk e (Value.Dup v) (hi2.toInvW.nodup hk) hA hB

/-- The method `Add` returns.  It makes the rehash step and the growth check; if the
search then stops at an entry it returns `ErrDict`, calls no `Dup` and no `Destructor`
and links nothing; otherwise it returns `nil`, duplicates the key and the value, and
links one more entry, which holds the two duplicates. -/
theorem Add_eq [Key K] [Value V] {d : Dict K V} (hi : Inv d)
    (hb : d.entries.length ≤ 2 ^ 62) (k : K) (v : V) :
    ∃ d2, Inv d2 ∧ d2.entries.Perm d.entries ∧ d2.iterators = d.iterators ∧
      ((∃ e, d2.lookup k = some e ∧ d.Add k v = some (d2, GoError.ErrDict, [])) ∨
       (d2.lookup k = none ∧ ∃ d4,
          d.Add k v = some (d4, GoError.nil, [Event.keyDup k, Event.valDup v]) ∧ Inv d4 ∧
          d4.entries.Perm ({ key := Key.Dup k, value := some (Value.Dup v) } :: d2.entries) ∧
          d4.iterators = d2.iterators)) := by
  obtain ⟨d2, hi2, hp2, hit2, hcase⟩ := addRaw_spec hi hb k
  refine ⟨d2, hi2, hp2, hit2, ?_⟩
  rcases hcase with ⟨e, t, i, p, ch, hl, hadd, _⟩ | ⟨hns, t, ch, hadd, ht, ha, hch⟩
  · exact Or.inl ⟨e, hl, by simp [Dict.Add, hadd]⟩
  · obtain ⟨d4, hset, hi4, hp4, hit4⟩ := setVal_new hi2 (by rw [hp2.length_eq]; exact hb)
      k v t ch hns ht ha hch
    exact Or.inr ⟨hns, d4, by simp [Dict.Add, hadd, hset], hi4, hp4, hit4⟩

/-- The method `Replace` returns.  It makes the rehash step and the growth check; if the
search then stops at an entry it stores a duplicate of the value in that entry, calls
`Destructor` on the value the entry held, and returns `0`; otherwise it returns `1` and
does what `Add` does. -/
theorem Replace_eq [Key K] [Value V] {d : Dict K V} (hi : Inv d)
    (hb : d.entries.length ≤ 2 ^ 62) (k : K) (v : V) :
    ∃ d2, Inv d2 ∧ d2.entries.Perm d.entries ∧ d2.iterators = d.iterators ∧
      ((∃ e d3 old m, d2.lookup k = some e ∧ e.value = some old ∧
          d.Replace k v = some (d3, 0, [Event.valDup v, Event.valDestructor old]) ∧ Inv d3 ∧
          d2.entries.Perm (e :: m) ∧
          d3.entries.Perm ({ e with value := some (Value.Dup v) } :: m) ∧
          d3.iterators = d2.iterators) ∨
       (d2.lookup k = none ∧ ∃ d4,
          d.Replace k v = some (d4, 1, [Event.keyDup k, Event.valDup v]) ∧ Inv d4 ∧
          d4.entries.Perm ({ key := Key.Dup k, value := some (Value.Dup v) } :: d2.entries) ∧
          d4.iterators = d2.iterators)) := by
  obtain ⟨d2, hi2, hp2, hit2, hcase⟩ := addRaw_spec hi hb k
  refine ⟨d2, hi2, hp2, hit2, ?_⟩
  rcases hcase with ⟨e, t, i, p, ch, hl, hadd, ht, ha, hch, hp⟩ | ⟨hns, t, ch, hadd, ht, ha, hch⟩
  · obtain ⟨d3, m, hderef, hset, hi3, hA, hB, hit3⟩ :=
      setVal_existing hi2 v t i p ch e ht ha hch hp
    have hmem : e ∈ d2.entries :=
      mem_entries_of_ref t i ch e hch (List.mem_iff_getElem?.2 ⟨p, hp⟩)
    obtain ⟨old, hold⟩ := Option.ne_none_iff_exists'.1 (hi2.value_ne_none e hmem)
    refine Or.inl ⟨e, d3, old, m, hl, hold, ?_, hi3, hA, hB, hit3⟩
    simp [Dict.Replace, hadd, hderef, hset, Entry.freeVal, hold]
  · obtain ⟨d4, hset, hi4, hp4, hit4⟩ := setVal_new hi2 (by rw [hp2.length_eq]; exact hb)
      k v t ch hns ht ha hch
    exact Or.inr ⟨hns, d4, by simp [Dict.Replace, hadd, hset], hi4, hp4, hit4⟩

/-- The method `Add` on a key that is stored: `ErrDict`, no `Dup` and no `Destructor`,
and the same entries. -/
theorem Add_stored [Key K] [Value V] (hk : KeyLaws K) {d : Dict K V} (hi : Inv d)
    (hb : d.entries.length ≤ 2 ^ 62) (k : K) (v : V) (e : Entry K V) (hs : d.Stored k e) :
    ∃ d1, d.Add k v = some (d1, GoError.ErrDict, []) ∧ Inv d1 ∧ d1.entries.Perm d.entries ∧
      d1.iterators = d.iterators := by
  obtain ⟨d2, hi2, hp2, hit2, hcase⟩ := Add_eq hi hb k v
  have hl : d2.lookup k = some e := (hi2.lookup_iff hk k e).2 ((stored_perm hp2 k e).2 hs)
  rcases hcase with ⟨_, _, hadd⟩ | ⟨hns, _⟩
  · exact ⟨d2, hadd, hi2, hp2, hit2⟩
  · rw [hl] at hns; simp at hns

/-- The method `Add` on a key that is not stored: success, one `Dup` of the key and one
of the value, and one more entry, which holds the two duplicates. -/
theorem Add_fresh [Key K] [Value V] (hk : KeyLaws K) {d : Dict K V} (hi : Inv d)
    (hb : d.entries.length ≤ 2 ^ 62) (k : K) (v : V) (hns : ∀ e, ¬ d.Stored k e) :
    ∃ d1, d.Add k v = some (d1, GoError.nil, [Event.keyDup k, Event.valDup v]) ∧ Inv d1 ∧
      d1.entries.Perm ({ key := Key.Dup k, value := some (Value.Dup v) } :: d.entries) ∧
      d1.iterators = d.iterators := by
  obtain ⟨d2, hi2, hp2, hit2, hcase⟩ := Add_eq hi hb k v
  rcases hcase with ⟨e, hl, _⟩ | ⟨_, d4, hadd, hi4, hp4, hit4⟩
  · exact absurd ((stored_perm hp2 k e).1 ((hi2.lookup_iff hk k e).1 hl)) (hns e)
  · exact ⟨d4, hadd, hi4, hp4.trans (List.Perm.cons _ hp2), by rw [hit4, hit2]⟩

/-- The method `Replace` on a key that is not stored: the result `1`, and otherwise what
`Add` does. -/
theorem Replace_fresh [Key K] [Value V] (hk : KeyLaws K) {d : Dict K V} (hi : Inv d)
    (hb : d.entries.length ≤ 2 ^ 62) (k : K) (v : V) (hns : ∀ e, ¬ d.Stored k e) :
    ∃ d1, d.Replace k v = some (d1, 1, [Event.keyDup k, Event.valDup v]) ∧ Inv d1 ∧
      d1.entries.Perm ({ key := Key.Dup k, value := some (Value.Dup v) } :: d.entries) ∧
      d1.iterators = d.iterators := by
  obtain ⟨d2, hi2, hp2, hit2, hcase⟩ := Replace_eq hi hb k v
  rcases hcase with ⟨e, _, _, _, hl, _⟩ | ⟨_, d4, hadd, hi4, hp4, hit4⟩
  · exact absurd ((stored_perm hp2 k e).1 ((hi2.lookup_iff hk k e).1 hl)) (hns e)
  · exact ⟨d4, hadd, hi4, hp4.trans (List.Perm.cons _ hp2), by rw [hit4, hit2]⟩

/-- The method `Replace` on a key that is stored: the result `0`, a `Dup` of the new
value followed by the `Destructor` of the old one, and the same entries but for the value
of the entry of the key. -/
theorem Replace_stored [Key K] [Value V] (hk : KeyLaws K) {d : Dict K V} (hi : Inv d)
    (hb : d.entries.length ≤ 2 ^ 62) (k : K) (v : V) (e : Entry K V) (hs : d.Stored k e) :
    ∃ d1 old m, e.value = some old ∧
      d.Replace k v = some (d1, 0, [Event.valDup v, Event.valDestructor old]) ∧ Inv d1 ∧
      d.entries.Perm (e :: m) ∧
      d1.entries.Perm ({ e with value := some (Value.Dup v) } :: m) ∧
      d1.iterators = d.iterators := by
  obtain ⟨d2, hi2, hp2, hit2, hcase⟩ := Replace_eq hi hb k v
  have hl : d2.lookup k = some e := (hi2.lookup_iff hk k e).2 ((stored_perm hp2 k e).2 hs)
  rcases hcase with ⟨e1, d3, old, m, hl1, hold, hrep, hi3, hA, hB, hit3⟩ | ⟨hns, _⟩
  · rw [hl] at hl1
    simp only [Option.some.injEq] at hl1
    subst hl1
    exact ⟨d3, old, m, hold, hrep, hi3, hp2.symm.trans hA, hB, by rw [hit3, hit2]⟩
  · rw [hl] at hns; simp at hns

/-! ## Removal -/

/-- The statements of `genericDelete` after the search has found the entry `e` in its
bucket of table `t`. -/
theorem afterUnlink_spec [Key K] {d1 : Dict K V} (hi1 : Inv d1)
    (hb : d1.entries.length ≤ 2 ^ 62) (t i : Nat) (ch rest : List (Entry K V))
    (e : Entry K V) (ht : t = 0 ∨ (t = 1 ∧ d1.rehashidx ≠ -1)) (ha : (d1.ht t).Allocated)
    (hch : (d1.ht t).table[i]? = some ch) (hp : ch.Perm (e :: rest)) :
    ∃ d2 old, e.value = some old ∧ Inv d2 ∧ d1.entries.Perm (e :: d2.entries) ∧
      d2.iterators = d1.iterators ∧
      ∀ nofree : Int, d1.afterUnlink t i e rest nofree = some (d2, some e,
        if nofree = 0 then [Event.keyDestructor e.key, Event.valDestructor old] else []) := by
  have hmem : e ∈ ch := hp.mem_iff.2 (List.mem_cons_self _ _)
  have htot : d1.entries.length = d1.ht0.entries.length + d1.ht1.entries.length := by
    simp [Dict.entries]
  rcases ht with rfl | ⟨rfl, hr⟩
  · simp only [Dict.ht, if_true] at ha hch
    obtain ⟨hw, hperm⟩ := wf_unlink hi1.toInvW.wf0 ha i e ch rest hch hp
      (by rw [hi1.toInvW.wf0.used_eq]; omega)
    have hval : e.value ≠ none :=
      hi1.toInvW.wf0.vals e (mem_entries_of_bucket i ch e hch hmem)
    obtain ⟨old, hold⟩ := Option.ne_none_iff_exists'.1 hval
    have hA := List.Perm.append_right d1.ht1.entries hperm
    refine ⟨{ d1 with ht0 := { d1.ht0 with
                table := d1.ht0.table.set i rest, used := decr d1.ht0.used } },
      old, hold, inv_set_ht0 hi1 _ hw (allocated_set ha _ _ (by simp)) rfl ?_ ?_, hA, rfl, ?_⟩
    · intro _ j hj
      exact getElem?_set_nil_of_nil _ i j e ch _ hch hmem hj
    · intro hk
      exact (List.pairwise_cons.1 (nodup_perm hk hA (hi1.toInvW.nodup hk))).2
    · intro nofree
      by_cases hn : nofree = 0
      · simp [Dict.afterUnlink, Dict.setHt, Dict.ht, hn, Entry.freeVal, Entry.freeKey, hold]
      · simp [Dict.afterUnlink, Dict.setHt, Dict.ht, hn]
  · simp only [Dict.ht, one_ne_zero, if_false] at ha hch
    obtain ⟨hw, hperm⟩ := wf_unlink hi1.toInvW.wf1 ha i e ch rest hch hp
      (by rw [hi1.toInvW.wf1.used_eq]; omega)
    have hval : e.value ≠ none :=
      hi1.toInvW.wf1.vals e (mem_entries_of_bucket i ch e hch hmem)
    obtain ⟨old, hold⟩ := Option.ne_none_iff_exists'.1 hval
    have hA := (List.Perm.append_left d1.ht0.entries hperm).trans List.perm_middle
    refine ⟨{ d1 with ht1 := { d1.ht1 with
                table := d1.ht1.table.set i rest, used := decr d1.ht1.used } },
      old, hold, inv_set_ht1 hi1 hr _ hw (allocated_set ha _ _ (by simp)) rfl ?_, hA, rfl, ?_⟩
    · intro hk
      exact (List.pairwise_cons.1 (nodup_perm hk hA (hi1.toInvW.nodup hk))).2
    · intro nofree
      by_cases hn : nofree = 0
      · simp [Dict.afterUnlink, Dict.setHt, Dict.ht, hn, Entry.freeVal, Entry.freeKey, hold]
      · simp [Dict.afterUnlink, Dict.setHt, Dict.ht, hn]

theorem chainUnlink_eq_none [Key K] (k : K) (ch : List (Entry K V))
    (h : chainFind k ch = none) : chainUnlink k ch = none := by
  cases hu : chainUnlink k ch with
  | none => rfl
  | some r =>
    have := (chainUnlink_some k ch r.1 r.2 hu).1
    rw [h] at this; simp at this

/-- The method `genericDelete` returns.  It makes the rehash step; if the search then
finds no entry it returns `nil` and changes nothing more; otherwise it unlinks the entry
found and returns it, and calls `Destructor` on its key and on its value exactly when
`nofree` is `0`.  The dictionary left behind does not depend on `nofree`. -/
theorem genericDelete_eq [Key K] {d : Dict K V} (hi : Inv d)
    (hb : d.entries.length ≤ 2 ^ 62) (k : K) :
    ∃ d1, Inv d1 ∧ d1.entries.Perm d.entries ∧ d1.iterators = d.iterators ∧
      ((d1.lookup k = none ∧ ∀ nofree : Int, d.genericDelete k nofree = some (d1, none, [])) ∨
       (∃ e d2 old, d1.lookup k = some e ∧ e.value = some old ∧ Inv d2 ∧
          d1.entries.Perm (e :: d2.entries) ∧ d2.iterators = d1.iterators ∧
          ∀ nofree : Int, d.genericDelete k nofree = some (d2, some e,
            if nofree = 0 then [Event.keyDestructor e.key, Event.valDestructor old]
            else []))) := by
  by_cases hsz : d.size = 0
  · obtain ⟨h0, _⟩ := hi.reset_of_size_zero hsz
    have hl : d.lookup k = none := by simp [Dict.lookup, h0, _dictReset]
    exact ⟨d, hi, List.Perm.refl _, rfl,
      Or.inl ⟨hl, fun nofree => by simp [Dict.genericDelete, hsz]⟩⟩
  · obtain ⟨d1, hstep, hi1, hp1, hit1, ha1⟩ := stepIfRehashing_spec hi hb
    have hb1 : d1.entries.length ≤ 2 ^ 62 := by rw [hp1.length_eq]; exact hb
    have ha0 := ha1 (hi.ht0_allocated hsz)
    obtain ⟨c0, hc0, hf0, hn0, hn1⟩ := hi1.lookup_eq k ha0
    refine ⟨d1, hi1, hp1, hit1, ?_⟩
    cases hfind : chainFind k c0 with
    | some e0 =>
      obtain ⟨rest, hul⟩ := chainUnlink_of_find k c0 e0 hfind
      obtain ⟨d2, old, hold, hi2, hp2, hit2, hres⟩ := afterUnlink_spec hi1 hb1 0 _ c0 rest e0
        (Or.inl rfl) ha0 hc0 (chainUnlink_some k c0 e0 rest hul).2
      refine Or.inr ⟨e0, d2, old, hf0 e0 hfind, hold, hi2, hp2, hit2, ?_⟩
      intro nofree
      rw [← hres nofree]
      simp [Dict.genericDelete, hsz, hstep, hc0, hul]
    | none =>
      have hul0 := chainUnlink_eq_none k c0 hfind
      by_cases hr : d1.rehashidx = -1
      · have hnr : d1.isRehashing = false := by simp [Dict.isRehashing, hr]
        refine Or.inl ⟨hn0 hfind hr, fun nofree => ?_⟩
        simp [Dict.genericDelete, hsz, hstep, hc0, hul0, hnr]
      · have hnr : d1.isRehashing = true := by simp [Dict.isRehashing, hr]
        obtain ⟨hal1, c1, hc1, hl⟩ := hn1 hfind hr
        cases hfind1 : chainFind k c1 with
        | none =>
          have hul1 := chainUnlink_eq_none k c1 hfind1
          refine Or.inl ⟨by rw [hl, hfind1], fun nofree => ?_⟩
          simp [Dict.genericDelete, hsz, hstep, hc0, hul0, hnr, hc1, hul1]
        | some e0 =>
          obtain ⟨rest, hul⟩ := chainUnlink_of_find k c1 e0 hfind1
          obtain ⟨d2, old, hold, hi2, hp2, hit2, hres⟩ :=
            afterUnlink_spec hi1 hb1 1 _ c1 rest e0
              (Or.inr ⟨rfl, hr⟩) hal1 hc1 (chainUnlink_some k c1 e0 rest hul).2
          refine Or.inr ⟨e0, d2, old, by rw [hl, hfind1], hold, hi2, hp2, hit2, ?_⟩
          intro nofree
          rw [← hres nofree]
          simp [Dict.genericDelete, hsz, hstep, hc0, hul0, hnr, hc1, hul]

/-- The method `genericDelete` on a key that is stored. -/
theorem genericDelete_stored [Key K] (hk : KeyLaws K) {d : Dict K V} (hi : Inv d)
    (hb : d.entries.length ≤ 2 ^ 62) (k : K) (e : Entry K V) (hs : d.Stored k e) :
    ∃ d2 old, e.value = some old ∧ Inv d2 ∧ d.entries.Perm (e :: d2.entries) ∧
      d2.iterators = d.iterators ∧
      ∀ nofree : Int, d.genericDelete k nofree = some (d2, some e,
        if nofree = 0 then [Event.keyDestructor e.key, Event.valDestructor old] else []) := by
  obtain ⟨d1, hi1, hp1, hit1, hcase⟩ := genericDelete_eq hi hb k
  have hl : d1.lookup k = some e := (hi1.lookup_iff hk k e).2 ((stored_perm hp1 k e).2 hs)
  rcases hcase with ⟨hn, _⟩ | ⟨e1, d2, old, hl1, hold, hi2, hp2, hit2, hres⟩
  · rw [hl] at hn; simp at hn
  · rw [hl] at hl1
    simp only [Option.some.injEq] at hl1
    subst hl1
    exact ⟨d2, old, hold, hi2, hp1.symm.trans hp2, by rw [hit2, hit1], hres⟩

/-- The method `genericDelete` on a key that is not stored. -/
theorem genericDelete_absent [Key K] (hk : KeyLaws K) {d : Dict K V} (hi : Inv d)
    (hb : d.entries.length ≤ 2 ^ 62) (k : K) (hns : ∀ e, ¬ d.Stored k e) :
    ∃ d1, Inv d1 ∧ d1.entries.Perm d.entries ∧ d1.iterators = d.iterators ∧
      ∀ nofree : Int, d.genericDelete k nofree = some (d1, none, []) := by
  obtain ⟨d1, hi1, hp1, hit1, hcase⟩ := genericDelete_eq hi hb k
  rcases hcase with ⟨_, hres⟩ | ⟨e, _, _, hl, _⟩
  · exact ⟨d1, hi1, hp1, hit1, hres⟩
  · exact absurd ((stored_perm hp1 k e).1 ((hi1.lookup_iff hk k e).1 hl)) (hns e)

/-! ## Resize, and the invariant along a run -/

theorem Inv.used0_le [Key K] {d : Dict K V} (hi : Inv d) :
    d.ht0.used ≤ d.entries.length := by
  rw [hi.toInvW.wf0.used_eq]
  simp [Dict.entries]

theorem Inv.total_eq [Key K] {d : Dict K V} (hi : Inv d) :
    d.total = d.entries.length := by
  unfold Dict.total
  rw [hi.toInvW.wf0.used_eq, hi.toInvW.wf1.used_eq]
  simp [Dict.entries]

/-- The method `Resize` returns, keeps the invariant, and links or unlinks nothing. -/
theorem Resize_spec [Key K] {d : Dict K V} (hi : Inv d) (hb : d.entries.length ≤ 2 ^ 62) :
    ∃ d1 r, d.Resize = some (d1, r) ∧ Inv d1 ∧ d1.entries = d.entries ∧
      d1.iterators = d.iterators := by
  unfold Dict.Resize
  by_cases hr : d.rehashidx = -1
  · have hnr : d.isRehashing = false := by simp [Dict.isRehashing, hr]
    simp only [hnr, Bool.false_eq_true, if_false]
    have hu := hi.used0_le
    have hmin : (if d.ht0.used < dictHTInitailSize then dictHTInitailSize else d.ht0.used)
        ≤ 2 ^ 63 := by
      split
      · simp [dictHTInitailSize]
      · omega
    have hge : d.ht0.used ≤
        (if d.ht0.used < dictHTInitailSize then dictHTInitailSize else d.ht0.used) := by
      split <;> omega
    obtain ⟨m, h2, h63, hp, _, _⟩ := nextPower_spec _ hmin
    rw [expand_eq d _ m hr hge hp]
    by_cases hsz : 2 ^ m = d.ht0.size
    · rw [if_pos hsz]
      exact ⟨d, DictErr, rfl, hi, rfl, rfl⟩
    · rw [if_neg hsz]
      rcases hi.toInvW.wf0.shape with h0 | h0
      · have hem : d.ht0.table.isEmpty = true := by rw [h0]; rfl
        rw [if_pos hem]
        obtain ⟨h1, h2'⟩ := inv_firstTable hi hr h0 m h2 h63
        exact ⟨_, DictOK, rfl, h1, h2', rfl⟩
      · simp only [h0.table_ne_nil, Bool.false_eq_true, if_false]
        obtain ⟨h1, h2'⟩ := inv_startRehash hi hr h0 m h2 h63 hsz
        exact ⟨_, DictOK, rfl, h1, h2', rfl⟩
  · have hnr : d.isRehashing = true := by simp [Dict.isRehashing, hr]
    simp only [hnr, if_true]
    exact ⟨d, DictErr, rfl, hi, rfl, rfl⟩

theorem stored_or_not [Key K] (d : Dict K V) (k : K) :
    (∃ e, d.Stored k e) ∨ ∀ e, ¬ d.Stored k e := by
  by_cases h : ∃ e, d.Stored k e
  · exact Or.inl h
  · exact Or.inr (fun e he => h ⟨e, he⟩)

/-- Every call of a public method on a dictionary that holds at most `2 ^ 62` entries
returns, keeps the invariant, and links at most one more entry. -/
theorem call_spec [Key K] [Value V] {d : Dict K V} (hi : Inv d)
    (hb : d.entries.length ≤ 2 ^ 62) (op : Op K V) :
    ∃ d1, d.exec op = some d1 ∧ Inv d1 ∧ d1.iterators = d.iterators ∧
      d1.entries.length ≤ d.entries.length + 1 := by
  cases op with
  | Add k v =>
    obtain ⟨d2, hi2, hp2, hit2, hcase⟩ := Add_eq hi hb k v
    rcases hcase with ⟨e, _, h1⟩ | ⟨_, d4, h1, hi4, hp4, hit4⟩
    · exact ⟨d2, by simp [Dict.exec, Dict.call, h1], hi2, hit2, by rw [hp2.length_eq]; omega⟩
    · refine ⟨d4, by simp [Dict.exec, Dict.call, h1], hi4, by rw [hit4, hit2], ?_⟩
      rw [hp4.length_eq, List.length_cons, hp2.length_eq]
  | Replace k v =>
    obtain ⟨d2, hi2, hp2, hit2, hcase⟩ := Replace_eq hi hb k v
    rcases hcase with ⟨e, d3, old, m, _, _, h1, hi3, hA, hB, hit3⟩ | ⟨_, d4, h1, hi4, hp4, hit4⟩
    · refine ⟨d3, by simp [Dict.exec, Dict.call, h1], hi3, by rw [hit3, hit2], ?_⟩
      have h1 := hA.length_eq
      have h2 := hB.length_eq
      have h3 := hp2.length_eq
      simp only [List.length_cons] at h1 h2
      omega
    · refine ⟨d4, by simp [Dict.exec, Dict.call, h1], hi4, by rw [hit4, hit2], ?_⟩
      rw [hp4.length_eq, List.length_cons, hp2.length_eq]
  | Find k =>
    obtain ⟨d1, h1, h2, h3, h4⟩ := Find_eq hi hb k
    exact ⟨d1, by simp [Dict.exec, Dict.call, h1], h2, h4, by rw [h3.length_eq]; omega⟩
  | FetchValue k =>
    obtain ⟨d1, h1, h2, h3, h4⟩ := Find_eq hi hb k
    refine ⟨d1, ?_, h2, h4, by rw [h3.length_eq]; omega⟩
    cases hl : d1.lookup k <;> simp [Dict.exec, Dict.call, Dict.FetchValue, h1, hl]
  | Delete k =>
    obtain ⟨d1, hi1, hp1, hit1, hcase⟩ := genericDelete_eq hi hb k
    rcases hcase with ⟨_, h1⟩ | ⟨e, d2, old, _, _, hi2, hp2, hit2, h1⟩
    · exact ⟨d1, by simp [Dict.exec, Dict.call, Dict.Delete, h1 0], hi1, hit1,
        by rw [hp1.length_eq]; omega⟩
    · refine ⟨d2, by simp [Dict.exec, Dict.call, Dict.Delete, h1 0], hi2, by rw [hit2, hit1], ?_⟩
      have h3 := hp2.length_eq
      have h4 := hp1.length_eq
      simp only [List.length_cons] at h3
      omega
  | Unlink k =>
    obtain ⟨d1, hi1, hp1, hit1, hcase⟩ := genericDelete_eq hi hb k
    rcases hcase with ⟨_, h1⟩ | ⟨e, d2, old, _, _, hi2, hp2, hit2, h1⟩
    · exact ⟨d1, by simp [Dict.exec, Dict.call, Dict.Unlink, h1 1], hi1, hit1,
        by rw [hp1.length_eq]; omega⟩
    · refine ⟨d2, by simp [Dict.exec, Dict.call, Dict.Unlink, h1 1], hi2, by rw [hit2, hit1], ?_⟩
      have h3 := hp2.length_eq
      have h4 := hp1.length_eq
      simp only [List.length_cons] at h3
      omega
  | Resize =>
    obtain ⟨d1, r, h1, h2, h3, h4⟩ := Resize_spec hi hb
    exact ⟨d1, by simp [Dict.exec, Dict.call, h1], h2, h4, by rw [h3]; omega⟩

theorem inv_Create [Key K] : Inv (Create : Dict K V) :=
  ⟨⟨wf_dictReset, wf_dictReset, fun _ => by simp [Dict.entries, Create, entries_dictReset],
    fun _ => rfl, fun h => absurd rfl h⟩, fun h => absurd rfl h⟩

/-- Every reachable dictionary satisfies the invariant, holds fewer than `2 ^ 62` entries
and has no iterator registered. -/
theorem Reachable.inv [Key K] [Value V] {d : Dict K V} (hr : Reachable d) :
    Inv d ∧ d.entries.length < 2 ^ 62 ∧ d.iterators = 0 := by
  induction hr with
  | create => exact ⟨inv_Create, by simp [Dict.entries, Create, entries_dictReset], rfl⟩
  | step d d1 op _ hex hlen ih =>
    obtain ⟨hi, hb, hit⟩ := ih
    obtain ⟨d2, hc, hi2, hit2, _⟩ := call_spec hi (le_of_lt hb) op
    have : d1 = d2 := by
      rw [hc] at hex
      exact (Option.some.inj hex).symm
    subst this
    exact ⟨hi2, hlen, by rw [hit2, hit]⟩

/-! ## Runs -/

theorem entries_Create : (Create : Dict K V).entries = [] := rfl

/-- A run that fits in memory returns, and the dictionary it leaves behind is
reachable. -/
theorem reachable_run [Key K] [Value V] (ops : List (Op K V)) :
    ∀ d : Dict K V, Reachable d → d.entries.length + ops.length < 2 ^ 62 →
      ∃ d1, d.run ops = some d1 ∧ Reachable d1 ∧
        d1.entries.length ≤ d.entries.length + ops.length := by
  induction ops with
  | nil =>
    intro d hr _
    exact ⟨d, rfl, hr, by simp⟩
  | cons op ops ih =>
    intro d hr hb
    simp only [List.length_cons] at hb
    obtain ⟨hi, _, _⟩ := hr.inv
    obtain ⟨d1, hex, _, _, hlen⟩ := call_spec hi (by omega) op
    have hr1 : Reachable d1 := Reachable.step d d1 op hr hex (by unfold entryLimit; omega)
    obtain ⟨d2, hrun, hr2, hlen2⟩ := ih d1 hr1 (by omega)
    refine ⟨d2, ?_, hr2, by simp only [List.length_cons]; omega⟩
    simp only [Dict.run, hex]
    exact hrun

theorem reachable_testDict (ops : List (Op keyT valueT)) (h : ops.length < 2 ^ 62) :
    Reachable (testDict ops) := by
  obtain ⟨d1, hrun, hr, _⟩ := reachable_run ops (Create : Dict keyT valueT) Reachable.create
    (by rw [entries_Create]; simpa using h)
  unfold testDict
  rw [hrun]
  exact hr

theorem keyLaws_keyT : KeyLaws keyT where
  compare_refl := by intro a; simp [Key.Compare]
  compare_symm := by
    intro a b h
    simp only [Key.Compare] at h ⊢
    split at h
    · rename_i hab; simp [hab]
    · simp at h
  compare_trans := by
    intro a b c h1 h2
    simp only [Key.Compare] at h1 h2 ⊢
    split at h1
    · split at h2
      · rename_i hab hbc; simp [hab, hbc]
      · simp at h2
    · simp at h1
  hash_congr := by
    intro a b h
    simp only [Key.Compare] at h
    simp only [Key.HashFunction]
    split at h
    · rename_i hab; rw [hab]
    · simp at h
  dup_compare := by intro a; simp [Key.Compare, Key.Dup]

/-! ## The shape of the tables -/

/-- C9: in every state reachable from `Create()` by `Add`, `Replace`, `Find`,
`FetchValue`, `Delete`, `Unlink` and `Resize`, every allocated table (`ht[0]` or `ht[1]`
with `size != 0`) has a size that is a power of two and at least `4`, has
`sizemask = size - 1`, and has a bucket array of length exactly `size`. -/
theorem allocated_table_shape [Key K] [Value V] (d : Dict K V) (hr : Reachable d) :
    ∀ h : dictht K V, h = d.ht0 ∨ h = d.ht1 → h.size ≠ 0 →
      (∃ n, h.size = 2 ^ n) ∧ 4 ≤ h.size ∧ h.sizemask = h.size - 1 ∧
        h.table.length = h.size := by
  obtain ⟨hi, _, _⟩ := hr.inv
  intro h hh hs
  have hw : h.WF := by
    rcases hh with rfl | rfl
    · exact hi.toInvW.wf0
    · exact hi.toInvW.wf1
  have ha := hw.allocated_of_size hs
  obtain ⟨n, _, _, hn, hm, hl⟩ := ha
  exact ⟨⟨n, hn⟩, (hw.allocated_of_size hs).size_ge, hm, hl⟩

theorem allocated_table_shape_witness :
    Reachable (testDict (testAdds 20)) ∧
    ((testDict (testAdds 20)).ht1 = (testDict (testAdds 20)).ht0 ∨
      (testDict (testAdds 20)).ht1 = (testDict (testAdds 20)).ht1) ∧
    (testDict (testAdds 20)).ht1.size ≠ 0 ∧
    ((∃ n, (testDict (testAdds 20)).ht1.size = 2 ^ n) ∧ 4 ≤ (testDict (testAdds 20)).ht1.size ∧
      (testDict (testAdds 20)).ht1.sizemask = (testDict (testAdds 20)).ht1.size - 1 ∧
      (testDict (testAdds 20)).ht1.table.length = (testDict (testAdds 20)).ht1.size) :=
  ⟨reachable_testDict _ (by decide), Or.inr rfl, by decide,
    allocated_table_shape _ (reachable_testDict _ (by decide)) _ (Or.inr rfl) (by decide)⟩

/-! ## Termination of the incremental rehash -/

theorem rehashTimes_of_idle [Key K] (d : Dict K V) (h : d.rehashidx = -1) :
    ∀ m, d.rehashTimes m = some d := by
  intro m
  induction m with
  | zero => rfl
  | succ m ih =>
    simp only [Dict.rehashTimes, Dict.rehash, Dict.isRehashing, h]
    simpa using ih

/-- From a dictionary that is rehashing with `rehashidx = r`, at most `size - r` calls
of `rehash(1)` end the rehash. -/
theorem rehashTimes_spec [Key K] (gap : Nat) :
    ∀ (d : Dict K V), Inv d → d.entries.length ≤ 2 ^ 62 → d.rehashidx ≠ -1 →
      (d.ht0.size : Int) - d.rehashidx ≤ gap →
      ∃ m d1, m ≤ gap ∧ d.rehashTimes m = some d1 ∧ d1.rehashidx = -1 ∧ Inv d1 ∧
        d1.entries.Perm d.entries := by
  induction gap with
  | zero =>
    intro d hi _ hr hgap
    have := hi.idx_lt hr
    simp only [Nat.cast_zero] at hgap
    omega
  | succ gap ih =>
    intro d hi hb hr hgap
    obtain ⟨d1, r, hre, hi1, hp1, _, _, _, hstill⟩ := rehash_spec hi hb 1
    by_cases hr1 : d1.rehashidx = -1
    · refine ⟨1, d1, by omega, ?_, hr1, hi1, hp1⟩
      simp [Dict.rehashTimes, hre]
    · obtain ⟨_, hs0, _, hprog⟩ := hstill hr1
      have hlt := hprog (by norm_num)
      obtain ⟨m, d2, hm, hrun, hidle, hi2, hp2⟩ := ih d1 hi1 (by rw [hp1.length_eq]; exact hb) hr1
        (by rw [hs0]; push_cast at hgap ⊢; omega)
      refine ⟨m + 1, d2, by omega, ?_, hidle, hi2, hp2.trans hp1⟩
      simp [Dict.rehashTimes, hre, hrun]

/-- C10: for every dictionary reachable from `Create()` that is rehashing (every such
dictionary has `iterators = 0`), calling `rehash(1)` repeatedly returns the dictionary
to the not-rehashing state (`rehashidx = -1`) after at most `ht[0].size` calls, where
`ht[0].size` is the size of the old table when the calls start. -/
theorem rehash_terminates [Key K] [Value V] (d : Dict K V) (hr : Reachable d)
    (hre : d.rehashidx ≠ -1) :
    d.iterators = 0 ∧
    ∃ m d1, m ≤ d.ht0.size ∧ d.rehashTimes m = some d1 ∧ d1.rehashidx = -1 := by
  obtain ⟨hi, hb, hit⟩ := hr.inv
  refine ⟨hit, ?_⟩
  obtain ⟨r, hrr, _, _, _, _, _⟩ := hi.toInvW.busy hre
  obtain ⟨m, d1, hm, hrun, hidle, _, _⟩ :=
    rehashTimes_spec d.ht0.size d hi (le_of_lt hb) hre (by rw [hrr]; omega)
  exact ⟨m, d1, hm, hrun, hidle⟩

theorem rehash_terminates_witness :
    Reachable (testDict (testAdds 20)) ∧ (testDict (testAdds 20)).rehashidx ≠ -1 ∧
    ((testDict (testAdds 20)).iterators = 0 ∧
      ∃ m d1, m ≤ (testDict (testAdds 20)).ht0.size ∧
        (testDict (testAdds 20)).rehashTimes m = some d1 ∧ d1.rehashidx = -1) :=
  ⟨reachable_testDict _ (by decide), by decide,
    rehash_terminates _ (reachable_testDict _ (by decide)) (by decide)⟩

/-! ## Resize -/

/-- C8: for every dictionary reachable from `Create()`: if it is rehashing, `Resize()`
returns `DictErr` and changes nothing.  If it is not rehashing, let `t` be the least power
of two that is at least `max(ht[0].used, 4)`; when `ht[0]` is allocated and `t` differs
from `ht[0].size`, `Resize()` returns `DictOK` and leaves the dictionary rehashing with
`rehashidx = 0` and `ht[1]` an empty table of size `t`; when `t` equals `ht[0].size`,
`Resize()` returns `DictErr` and changes nothing. -/
theorem Resize_behaviour [Key K] [Value V] (d : Dict K V) (hr : Reachable d) :
    (d.isRehashing = true → d.Resize = some (d, DictErr)) ∧
    (d.isRehashing = false → ∀ t, IsLeastPow2 (max d.ht0.used 4) t →
      (d.ht0.size ≠ 0 → t ≠ d.ht0.size →
        ∃ d1, d.Resize = some (d1, DictOK) ∧ d1.isRehashing = true ∧ d1.rehashidx = 0 ∧
          d1.ht1.size = t ∧ d1.ht1.sizemask = t - 1 ∧ d1.ht1.used = 0 ∧
          d1.ht1.table = List.replicate t [] ∧ d1.ht0 = d.ht0 ∧
          d1.iterators = d.iterators) ∧
      (t = d.ht0.size → d.Resize = some (d, DictErr))) := by
  obtain ⟨hi, hb, _⟩ := hr.inv
  constructor
  · intro hre
    simp [Dict.Resize, hre]
  · intro hre t ht
    have hidle : d.rehashidx = -1 := by simpa [Dict.isRehashing] using hre
    have hu := hi.used0_le
    have hmin : (if d.ht0.used < dictHTInitailSize then dictHTInitailSize else d.ht0.used)
        = max d.ht0.used 4 := by
      simp only [dictHTInitailSize]
      split <;> omega
    have hle : max d.ht0.used 4 ≤ 2 ^ 63 := by
      apply max_le <;> omega
    obtain ⟨m, h2, h63, hp, hsz, hm⟩ := nextPower_spec (max d.ht0.used 4) hle
    have hleast := nextPower_least (max d.ht0.used 4) m h2 hsz hm
    have hmax : max (max d.ht0.used 4) 4 = max d.ht0.used 4 := by omega
    rw [hmax] at hleast
    have ht2 : t = 2 ^ m := isLeastPow2_unique _ _ _ ht hleast
    have hres : d.Resize =
        if 2 ^ m = d.ht0.size then some (d, DictErr)
        else if d.ht0.table.isEmpty then some ({ d with ht0 := freshTable (2 ^ m) }, DictOK)
        else some ({ d with ht1 := freshTable (2 ^ m), rehashidx := 0 }, DictOK) := by
      unfold Dict.Resize
      simp only [hre, Bool.false_eq_true, if_false]
      rw [hmin]
      exact expand_eq d _ m hidle (le_max_left _ _) hp
    constructor
    · intro hs hne
      have ha := hi.toInvW.wf0.allocated_of_size hs
      rw [ht2] at hne
      rw [hres, if_neg hne]
      simp only [ha.table_ne_nil, Bool.false_eq_true, if_false]
      refine ⟨_, rfl, by simp [Dict.isRehashing], rfl, by simp [freshTable, ht2], ?_,
        by simp [freshTable], by simp [freshTable, ht2], rfl, rfl⟩
      simp only [freshTable, ht2]
      apply decr_eq
      · positivity
      · exact Nat.pow_lt_pow_right (by norm_num) (by omega)
    · intro heq
      rw [ht2] at heq
      rw [hres, if_pos heq]

theorem Resize_behaviour_witness :
    Reachable (testDict shrinkOps) ∧ (testDict shrinkOps).isRehashing = false ∧
    IsLeastPow2 (max (testDict shrinkOps).ht0.used 4) 4 ∧
    (testDict shrinkOps).ht0.size ≠ 0 ∧ 4 ≠ (testDict shrinkOps).ht0.size ∧
    ∃ d1, (testDict shrinkOps).Resize = some (d1, DictOK) ∧ d1.isRehashing = true ∧
      d1.rehashidx = 0 ∧ d1.ht1.size = 4 ∧ d1.ht1.sizemask = 4 - 1 ∧ d1.ht1.used = 0 ∧
      d1.ht1.table = List.replicate 4 [] ∧ d1.ht0 = (testDict shrinkOps).ht0 ∧
      d1.iterators = (testDict shrinkOps).iterators :=
  have hl : IsLeastPow2 (max (testDict shrinkOps).ht0.used 4) 4 :=
    ⟨⟨2, rfl⟩, by decide, fun _ _ hp => le_trans (by decide) hp⟩
  ⟨reachable_testDict _ (by decide), by decide, hl, by decide, by decide,
    ((Resize_behaviour _ (reachable_testDict _ (by decide))).2 (by decide) 4 hl).1
      (by decide) (by decide)⟩

/-! ## What the methods do to the key they are called with -/

theorem Find_stored [Key K] (hk : KeyLaws K) {d : Dict K V} (hi : Inv d)
    (hb : d.entries.length ≤ 2 ^ 62) (k : K) (e : Entry K V) (hs : d.Stored k e) :
    ∃ d1, d.Find k = some (d1, some e) ∧ Inv d1 ∧ d1.entries.Perm d.entries := by
  obtain ⟨d1, r, h1, h2, h3, _, _, h5⟩ := Find_spec hk hi hb k
  rw [(h5 e).2 hs] at h1
  exact ⟨d1, h1, h2, h3⟩

theorem Find_absent [Key K] (hk : KeyLaws K) {d : Dict K V} (hi : Inv d)
    (hb : d.entries.length ≤ 2 ^ 62) (k : K) (hns : ∀ e, ¬ d.Stored k e) :
    ∃ d1, d.Find k = some (d1, none) ∧ Inv d1 ∧ d1.entries.Perm d.entries := by
  obtain ⟨d1, r, h1, h2, h3, _, _, h5⟩ := Find_spec hk hi hb k
  cases r with
  | none => exact ⟨d1, h1, h2, h3⟩
  | some e => exact absurd ((h5 e).1 rfl) (hns e)

theorem stored_of_Find [Key K] (hk : KeyLaws K) {d : Dict K V} (hi : Inv d)
    (hb : d.entries.length ≤ 2 ^ 62) (k : K) (d0 : Dict K V) (e : Entry K V)
    (h : d.Find k = some (d0, some e)) : d.Stored k e := by
  obtain ⟨d1, r, h1, _, _, _, _, h5⟩ := Find_spec hk hi hb k
  rw [h1] at h
  simp only [Option.some.injEq, Prod.mk.injEq] at h
  exact (h5 e).1 h.2

theorem absent_of_Find [Key K] (hk : KeyLaws K) {d : Dict K V} (hi : Inv d)
    (hb : d.entries.length ≤ 2 ^ 62) (k : K) (d0 : Dict K V)
    (h : d.Find k = some (d0, none)) : ∀ e, ¬ d.Stored k e := by
  obtain ⟨d1, r, h1, _, _, _, _, h5⟩ := Find_spec hk hi hb k
  rw [h1] at h
  simp only [Option.some.injEq, Prod.mk.injEq] at h
  intro e hs
  have := (h5 e).2 hs
  rw [h.2] at this
  simp at this

theorem FetchValue_stored [Key K] (hk : KeyLaws K) {d : Dict K V} (hi : Inv d)
    (hb : d.entries.length ≤ 2 ^ 62) (k : K) (e : Entry K V) (hs : d.Stored k e) :
    ∃ d1, d.FetchValue k = some (d1, e.value) := by
  obtain ⟨d1, h1, _, _⟩ := Find_stored hk hi hb k e hs
  exact ⟨d1, by simp [Dict.FetchValue, h1]⟩

theorem stored_cons [Key K] {d d1 : Dict K V} {x : Entry K V}
    (hp : d1.entries.Perm (x :: d.entries)) (k : K) (e : Entry K V) :
    d1.Stored k e ↔ (e = x ∧ Key.Compare k x.key = 0) ∨ d.Stored k e := by
  unfold Dict.Stored
  rw [hp.mem_iff, List.mem_cons]
  constructor
  · rintro ⟨h | h, hc⟩
    · subst h; exact Or.inl ⟨rfl, hc⟩
    · exact Or.inr ⟨h, hc⟩
  · rintro (⟨rfl, hc⟩ | ⟨h, hc⟩)
    · exact ⟨Or.inl rfl, hc⟩
    · exact ⟨Or.inr h, hc⟩

theorem not_mem_of_nodup_cons [Key K] {x : Entry K V} {m : List (Entry K V)}
    (h : (x :: m).Pairwise (fun a b => Key.Compare a.key b.key ≠ 0)) (e : Entry K V)
    (he : e ∈ m) : Key.Compare x.key e.key ≠ 0 :=
  (List.pairwise_cons.1 h).1 e he

/-- C3: for every dictionary reachable from `Create()` and every key `k` already
present, `Add(k, v)` returns `ErrDict`, the total entry count
`ht[0].used + ht[1].used` is the same after the call as before it, and `FetchValue(k)`
after the call returns the same value as it would have before the call. -/
theorem Add_duplicate [Key K] [Value V] (hk : KeyLaws K) (d : Dict K V) (hr : Reachable d)
    (k : K) (v : V) (hp : ∃ d0 e, d.Find k = some (d0, some e)) :
    ∃ d1, d.Add k v = some (d1, GoError.ErrDict, []) ∧ d1.total = d.total ∧
      ∃ d2 d3 val, d.FetchValue k = some (d2, some val) ∧
        d1.FetchValue k = some (d3, some val) := by
  obtain ⟨hi, hb, _⟩ := hr.inv
  obtain ⟨d0, e, hf⟩ := hp
  have hs := stored_of_Find hk hi (le_of_lt hb) k d0 e hf
  obtain ⟨d1, hadd, hi1, hp1, _⟩ := Add_stored hk hi (le_of_lt hb) k v e hs
  obtain ⟨val, hval⟩ := Option.ne_none_iff_exists'.1 (hi.value_ne_none e hs.1)
  obtain ⟨d2, hf2⟩ := FetchValue_stored hk hi (le_of_lt hb) k e hs
  obtain ⟨d3, hf3⟩ := FetchValue_stored hk hi1 (by rw [hp1.length_eq]; exact le_of_lt hb) k e
    ((stored_perm hp1 k e).2 hs)
  refine ⟨d1, hadd, ?_, d2, d3, val, by rw [hf2, hval], by rw [hf3, hval]⟩
  rw [hi1.total_eq, hi.total_eq, hp1.length_eq]

theorem Add_duplicate_witness :
    Reachable (testDict [Op.Add ⟨5⟩ ⟨5⟩]) ∧
    (∃ d0 e, (testDict [Op.Add ⟨5⟩ ⟨5⟩]).Find (⟨5⟩ : keyT) = some (d0, some e)) ∧
    (Create : Dict keyT valueT).Add ⟨5⟩ ⟨5⟩ =
      some (testDict [Op.Add ⟨5⟩ ⟨5⟩], GoError.nil, [Event.keyDup ⟨5⟩, Event.valDup ⟨5⟩]) ∧
    ((testDict [Op.Add ⟨5⟩ ⟨5⟩]).Add ⟨5⟩ ⟨6⟩).map (fun r => r.2.1) = some GoError.ErrDict ∧
    (((testDict [Op.Add ⟨5⟩ ⟨5⟩]).Add ⟨5⟩ ⟨6⟩).bind
      (fun r => (r.1.FetchValue ⟨5⟩).map (fun r1 => r1.2))) = some (some ⟨5⟩) ∧
    ∃ d1, (testDict [Op.Add ⟨5⟩ ⟨5⟩]).Add ⟨5⟩ ⟨6⟩ = some (d1, GoError.ErrDict, []) ∧
      d1.total = (testDict [Op.Add ⟨5⟩ ⟨5⟩]).total ∧
      ∃ d2 d3 val, (testDict [Op.Add ⟨5⟩ ⟨5⟩]).FetchValue ⟨5⟩ = some (d2, some val) ∧
        d1.FetchValue ⟨5⟩ = some (d3, some val) :=
  ⟨reachable_testDict _ (by decide), ⟨_, _, rfl⟩, by decide, by decide, by decide,
    Add_duplicate keyLaws_keyT _ (reachable_testDict _ (by decide)) ⟨5⟩ ⟨6⟩ ⟨_, _, rfl⟩⟩

theorem stored_new [Key K] (hk : KeyLaws K) {d1 : Dict K V} {l : List (Entry K V)} (k : K)
    (val : Option V) (hp : d1.entries.Perm ({ key := Key.Dup k, value := val } :: l)) :
    d1.Stored k { key := Key.Dup k, value := val } :=
  ⟨hp.mem_iff.2 (List.mem_cons_self _ _), hk.compare_symm _ _ (hk.dup_compare k)⟩

/-- C4: for every dictionary reachable from `Create()`, every key `k` and value `v`:
`Replace(k, v)` returns `1` if and only if `k` was absent before the call and returns `0`
if and only if `k` was present; in both cases `FetchValue(k)` immediately afterwards
returns a value equal in content to `v` (the duplicate `v.Dup()`), and the total entry
count grows by one exactly when `1` is returned (and is unchanged otherwise). -/
theorem Replace_result [Key K] [Value V] (hk : KeyLaws K) (d : Dict K V) (hr : Reachable d)
    (k : K) (v : V) :
    ∃ d1 r ev, d.Replace k v = some (d1, r, ev) ∧
      (r = 1 ↔ ∃ d0, d.Find k = some (d0, none)) ∧
      (r = 0 ↔ ∃ d0 e, d.Find k = some (d0, some e)) ∧
      (∃ d2, d1.FetchValue k = some (d2, some (Value.Dup v))) ∧
      (d1.total = d.total + 1 ↔ r = 1) ∧ (r ≠ 1 → d1.total = d.total) := by
  obtain ⟨hi, hb, _⟩ := hr.inv
  have hb' := le_of_lt hb
  rcases stored_or_not d k with ⟨e, hs⟩ | hns
  · obtain ⟨d1, old, m, hold, hrep, hi1, hA, hB, _⟩ := Replace_stored hk hi hb' k v e hs
    obtain ⟨d0, hf, _, _⟩ := Find_stored hk hi hb' k e hs
    have hlen : d1.entries.length = d.entries.length := by
      rw [hB.length_eq, hA.length_eq]; simp
    have hs1 : d1.Stored k { e with value := some (Value.Dup v) } :=
      ⟨hB.mem_iff.2 (List.mem_cons_self _ _), hs.2⟩
    obtain ⟨d2, hf2⟩ := FetchValue_stored hk hi1 (by rw [hlen]; exact hb') k _ hs1
    have htot : d1.total = d.total := by rw [hi1.total_eq, hi.total_eq, hlen]
    refine ⟨d1, 0, _, hrep, ?_, ?_, ⟨d2, hf2⟩, ?_, fun _ => htot⟩
    · constructor
      · intro h; exact absurd h (by norm_num)
      · rintro ⟨d0', hf'⟩
        rw [hf] at hf'
        simp at hf'
    · exact ⟨fun _ => ⟨d0, e, hf⟩, fun _ => rfl⟩
    · constructor
      · intro h; omega
      · intro h; exact absurd h (by norm_num)
  · obtain ⟨d1, hrep, hi1, hp1, _⟩ := Replace_fresh hk hi hb' k v hns
    obtain ⟨d0, hf, _, _⟩ := Find_absent hk hi hb' k hns
    have hlen : d1.entries.length = d.entries.length + 1 := by
      rw [hp1.length_eq]; simp
    obtain ⟨d2, hf2⟩ := FetchValue_stored hk hi1 (by rw [hlen]; omega) k _
      (stored_new hk k _ hp1)
    have htot : d1.total = d.total + 1 := by rw [hi1.total_eq, hi.total_eq, hlen]
    refine ⟨d1, 1, _, hrep, ?_, ?_, ⟨d2, hf2⟩, ?_, fun h => absurd rfl h⟩
    · exact ⟨fun _ => ⟨d0, hf⟩, fun _ => rfl⟩
    · constructor
      · intro h; exact absurd h (by norm_num)
      · rintro ⟨d0', e, hf'⟩
        rw [hf] at hf'
        simp at hf'
    · exact ⟨fun _ => rfl, fun _ => htot⟩

theorem Replace_result_witness :
    Reachable (testDict (testAdds 20)) ∧
    ∃ d1 r ev, (testDict (testAdds 20)).Replace ⟨5⟩ (⟨55555⟩ : valueT) = some (d1, r, ev) ∧
      (r = 1 ↔ ∃ d0, (testDict (testAdds 20)).Find ⟨5⟩ = some (d0, none)) ∧
      (r = 0 ↔ ∃ d0 e, (testDict (testAdds 20)).Find ⟨5⟩ = some (d0, some e)) ∧
      (∃ d2, d1.FetchValue ⟨5⟩ = some (d2, some (Value.Dup (⟨55555⟩ : valueT)))) ∧
      (d1.total = (testDict (testAdds 20)).total + 1 ↔ r = 1) ∧
      (r ≠ 1 → d1.total = (testDict (testAdds 20)).total) :=
  ⟨reachable_testDict _ (by decide),
    Replace_result keyLaws_keyT _ (reachable_testDict _ (by decide)) ⟨5⟩ ⟨55555⟩⟩

/-- C5: for every dictionary reachable from `Create()` and every key `k`: `Delete(k)`
returns `DictOK` if and only if `k` was present before the call (`DictErr` otherwise).
When it returns `DictOK` the total entry count `ht[0].used + ht[1].used` decreases by
exactly one, `Find(k)` afterwards returns `nil`, and every other key is found as before
(present with the same entry, or absent); when it returns `DictErr` the stored entries
and the total entry count are unchanged. -/
theorem Delete_result [Key K] [Value V] (hk : KeyLaws K) (d : Dict K V) (hr : Reachable d)
    (k : K) :
    ∃ d1 r ev, d.Delete k = some (d1, r, ev) ∧ (r = DictOK ∨ r = DictErr) ∧
      (r = DictOK ↔ ∃ d0 e, d.Find k = some (d0, some e)) ∧
      (r = DictOK → d1.total + 1 = d.total ∧ (∃ d2, d1.Find k = some (d2, none)) ∧
        ∀ k1, Key.Compare k k1 ≠ 0 → ∀ d0 r0, d.Find k1 = some (d0, r0) →
          ∃ d3, d1.Find k1 = some (d3, r0)) ∧
      (r = DictErr → d1.entries.Perm d.entries ∧ d1.total = d.total) := by
  obtain ⟨hi, hb, _⟩ := hr.inv
  have hb' := le_of_lt hb
  have hne : DictOK ≠ DictErr := by decide
  rcases stored_or_not d k with ⟨e, hs⟩ | hns
  · obtain ⟨d1, old, hold, hi1, hp1, _, hdel⟩ := genericDelete_stored hk hi hb' k e hs
    obtain ⟨d0, hf, _, _⟩ := Find_stored hk hi hb' k e hs
    have hlen : d.entries.length = d1.entries.length + 1 := by
      rw [hp1.length_eq]; simp
    have hb1 : d1.entries.length ≤ 2 ^ 62 := by omega
    have hnd := nodup_perm hk hp1 (hi.toInvW.nodup hk)
    have hgone : ∀ x, ¬ d1.Stored k x := by
      intro x hx
      have hxd : d.Stored k x := ⟨hp1.mem_iff.2 (List.mem_cons_of_mem _ hx.1), hx.2⟩
      have hxe := hi.stored_unique hk k x e hxd hs
      subst hxe
      exact not_mem_of_nodup_cons hnd x hx.1 (hk.compare_refl _)
    refine ⟨d1, DictOK, [Event.keyDestructor e.key, Event.valDestructor old],
      by simp [Dict.Delete, hdel 0], Or.inl rfl,
      ⟨fun _ => ⟨d0, e, hf⟩, fun _ => rfl⟩, fun _ => ⟨?_, ?_, ?_⟩, fun h => absurd h hne⟩
    · rw [hi1.total_eq, hi.total_eq, hlen]
    · obtain ⟨d2, hf2, _, _⟩ := Find_absent hk hi1 hb1 k hgone
      exact ⟨d2, hf2⟩
    · intro k1 hk1 d0' r0 hf0
      have hiff : ∀ x, d1.Stored k1 x ↔ d.Stored k1 x := by
        intro x
        constructor
        · intro hx; exact ⟨hp1.mem_iff.2 (List.mem_cons_of_mem _ hx.1), hx.2⟩
        · intro hx
          rcases List.mem_cons.1 (hp1.mem_iff.1 hx.1) with rfl | hm
          · exact absurd (hk.compare_trans _ _ _ hs.2 (hk.compare_symm _ _ hx.2)) hk1
          · exact ⟨hm, hx.2⟩
      cases r0 with
      | none =>
        have habs := absent_of_Find hk hi hb' k1 d0' hf0
        obtain ⟨d3, hf3, _, _⟩ := Find_absent hk hi1 hb1 k1
          (fun x hx => habs x ((hiff x).1 hx))
        exact ⟨d3, hf3⟩
      | some x =>
        have hst := stored_of_Find hk hi hb' k1 d0' x hf0
        obtain ⟨d3, hf3, _, _⟩ := Find_stored hk hi1 hb1 k1 x ((hiff x).2 hst)
        exact ⟨d3, hf3⟩
  · obtain ⟨d1, hi1, hp1, _, hdel⟩ := genericDelete_absent hk hi hb' k hns
    obtain ⟨d0, hf, _, _⟩ := Find_absent hk hi hb' k hns
    refine ⟨d1, DictErr, [], by simp [Dict.Delete, hdel 0], Or.inr rfl, ?_,
      fun h => absurd h.symm hne, fun _ => ⟨hp1, ?_⟩⟩
    · constructor
      · intro h; exact absurd h.symm hne
      · rintro ⟨d0', e, hf'⟩
        rw [hf] at hf'
        simp at hf'
    · rw [hi1.total_eq, hi.total_eq, hp1.length_eq]

theorem Delete_result_witness :
    Reachable (testDict (testAdds 20)) ∧
    ((testDict (testAdds 20)).Delete (⟨2⟩ : keyT)).map (fun r => r.2.1) = some DictOK ∧
    ∃ d1 r ev, (testDict (testAdds 20)).Delete (⟨2⟩ : keyT) = some (d1, r, ev) ∧
      (r = DictOK ∨ r = DictErr) ∧
      (r = DictOK ↔ ∃ d0 e, (testDict (testAdds 20)).Find ⟨2⟩ = some (d0, some e)) ∧
      (r = DictOK → d1.total + 1 = (testDict (testAdds 20)).total ∧
        (∃ d2, d1.Find ⟨2⟩ = some (d2, none)) ∧
        ∀ k1, Key.Compare (⟨2⟩ : keyT) k1 ≠ 0 → ∀ d0 r0,
          (testDict (testAdds 20)).Find k1 = some (d0, r0) →
          ∃ d3, d1.Find k1 = some (d3, r0)) ∧
      (r = DictErr → d1.entries.Perm (testDict (testAdds 20)).entries ∧
        d1.total = (testDict (testAdds 20)).total) :=
  ⟨reachable_testDict _ (by decide), by decide,
    Delete_result keyLaws_keyT _ (reachable_testDict _ (by decide)) ⟨2⟩⟩

/-- C6: for every dictionary reachable from `Create()` and every present key `k`,
`Unlink(k)` returns a non-nil entry whose key compares equal to `k` and whose value is the
value stored for `k`, invokes `Destructor` on no key and no value, decreases the total
entry count by exactly one, and makes a following `Find(k)` return `nil`; for an absent
key it returns `nil`.  `Delete(k)` on the same state leaves the same dictionary behind and
differs only in that it invokes `Destructor` exactly once on the entry's key and exactly
once on its value. -/
theorem Unlink_result [Key K] [Value V] (hk : KeyLaws K) (d : Dict K V) (hr : Reachable d)
    (k : K) :
    (∀ d0 e, d.Find k = some (d0, some e) →
      ∃ d1 val, d.Unlink k = some (d1, some e, []) ∧ Key.Compare k e.key = 0 ∧
        e.value = some val ∧ (∃ d2, d.FetchValue k = some (d2, some val)) ∧
        d1.total + 1 = d.total ∧ (∃ d2, d1.Find k = some (d2, none)) ∧
        d.Delete k =
          some (d1, DictOK, [Event.keyDestructor e.key, Event.valDestructor val])) ∧
    (∀ d0, d.Find k = some (d0, none) →
      ∃ d1, d.Unlink k = some (d1, none, []) ∧ d.Delete k = some (d1, DictErr, [])) := by
  obtain ⟨hi, hb, _⟩ := hr.inv
  have hb' := le_of_lt hb
  constructor
  · intro d0 e hf
    have hs := stored_of_Find hk hi hb' k d0 e hf
    obtain ⟨d1, old, hold, hi1, hp1, _, hdel⟩ := genericDelete_stored hk hi hb' k e hs
    have hlen : d.entries.length = d1.entries.length + 1 := by
      rw [hp1.length_eq]; simp
    have hnd := nodup_perm hk hp1 (hi.toInvW.nodup hk)
    have hgone : ∀ x, ¬ d1.Stored k x := by
      intro x hx
      have hxd : d.Stored k x := ⟨hp1.mem_iff.2 (List.mem_cons_of_mem _ hx.1), hx.2⟩
      have hxe := hi.stored_unique hk k x e hxd hs
      subst hxe
      exact not_mem_of_nodup_cons hnd x hx.1 (hk.compare_refl _)
    obtain ⟨d2, hf2⟩ := FetchValue_stored hk hi hb' k e hs
    obtain ⟨d3, hf3, _, _⟩ := Find_absent hk hi1 (by omega) k hgone
    refine ⟨d1, old, by simp [Dict.Unlink, hdel 1], hs.2, hold, ⟨d2, by rw [hf2, hold]⟩, ?_,
      ⟨d3, hf3⟩, by simp [Dict.Delete, hdel 0]⟩
    rw [hi1.total_eq, hi.total_eq, hlen]
  · intro d0 hf
    have hns := absent_of_Find hk hi hb' k d0 hf
    obtain ⟨d1, _, _, _, hdel⟩ := genericDelete_absent hk hi hb' k hns
    exact ⟨d1, by simp [Dict.Unlink, hdel 1], by simp [Dict.Delete, hdel 0]⟩

theorem Unlink_result_witness :
    Reachable (testDict (testAdds 20)) ∧
    (∃ d0, (testDict (testAdds 20)).Find (⟨4⟩ : keyT) =
      some (d0, some { key := ⟨4⟩, value := some ⟨4⟩ })) ∧
    ∃ d1 val, (testDict (testAdds 20)).Unlink (⟨4⟩ : keyT) =
        some (d1, some { key := ⟨4⟩, value := some ⟨4⟩ }, []) ∧
      Key.Compare (⟨4⟩ : keyT) (⟨4⟩ : keyT) = 0 ∧ some (⟨4⟩ : valueT) = some val ∧
      (∃ d2, (testDict (testAdds 20)).FetchValue (⟨4⟩ : keyT) = some (d2, some val)) ∧
      d1.total + 1 = (testDict (testAdds 20)).total ∧
      (∃ d2, d1.Find (⟨4⟩ : keyT) = some (d2, none)) ∧
      (testDict (testAdds 20)).Delete (⟨4⟩ : keyT) =
        some (d1, DictOK, [Event.keyDestructor ⟨4⟩, Event.valDestructor val]) :=
  ⟨reachable_testDict _ (by decide), ⟨_, rfl⟩,
    (Unlink_result keyLaws_keyT _ (reachable_testDict _ (by decide)) ⟨4⟩).1 _
      { key := ⟨4⟩, value := some ⟨4⟩ } rfl⟩

/-- C7: for every reachable dictionary in which key `k` is present with stored value
`old`, `Replace(k, v)` first duplicates `v` (`v.Dup()`) and stores the duplicate in the
existing entry, and only afterwards invokes `Destructor` on `old`, exactly once; it
invokes `Destructor` on no key and on no other value, and does not create a new entry. -/
theorem Replace_existing_effects [Key K] [Value V] (hk : KeyLaws K) (d : Dict K V)
    (hr : Reachable d) (k : K) (v old : V) (hp : ∃ d0, d.FetchValue k = some (d0, some old)) :
    ∃ d1, d.Replace k v = some (d1, 0, [Event.valDup v, Event.valDestructor old]) ∧
      d1.total = d.total ∧ d1.entries.length = d.entries.length ∧
      (∃ d2, d1.FetchValue k = some (d2, some (Value.Dup v))) ∧
      ∃ e m, Key.Compare k e.key = 0 ∧ e.value = some old ∧ d.entries.Perm (e :: m) ∧
        d1.entries.Perm ({ e with value := some (Value.Dup v) } :: m) := by
  obtain ⟨hi, hb, _⟩ := hr.inv
  have hb' := le_of_lt hb
  obtain ⟨d0, hfv⟩ := hp
  rcases stored_or_not d k with ⟨e, hs⟩ | hns
  · obtain ⟨d0', hfv'⟩ := FetchValue_stored hk hi hb' k e hs
    rw [hfv] at hfv'
    simp only [Option.some.injEq, Prod.mk.injEq] at hfv'
    obtain ⟨d1, old1, m, hold, hrep, hi1, hA, hB, _⟩ := Replace_stored hk hi hb' k v e hs
    have hoo : old1 = old := by
      rw [← hfv'.2] at hold
      exact (Option.some.inj hold).symm
    subst hoo
    have hlen : d1.entries.length = d.entries.length := by
      rw [hB.length_eq, hA.length_eq]; simp
    have hs1 : d1.Stored k { e with value := some (Value.Dup v) } :=
      ⟨hB.mem_iff.2 (List.mem_cons_self _ _), hs.2⟩
    obtain ⟨d2, hf2⟩ := FetchValue_stored hk hi1 (by rw [hlen]; exact hb') k _ hs1
    exact ⟨d1, hrep, by rw [hi1.total_eq, hi.total_eq, hlen], hlen, ⟨d2, hf2⟩,
      e, m, hs.2, hold, hA, hB⟩
  · obtain ⟨d0', hf, _, _⟩ := Find_absent hk hi hb' k hns
    simp [Dict.FetchValue, hf] at hfv

theorem Replace_existing_effects_witness :
    Reachable (testDict [Op.Add ⟨5⟩ ⟨5⟩]) ∧
    (∃ d0, (testDict [Op.Add ⟨5⟩ ⟨5⟩]).FetchValue (⟨5⟩ : keyT) = some (d0, some ⟨5⟩)) ∧
    ∃ d1, (testDict [Op.Add ⟨5⟩ ⟨5⟩]).Replace (⟨5⟩ : keyT) (⟨7⟩ : valueT) =
        some (d1, 0, [Event.valDup ⟨7⟩, Event.valDestructor ⟨5⟩]) ∧
      d1.total = (testDict [Op.Add ⟨5⟩ ⟨5⟩]).total ∧
      d1.entries.length = (testDict [Op.Add ⟨5⟩ ⟨5⟩]).entries.length ∧
      (∃ d2, d1.FetchValue (⟨5⟩ : keyT) = some (d2, some (Value.Dup (⟨7⟩ : valueT)))) ∧
      ∃ e m, Key.Compare (⟨5⟩ : keyT) e.key = 0 ∧ e.value = some ⟨5⟩ ∧
        (testDict [Op.Add ⟨5⟩ ⟨5⟩]).entries.Perm (e :: m) ∧
        d1.entries.Perm ({ e with value := some (Value.Dup (⟨7⟩ : valueT)) } :: m) :=
  ⟨reachable_testDict _ (by decide), ⟨_, rfl⟩,
    Replace_existing_effects keyLaws_keyT _ (reachable_testDict _ (by decide)) ⟨5⟩ ⟨7⟩ ⟨5⟩
      ⟨_, rfl⟩⟩

/-! ## Insertion of pairwise distinct keys -/

/-- The calls `Add` of pairs whose keys are pairwise distinct and not stored all succeed
and link one entry per pair. -/
theorem addAll_spec [Key K] [Value V] (hk : KeyLaws K) (kvs : List (K × V)) :
    ∀ d0 : Dict K V, Inv d0 → d0.entries.length + kvs.length ≤ 2 ^ 62 →
      (∀ kv ∈ kvs, ∀ e, ¬ d0.Stored kv.1 e) →
      kvs.Pairwise (fun a b => Key.Compare a.1 b.1 ≠ 0) →
      ∃ d, d0.addAll kvs = some (d, List.replicate kvs.length GoError.nil) ∧ Inv d ∧
        d.entries.length = d0.entries.length + kvs.length ∧
        (∀ e, e ∈ d0.entries → e ∈ d.entries) ∧
        ∀ kv ∈ kvs, ({ key := Key.Dup kv.1, value := some (Value.Dup kv.2) } : Entry K V)
          ∈ d.entries := by
  induction kvs with
  | nil =>
    intro d0 hi _ _ _
    exact ⟨d0, rfl, hi, by simp, fun _ h => h, by simp⟩
  | cons kv kvs ih =>
    intro d0 hi hb hns hpw
    simp only [List.length_cons] at hb
    obtain ⟨d1, hadd, hi1, hp1, _⟩ := Add_fresh hk hi (by omega) kv.1 kv.2
      (hns kv (List.mem_cons_self _ _))
    have hlen1 : d1.entries.length = d0.entries.length + 1 := by
      rw [hp1.length_eq]; simp
    have hpw' := List.pairwise_cons.1 hpw
    have hns1 : ∀ kv1 ∈ kvs, ∀ e, ¬ d1.Stored kv1.1 e := by
      intro kv1 hkv1 e hs
      rcases (stored_cons hp1 kv1.1 e).1 hs with ⟨_, hc⟩ | hs0
      · have h1 : Key.Compare kv1.1 kv.1 = 0 := hk.compare_trans _ _ _ hc (hk.dup_compare _)
        exact hpw'.1 kv1 hkv1 (hk.compare_symm _ _ h1)
      · exact hns kv1 (List.mem_cons_of_mem _ hkv1) e hs0
    obtain ⟨d, hall, hid, hlen, hold, hnew⟩ := ih d1 hi1 (by omega) hns1 hpw'.2
    refine ⟨d, ?_, hid, by simp only [List.length_cons]; omega, ?_, ?_⟩
    · simp [Dict.addAll, hadd, hall, List.replicate_succ]
    · intro e he
      exact hold e (hp1.mem_iff.2 (List.mem_cons_of_mem _ he))
    · intro kv1 hkv1
      rcases List.mem_cons.1 hkv1 with rfl | hm
      · exact hold _ (hp1.mem_iff.2 (List.mem_cons_self _ _))
      · exact hnew kv1 hm

/-- C2: for every list of key/value pairs whose keys are pairwise distinct under
`Compare` (and that a machine can hold: fewer than `2 ^ 62` pairs), calling `Add` for
each pair in order on `Create()` returns `nil` (success) every time, and afterwards
`FetchValue(k)` for each inserted key `k` returns a non-nil value equal in content to
the value inserted with `k` (its duplicate). -/
theorem Add_all_distinct [Key K] [Value V] (hk : KeyLaws K) (kvs : List (K × V))
    (hd : kvs.Pairwise (fun a b => Key.Compare a.1 b.1 ≠ 0)) (hlen : kvs.length < 2 ^ 62) :
    ∃ d, (Create : Dict K V).addAll kvs = some (d, List.replicate kvs.length GoError.nil) ∧
      ∀ kv ∈ kvs, ∃ d1, d.FetchValue kv.1 = some (d1, some (Value.Dup kv.2)) := by
  obtain ⟨d, hall, hi, hl, _, hnew⟩ := addAll_spec hk kvs (Create : Dict K V) inv_Create
    (by rw [entries_Create]; simp; omega)
    (by intro kv _ e hs; have := hs.1; rw [entries_Create] at this; simp at this) hd
  refine ⟨d, hall, ?_⟩
  intro kv hkv
  have hs : d.Stored kv.1 { key := Key.Dup kv.1, value := some (Value.Dup kv.2) } :=
    ⟨hnew kv hkv, hk.compare_symm _ _ (hk.dup_compare _)⟩
  exact FetchValue_stored hk hi (by rw [hl, entries_Create]; simp; omega) kv.1 _ hs

theorem Add_all_distinct_witness :
    (testPairs 20).Pairwise (fun a b => Key.Compare a.1 b.1 ≠ 0) ∧
    (testPairs 20).length < 2 ^ 62 ∧
    (((Create : Dict keyT valueT).addAll (testPairs 20)).bind
      (fun r => (r.1.FetchValue ⟨3⟩).map (fun r1 => r1.2))) = some (some ⟨3⟩) ∧
    ∃ d, (Create : Dict keyT valueT).addAll (testPairs 20) =
        some (d, List.replicate (testPairs 20).length GoError.nil) ∧
      ∀ kv ∈ testPairs 20, ∃ d1, d.FetchValue kv.1 = some (d1, some (Value.Dup kv.2)) :=
  ⟨by decide, by decide, by decide,
    Add_all_distinct keyLaws_keyT (testPairs 20) (by decide) (by decide)⟩

/-! ## The dictionary as a finite map -/

theorem lastStored_cons [Key K] (k : K) (cur : Option V) (op : Op K V) (ok : Bool)
    (log : List (Op K V × Bool)) :
    lastStored k cur ((op, ok) :: log) = lastStored k (storedAfter k cur op ok) log := by
  cases op <;> simp [lastStored, storedAfter]

theorem represents_perm [Key K] [Value V] {d d1 : Dict K V} {f : K → Option V}
    (hp : d1.entries.Perm d.entries) (h : d.Represents f) : d1.Represents f := by
  intro k
  refine ⟨fun e hs => (h k).1 e ((stored_perm hp k e).1 hs), fun v hv => ?_⟩
  obtain ⟨e, he⟩ := (h k).2 v hv
  exact ⟨e, (stored_perm hp k e).2 he⟩

/-- Linking an entry for a key that is not stored. -/
theorem represents_insert [Key K] [Value V] (hk : KeyLaws K) {d d1 : Dict K V}
    {f : K → Option V} (h : d.Represents f) (key : K) (value : V)
    (hns : ∀ e, ¬ d.Stored key e)
    (hp : d1.entries.Perm ({ key := Key.Dup key, value := some (Value.Dup value) } :: d.entries)) :
    d1.Represents (fun k => if Key.Compare k key = 0 then some value else f k) := by
  intro k
  constructor
  · intro e hs
    rcases (stored_cons hp k e).1 hs with ⟨rfl, hc⟩ | hs0
    · have hkk : Key.Compare k key = 0 := hk.compare_trans _ _ _ hc (hk.dup_compare _)
      exact ⟨value, by simp [hkk], rfl⟩
    · have hkk : Key.Compare k key ≠ 0 := by
        intro hc
        exact hns e ⟨hs0.1, hk.compare_trans _ _ _ (hk.compare_symm _ _ hc) hs0.2⟩
      simp only [hkk, if_false]
      exact (h k).1 e hs0
  · intro v hv
    by_cases hkk : Key.Compare k key = 0
    · exact ⟨_, (stored_cons hp k _).2 (Or.inl ⟨rfl,
        hk.compare_trans _ _ _ hkk (hk.compare_symm _ _ (hk.dup_compare _))⟩)⟩
    · simp only [hkk, if_false] at hv
      obtain ⟨e, he⟩ := (h k).2 v hv
      exact ⟨e, (stored_cons hp k e).2 (Or.inr he)⟩

/-- Storing a value in the entry of a key that is stored. -/
theorem represents_store [Key K] [Value V] (hk : KeyLaws K) {d d1 : Dict K V}
    {f : K → Option V} (hi : Inv d) (h : d.Represents f) (key : K) (value : V)
    (e0 : Entry K V) (m : List (Entry K V)) (hs0 : d.Stored key e0)
    (hA : d.entries.Perm (e0 :: m))
    (hB : d1.entries.Perm ({ e0 with value := some (Value.Dup value) } :: m)) :
    d1.Represents (fun k => if Key.Compare k key = 0 then some value else f k) := by
  have hnd := nodup_perm hk hA (hi.toInvW.nodup hk)
  intro k
  constructor
  · intro e hs
    rcases List.mem_cons.1 (hB.mem_iff.1 hs.1) with rfl | hm
    · have hkk : Key.Compare k key = 0 :=
        hk.compare_trans _ _ _ hs.2 (hk.compare_symm _ _ hs0.2)
      exact ⟨value, by simp [hkk], rfl⟩
    · have hsd : d.Stored k e := ⟨hA.mem_iff.2 (List.mem_cons_of_mem _ hm), hs.2⟩
      have hkk : Key.Compare k key ≠ 0 := by
        intro hc
        have h1 : Key.Compare e0.key e.key = 0 :=
          hk.compare_trans _ _ _ (hk.compare_symm _ _ hs0.2)
            (hk.compare_trans _ _ _ (hk.compare_symm _ _ hc) hs.2)
        exact not_mem_of_nodup_cons hnd e hm h1
      simp only [hkk, if_false]
      exact (h k).1 e hsd
  · intro v hv
    by_cases hkk : Key.Compare k key = 0
    · exact ⟨_, hB.mem_iff.2 (List.mem_cons_self _ _), hk.compare_trans _ _ _ hkk hs0.2⟩
    · simp only [hkk, if_false] at hv
      obtain ⟨e, he⟩ := (h k).2 v hv
      rcases List.mem_cons.1 (hA.mem_iff.1 he.1) with rfl | hm
      · exact absurd (hk.compare_trans _ _ _ he.2 (hk.compare_symm _ _ hs0.2)) hkk
      · exact ⟨e, hB.mem_iff.2 (List.mem_cons_of_mem _ hm), he.2⟩

/-- Unlinking the entry of a key that is stored. -/
theorem represents_unlink [Key K] [Value V] (hk : KeyLaws K) {d d1 : Dict K V}
    {f : K → Option V} (hi : Inv d) (h : d.Represents f) (key : K)
    (e0 : Entry K V) (hs0 : d.Stored key e0) (hA : d.entries.Perm (e0 :: d1.entries)) :
    d1.Represents (fun k => if Key.Compare k key = 0 then none else f k) := by
  have hnd := nodup_perm hk hA (hi.toInvW.nodup hk)
  have hkey : ∀ k e, d1.Stored k e → Key.Compare k key ≠ 0 := by
    intro k e hs hc
    have h1 : Key.Compare e0.key e.key = 0 :=
      hk.compare_trans _ _ _ (hk.compare_symm _ _ hs0.2)
        (hk.compare_trans _ _ _ (hk.compare_symm _ _ hc) hs.2)
    exact not_mem_of_nodup_cons hnd e hs.1 h1
  intro k
  constructor
  · intro e hs
    have hkk := hkey k e hs
    simp only [hkk, if_false]
    exact (h k).1 e ⟨hA.mem_iff.2 (List.mem_cons_of_mem _ hs.1), hs.2⟩
  · intro v hv
    by_cases hkk : Key.Compare k key = 0
    · simp [hkk] at hv
    · simp only [hkk, if_false] at hv
      obtain ⟨e, he⟩ := (h k).2 v hv
      rcases List.mem_cons.1 (hA.mem_iff.1 he.1) with rfl | hm
      · exact absurd (hk.compare_trans _ _ _ he.2 (hk.compare_symm _ _ hs0.2)) hkk
      · exact ⟨e, hm, he.2⟩

/-- A removal of a key that is not stored. -/
theorem represents_absent [Key K] [Value V] (hk : KeyLaws K) {d d1 : Dict K V}
    {f : K → Option V} (h : d.Represents f) (key : K) (hns : ∀ e, ¬ d.Stored key e)
    (hp : d1.entries.Perm d.entries) :
    d1.Represents (fun k => if Key.Compare k key = 0 then none else f k) := by
  have h1 := represents_perm hp h
  intro k
  by_cases hkk : Key.Compare k key = 0
  · constructor
    · intro e hs
      have hsd := (stored_perm hp k e).1 hs
      exact absurd ⟨hsd.1, hk.compare_trans _ _ _ (hk.compare_symm _ _ hkk) hsd.2⟩ (hns e)
    · intro v hv
      simp [hkk] at hv
  · simp only [hkk, if_false]
    exact h1 k

/-- Every call keeps the correspondence between the dictionary and the finite map. -/
theorem call_represents [Key K] [Value V] (hk : KeyLaws K) {d : Dict K V} (hi : Inv d)
    (hb : d.entries.length ≤ 2 ^ 62) {f : K → Option V} (h : d.Represents f) (op : Op K V) :
    ∃ d1 ok, d.call op = some (d1, ok) ∧ Inv d1 ∧
      d1.entries.length ≤ d.entries.length + 1 ∧
      d1.Represents (fun k => storedAfter k (f k) op ok) := by
  cases op with
  | Add key value =>
    rcases stored_or_not d key with ⟨e, hs⟩ | hns
    · obtain ⟨d1, h1, h2, h3, _⟩ := Add_stored hk hi hb key value e hs
      refine ⟨d1, false, by simp [Dict.call, h1], h2, by rw [h3.length_eq]; omega, ?_⟩
      simpa [storedAfter] using represents_perm h3 h
    · obtain ⟨d1, h1, h2, h3, _⟩ := Add_fresh hk hi hb key value hns
      refine ⟨d1, true, by simp [Dict.call, h1], h2, by rw [h3.length_eq]; simp, ?_⟩
      simpa [storedAfter] using represents_insert hk h key value hns h3
  | Replace key value =>
    rcases stored_or_not d key with ⟨e, hs⟩ | hns
    · obtain ⟨d1, old, m, _, h1, h2, hA, hB, _⟩ := Replace_stored hk hi hb key value e hs
      refine ⟨d1, true, by simp [Dict.call, h1], h2, ?_, ?_⟩
      · rw [hB.length_eq, hA.length_eq]; simp
      · simpa [storedAfter] using represents_store hk hi h key value e m hs hA hB
    · obtain ⟨d1, h1, h2, h3, _⟩ := Replace_fresh hk hi hb key value hns
      refine ⟨d1, true, by simp [Dict.call, h1], h2, by rw [h3.length_eq]; simp, ?_⟩
      simpa [storedAfter] using represents_insert hk h key value hns h3
  | Find key =>
    obtain ⟨d1, h1, h2, h3, _⟩ := Find_eq hi hb key
    refine ⟨d1, (d1.lookup key).isSome, by simp [Dict.call, h1], h2,
      by rw [h3.length_eq]; omega, ?_⟩
    simpa [storedAfter] using represents_perm h3 h
  | FetchValue key =>
    obtain ⟨d1, h1, h2, h3, _⟩ := Find_eq hi hb key
    have hex : ∃ ok, d.call (Op.FetchValue key) = some (d1, ok) := by
      cases hl : d1.lookup key <;> simp [Dict.call, Dict.FetchValue, h1, hl]
    obtain ⟨ok, hok⟩ := hex
    refine ⟨d1, ok, hok, h2, by rw [h3.length_eq]; omega, ?_⟩
    simpa [storedAfter] using represents_perm h3 h
  | Delete key =>
    rcases stored_or_not d key with ⟨e, hs⟩ | hns
    · obtain ⟨d1, old, _, h2, h3, _, h1⟩ := genericDelete_stored hk hi hb key e hs
      refine ⟨d1, true, by simp [Dict.call, Dict.Delete, h1 0], h2, ?_, ?_⟩
      · have := h3.length_eq
        simp only [List.length_cons] at this
        omega
      · simpa [storedAfter] using represents_unlink hk hi h key e hs h3
    · obtain ⟨d1, h2, h3, _, h1⟩ := genericDelete_absent hk hi hb key hns
      refine ⟨d1, false, ?_, h2, by rw [h3.length_eq]; omega, ?_⟩
      · have hne : ¬ (DictErr = DictOK) := by decide
        simp [Dict.call, Dict.Delete, h1 0, hne]
      · simpa [storedAfter] using represents_absent hk h key hns h3
  | Unlink key =>
    rcases stored_or_not d key with ⟨e, hs⟩ | hns
    · obtain ⟨d1, old, _, h2, h3, _, h1⟩ := genericDelete_stored hk hi hb key e hs
      refine ⟨d1, true, by simp [Dict.call, Dict.Unlink, h1 1], h2, ?_, ?_⟩
      · have := h3.length_eq
        simp only [List.length_cons] at this
        omega
      · simpa [storedAfter] using represents_unlink hk hi h key e hs h3
    · obtain ⟨d1, h2, h3, _, h1⟩ := genericDelete_absent hk hi hb key hns
      refine ⟨d1, false, by simp [Dict.call, Dict.Unlink, h1 1], h2,
        by rw [h3.length_eq]; omega, ?_⟩
      simpa [storedAfter] using represents_absent hk h key hns h3
  | Resize =>
    obtain ⟨d1, r, h1, h2, h3, _⟩ := Resize_spec hi hb
    refine ⟨d1, decide (r = DictOK), by simp [Dict.call, h1], h2, by rw [h3]; omega, ?_⟩
    simpa [storedAfter] using represents_perm (by rw [h3]) h

/-- A run that fits in memory returns, and the dictionary it leaves behind stands for
the finite map that the history of the run defines. -/
theorem runLog_represents [Key K] [Value V] (hk : KeyLaws K) (ops : List (Op K V)) :
    ∀ (d : Dict K V) (f : K → Option V), Inv d → d.entries.length + ops.length ≤ 2 ^ 62 →
      d.Represents f →
      ∃ d1 log, d.runLog ops = some (d1, log) ∧ Inv d1 ∧ d1.entries.length ≤ 2 ^ 62 ∧
        d1.Represents (fun k => lastStored k (f k) log) := by
  induction ops with
  | nil =>
    intro d f hi hb h
    exact ⟨d, [], rfl, hi, by simpa using hb, by simpa [lastStored] using h⟩
  | cons op ops ih =>
    intro d f hi hb h
    simp only [List.length_cons] at hb
    obtain ⟨d1, ok, hc, hi1, hl1, h1⟩ := call_represents hk hi (by omega) h op
    obtain ⟨d2, log, hrun, hi2, hl2, h2⟩ := ih d1 _ hi1 (by omega) h1
    refine ⟨d2, (op, ok) :: log, by simp [Dict.runLog, hc, hrun], hi2, hl2, ?_⟩
    simpa [lastStored_cons] using h2

theorem represents_Create [Key K] [Value V] :
    (Create : Dict K V).Represents (fun _ => none) := by
  intro k
  constructor
  · intro e hs
    have := hs.1
    rw [entries_Create] at this
    simp at this
  · intro v hv
    simp at hv

/-- C1: the dictionary refines a finite map.  Assume `HashFunction` is deterministic,
`Compare` is an equivalence on keys, keys that compare equal have equal hashes, and `Dup`
preserves both.  For every finite sequence of `Add`, `Replace`, `Delete`, `Unlink`,
`Find` and `FetchValue` calls (and `Resize` calls) applied to `Create()` that a machine
can hold (fewer than `2 ^ 62` calls), including sequences in which growth is triggered
and each call performs one rehash step, after every prefix of the sequence and for every
key `k`: the calls of the prefix return, and `Find(k)` returns an entry if and only if
`k` was stored by a successful `Add` or a `Replace` and has not since been removed by
`Delete` or `Unlink`, and then the key of the entry compares equal to `k` and its value
is equal in content to the value most recently stored for `k` (it is its duplicate). -/
theorem refines_finite_map [Key K] [Value V] (hk : KeyLaws K) (ops : List (Op K V))
    (hlen : ops.length < 2 ^ 62) (n : Nat) (k : K) :
    ∃ d log, (Create : Dict K V).runLog (ops.take n) = some (d, log) ∧
      ∃ d1 r, d.Find k = some (d1, r) ∧
        r.map (fun e => e.value) =
          (lastStored k none log).map (fun v => some (Value.Dup v)) ∧
        ∀ e, r = some e → Key.Compare k e.key = 0 := by
  have hl : (ops.take n).length ≤ ops.length := by
    rw [List.length_take]; exact Nat.min_le_right _ _
  obtain ⟨d, log, hrun, hi, hb, hrep⟩ := runLog_represents hk (ops.take n)
    (Create : Dict K V) (fun _ => none) inv_Create
    (by rw [entries_Create]; simp only [List.length_nil]; omega) represents_Create
  obtain ⟨d1, r, hf, _, _, _, _, hst⟩ := Find_spec hk hi hb k
  refine ⟨d, log, hrun, d1, r, hf, ?_, fun e he => ((hst e).1 he).2⟩
  cases r with
  | some e =>
    obtain ⟨v, hv1, hv2⟩ := (hrep k).1 e ((hst e).1 rfl)
    simp only [Option.map_some'] at hv1 ⊢
    rw [hv1, hv2]
    rfl
  | none =>
    cases hls : lastStored k none log with
    | none => rfl
    | some v =>
      obtain ⟨e, he⟩ := (hrep k).2 v hls
      have := (hst e).2 he
      simp at this

theorem refines_finite_map_witness :
    testScenario.length < 2 ^ 62 ∧
    ((Create : Dict keyT valueT).runLog (testScenario.take 27)).map
      (fun r => (lastStored (⟨5⟩ : keyT) none r.2, lastStored (⟨2⟩ : keyT) none r.2)) =
        some (some ⟨55555⟩, none) ∧
    ∃ d log, (Create : Dict keyT valueT).runLog (testScenario.take 27) = some (d, log) ∧
      ∃ d1 r, d.Find (⟨5⟩ : keyT) = some (d1, r) ∧
        r.map (fun e => e.value) =
          (lastStored (⟨5⟩ : keyT) none log).map (fun v => some (Value.Dup v)) ∧
        ∀ e, r = some e → Key.Compare (⟨5⟩ : keyT) e.key = 0 :=
  ⟨by decide, by decide, refines_finite_map keyLaws_keyT testScenario (by decide) 27 ⟨5⟩⟩

/-! ## Reachability with `rehash` -/

theorem Reachable.toR [Key K] [Value V] {d : Dict K V} (hr : Reachable d) : ReachableR d := by
  induction hr with
  | create => exact ReachableR.create
  | step d d1 op _ hex hlen ih => exact ReachableR.step d d1 op ih hex hlen

/-- Every dictionary reachable by calls of the public methods and of `rehash` satisfies
the invariant, holds fewer than `2 ^ 62` entries and has no iterator registered. -/
theorem ReachableR.invariant [Key K] [Value V] {d : Dict K V} (hr : ReachableR d) :
    Inv d ∧ d.entries.length < 2 ^ 62 ∧ d.iterators = 0 := by
  induction hr with
  | create => exact ⟨inv_Create, by simp [Dict.entries, Create, entries_dictReset], rfl⟩
  | step d d1 op _ hex hlen ih =>
    obtain ⟨hi, hb, hit⟩ := ih
    obtain ⟨d2, hc, hi2, hit2, _⟩ := call_spec hi (le_of_lt hb) op
    have : d1 = d2 := by
      rw [hc] at hex
      exact (Option.some.inj hex).symm
    subst this
    exact ⟨hi2, hlen, by rw [hit2, hit]⟩
  | rehash d d1 n r _ hre ih =>
    obtain ⟨hi, hb, hit⟩ := ih
    obtain ⟨d2, r2, hc, hi2, hp2, hit2, _⟩ := rehash_spec hi (le_of_lt hb) n
    rw [hc] at hre
    simp only [Option.some.injEq, Prod.mk.injEq] at hre
    obtain ⟨rfl, _⟩ := hre
    exact ⟨hi2, by rw [hp2.length_eq]; exact hb, by rw [hit2, hit]⟩

/-! ## Teardown -/

theorem destructorCalls_of_value (e : Entry K V) (v : V) (h : e.value = some v) :
    e.destructorCalls = [Event.keyDestructor e.key, Event.valDestructor v] := by
  simp [Entry.destructorCalls, Entry.freeKey, Entry.freeVal, h]

/-- The inner loop of `clear` calls `Destructor` on the key and on the value of every
entry of the chain, in order, and counts `used` down by the length of the chain. -/
theorem clearChain_spec (chain : List (Entry K V)) :
    ∀ used, chain.length ≤ used → used < 2 ^ 64 → (∀ e ∈ chain, e.value ≠ none) →
      clearChain chain used =
        some (used - chain.length, chain.flatMap Entry.destructorCalls) := by
  induction chain with
  | nil => intro used _ _ _; simp [clearChain]
  | cons he next ih =>
    intro used hlen hlt hv
    simp only [List.length_cons] at hlen
    obtain ⟨v, hval⟩ := Option.ne_none_iff_exists'.1 (hv he (List.mem_cons_self _ _))
    have hd : decr used = used - 1 := decr_eq used (by omega) hlt
    have := ih (used - 1) (by omega) (by omega) (fun e he' => hv e (List.mem_cons_of_mem _ he'))
    simp only [clearChain, Entry.freeVal, hval, Option.map_some', hd, this, List.flatMap_cons,
      destructorCalls_of_value he v hval, Entry.freeKey]
    simp only [List.length_cons, Option.some.injEq, Prod.mk.injEq]
    constructor
    · omega
    · simp

/-- The outer loop of `clear`, started at bucket `i` with `used` the number of entries
linked from there on, calls `Destructor` on the key and on the value of each of them and
leaves `used` at `0`. -/
theorem clearLoop_spec (T : List (List (Entry K V))) :
    ∀ (k i used : Nat), k + i = T.length → used = (T.drop i).flatten.length →
      used < 2 ^ 64 → (∀ e ∈ (T.drop i).flatten, e.value ≠ none) →
      clearLoop T k i used =
        some (0, (T.drop i).flatten.flatMap Entry.destructorCalls) := by
  intro k
  induction k with
  | zero =>
    intro i used hk hu _ _
    have : T.drop i = [] := List.drop_eq_nil_of_le (by omega)
    rw [this] at hu ⊢
    simp only [List.flatten_nil, List.length_nil] at hu
    simp [clearLoop, hu]
  | succ k ih =>
    intro i used hk hu hlt hv
    have hil : i < T.length := by omega
    have hdrop : T.drop i = T[i] :: T.drop (i + 1) := List.drop_eq_getElem_cons hil
    rw [hdrop] at hu hv ⊢
    simp only [List.flatten_cons, List.length_append] at hu
    simp only [clearLoop]
    by_cases hpos : used > 0
    · rw [if_pos hpos, List.getElem?_eq_getElem hil]
      simp only
      rw [clearChain_spec T[i] used (by omega) hlt
        (fun e he => hv e (by simp only [List.flatten_cons]; exact List.mem_append_left _ he))]
      simp only
      rw [ih (i + 1) (used - T[i].length) (by omega) (by omega) (by omega)
        (fun e he => hv e (by simp only [List.flatten_cons]; exact List.mem_append_right _ he))]
      simp only [List.flatten_cons, List.flatMap_append]
    · rw [if_neg hpos]
      have h0 : T[i].length = 0 ∧ (T.drop (i + 1)).flatten.length = 0 := by omega
      have h1 : T[i] = [] := List.eq_nil_of_length_eq_zero h0.1
      have h2 : (T.drop (i + 1)).flatten = [] := List.eq_nil_of_length_eq_zero h0.2
      have h3 : used = 0 := by omega
      simp [h1, h2, h3]

/-- The method `clear` on a well-formed table. -/
theorem clear_spec [Key K] {h : dictht K V} (hw : h.WF) (hlt : h.used < 2 ^ 64) :
    clear h = some ({ h with table := [], used := 0 },
      h.entries.flatMap Entry.destructorCalls) := by
  have hlen : h.size = h.table.length := by
    rcases hw.shape with h0 | ha
    · rw [h0]; rfl
    · exact ha.length_eq.symm
  unfold clear
  rw [hlen, clearLoop_spec h.table h.table.length 0 h.used (by omega)
    (by rw [hw.used_eq]; rfl) hlt (by intro e he; exact hw.vals e (by simpa [dictht.entries] using he))]
  simp [dictht.entries]

/-- C12: for every dictionary reachable from `Create()` by `Add`, `Replace`, `Find`,
`Delete`, `Unlink` and `Resize` (rehashing or not), `Close()` invokes `Destructor` exactly
once on the key and exactly once on the value of every entry live in `ht[0]` and in
`ht[1]` (bucket after bucket, `ht[0]` first), invokes it on nothing else, and leaves both
tables with a nil bucket array and `used = 0`. -/
theorem Close_releases [Key K] [Value V] (d : Dict K V) (hr : Reachable d) :
    ∃ d1, d.Close = some (d1, d.entries.flatMap Entry.destructorCalls) ∧
      (∀ e ∈ d.entries, ∃ v, e.value = some v ∧
        e.destructorCalls = [Event.keyDestructor e.key, Event.valDestructor v]) ∧
      d1.ht0.table = [] ∧ d1.ht0.used = 0 ∧ d1.ht1.table = [] ∧ d1.ht1.used = 0 := by
  obtain ⟨hi, hb, _⟩ := hr.inv
  have htot : d.entries.length = d.ht0.entries.length + d.ht1.entries.length := by
    simp [Dict.entries]
  have h0 := clear_spec hi.toInvW.wf0 (by rw [hi.toInvW.wf0.used_eq]; omega)
  have h1 := clear_spec hi.toInvW.wf1 (by rw [hi.toInvW.wf1.used_eq]; omega)
  refine ⟨{ d with ht0 := { d.ht0 with table := [], used := 0 },
                     ht1 := { d.ht1 with table := [], used := 0 } }, ?_, ?_, rfl, rfl, rfl, rfl⟩
  · simp only [Dict.Close, h0, h1, Dict.entries, List.flatMap_append]
  · intro e he
    obtain ⟨v, hv⟩ := Option.ne_none_iff_exists'.1 (hi.value_ne_none e he)
    exact ⟨v, hv, destructorCalls_of_value e v hv⟩

theorem Close_releases_witness :
    Reachable (testDict (testAdds 20)) ∧
    ∃ d1, (testDict (testAdds 20)).Close =
        some (d1, (testDict (testAdds 20)).entries.flatMap Entry.destructorCalls) ∧
      (∀ e ∈ (testDict (testAdds 20)).entries, ∃ v, e.value = some v ∧
        e.destructorCalls = [Event.keyDestructor e.key, Event.valDestructor v]) ∧
      d1.ht0.table = [] ∧ d1.ht0.used = 0 ∧ d1.ht1.table = [] ∧ d1.ht1.used = 0 :=
  ⟨reachable_testDict _ (by decide), Close_releases _ (reachable_testDict _ (by decide))⟩

/-! ## What `rehash` returns, and how far it scans -/

/-- C14 (the code departs from the specification): on a rehashing dictionary whose last
non-empty bucket the call migrates, `rehash(1)` completes the rehash (the dictionary is
not rehashing afterwards) and still returns `1`, where the specification, and the comment above
the method, say `0`. -/
theorem rehash_returns_one_when_done :
    Reachable (testDict (testAdds 8)) ∧ (testDict (testAdds 8)).isRehashing = true ∧
    ((testDict (testAdds 8)).rehash 1).map (fun r => (r.1.isRehashing, r.2)) =
      some (false, 1) :=
  ⟨reachable_testDict _ (by decide), by decide, by decide⟩

/-- Once the dictionary is rehashing, every return of `rehash` is `return 1`. -/
theorem rehash_result [Key K] (d d1 : Dict K V) (n : Nat) (r : Int)
    (h : d.rehash n = some (d1, r)) : r = if d.isRehashing then 1 else 0 := by
  unfold Dict.rehash at h
  cases hre : d.isRehashing with
  | false =>
    simp only [hre, Bool.not_false, if_true, Option.some.injEq, Prod.mk.injEq] at h
    simp [h.2.symm]
  | true =>
    simp only [hre, Bool.not_true, Bool.false_eq_true, if_false] at h
    simp only [if_true]
    cases hl : rehashLoop n (n * 10) d with
    | none => simp [hl] at h
    | some p =>
      obtain ⟨d2, fl⟩ := p
      cases fl with
      | true =>
        simp only [hl, Option.some.injEq, Prod.mk.injEq] at h
        exact h.2.symm
      | false =>
        simp only [hl] at h
        split at h
        · simp only [Option.some.injEq, Prod.mk.injEq] at h; exact h.2.symm
        · simp only [Option.some.injEq, Prod.mk.injEq] at h; exact h.2.symm

theorem reachable_sparseDict : Reachable sparseDict := by
  obtain ⟨d1, hrun, hr, _⟩ := reachable_run sparseOps (Create : Dict idKeyT valueT)
    Reachable.create (by rw [entries_Create]; decide)
  unfold sparseDict
  rw [hrun]
  exact hr

/-- C15 (the code departs from the specification): on a reachable dictionary at the start of a
rehash whose table `ht[0]` has its only entry in bucket `12`, `rehash(1)` moves no entry
and advances `rehashidx` from `0` to `11`, past the eleven empty buckets `0..10`, where
the specification, and the comment above the method, allow ten. -/
theorem rehash_passes_eleven_empty_buckets :
    Reachable sparseDict ∧ sparseDict.rehashidx = 0 ∧
    (List.range 11).all (fun i => sparseDict.ht0.table[i]? == some []) = true ∧
    (sparseDict.rehash 1).map (fun r => (r.1.rehashidx, r.1.ht0 == sparseDict.ht0, r.2)) =
      some (11, true, 1) :=
  ⟨reachable_sparseDict, by decide, by decide, by decide⟩

/-! ## The state between two calls -/

/-- C16: in every state that calls of `Add`, `Replace`, `Find`, `Delete`, `Unlink`,
`Resize` and `rehash` build from `Create()`: if `rehashidx = -1` then `ht[1]` is the
empty table (nil bucket array, size `0`, used `0`) and every live entry is in `ht[0]`;
if `rehashidx != -1` then `ht[1]` is allocated, `0 <= rehashidx < ht[0].size`, the index
`rehashidx` is an index of the bucket array of `ht[0]`, and every bucket of `ht[0]` below
`rehashidx` is empty; and a call `rehash(n)` returns, so none of its bucket reads is out
of bounds. -/
theorem rehash_state_invariant [Key K] [Value V] (d : Dict K V) (hr : ReachableR d) :
    (d.rehashidx = -1 →
      d.ht1.table = [] ∧ d.ht1.size = 0 ∧ d.ht1.used = 0 ∧ d.entries = d.ht0.entries) ∧
    (d.rehashidx ≠ -1 →
      d.ht1.Allocated ∧ 0 ≤ d.rehashidx ∧ d.rehashidx < (d.ht0.size : Int) ∧
      d.rehashidx.toNat < d.ht0.table.length ∧
      ∀ i : Nat, (i : Int) < d.rehashidx → d.ht0.table[i]? = some []) ∧
    (∀ n, ∃ d1 r, d.rehash n = some (d1, r)) := by
  obtain ⟨hi, hb, _⟩ := hr.invariant
  refine ⟨?_, ?_, ?_⟩
  · intro h
    have h1 := hi.toInvW.idle h
    refine ⟨?_, ?_, ?_, hi.idle_entries h⟩ <;> rw [h1] <;> rfl
  · intro h
    obtain ⟨r, hr1, _, ha0, ha1, _, hem⟩ := hi.toInvW.busy h
    have hlt := hi.idx_lt h
    rw [hr1] at hlt ⊢
    refine ⟨ha1, by omega, hlt, ?_, ?_⟩
    · rw [ha0.length_eq]
      simpa using hlt
    · intro i hi1
      exact hem i (by exact_mod_cast hi1)
  · intro n
    obtain ⟨d1, r, h, _⟩ := rehash_spec hi (le_of_lt hb) n
    exact ⟨d1, r, h⟩

theorem reachableR_rehash_testDict (ops : List (Op keyT valueT)) (h : ops.length < 2 ^ 62)
    (n : Nat) (d1 : Dict keyT valueT) (r : Int) (hre : (testDict ops).rehash n = some (d1, r)) :
    ReachableR d1 :=
  ReachableR.rehash _ d1 n r (reachable_testDict ops h).toR hre

theorem rehash_state_invariant_witness :
    (testDict (testAdds 20)).rehash 2 = some (((testDict (testAdds 20)).rehashTimes 2).getD Create, 1) ∧
    (((testDict (testAdds 20)).rehashTimes 2).getD Create).rehashidx = 5 ∧
    ((((testDict (testAdds 20)).rehashTimes 2).getD Create).rehashidx ≠ -1 →
      (((testDict (testAdds 20)).rehashTimes 2).getD Create).ht1.Allocated ∧
      0 ≤ (((testDict (testAdds 20)).rehashTimes 2).getD Create).rehashidx ∧
      (((testDict (testAdds 20)).rehashTimes 2).getD Create).rehashidx <
        ((((testDict (testAdds 20)).rehashTimes 2).getD Create).ht0.size : Int) ∧
      (((testDict (testAdds 20)).rehashTimes 2).getD Create).rehashidx.toNat <
        (((testDict (testAdds 20)).rehashTimes 2).getD Create).ht0.table.length ∧
      ∀ i : Nat, (i : Int) < (((testDict (testAdds 20)).rehashTimes 2).getD Create).rehashidx →
        (((testDict (testAdds 20)).rehashTimes 2).getD Create).ht0.table[i]? = some []) :=
  ⟨by decide, by decide,
    (rehash_state_invariant _
      (reachableR_rehash_testDict (testAdds 20) (by decide) 2 _ 1 (by decide))).2.1⟩

/-- C17: for a key type that keeps its contract (the hash is a function of the key and
agrees on keys that compare equal), in every state that calls of `Add`, `Replace`,
`Find`, `Delete`, `Unlink`, `Resize` and `rehash` build from `Create()`: no two entries
linked in the chains of `ht[0]` and `ht[1]` have keys that compare equal, in particular
no key of `ht[0]` compares equal to a key of `ht[1]`; every entry in bucket `i` of a table
satisfies `hash(key) & sizemask = i`; and `used` of each table is the number of entries
linked in the chains of that table. -/
theorem tables_invariant [Key K] [Value V] (hk : KeyLaws K) (d : Dict K V)
    (hr : ReachableR d) :
    d.entries.Pairwise (fun a b => Key.Compare a.key b.key ≠ 0) ∧
    (∀ a ∈ d.ht0.entries, ∀ b ∈ d.ht1.entries, Key.Compare a.key b.key ≠ 0) ∧
    (∀ (t i : Nat) (chain : List (Entry K V)), t = 0 ∨ t = 1 →
      (d.ht t).table[i]? = some chain →
      ∀ e ∈ chain, Key.HashFunction e.key &&& (d.ht t).sizemask = i) ∧
    d.ht0.used = d.ht0.entries.length ∧ d.ht1.used = d.ht1.entries.length := by
  obtain ⟨hi, _, _⟩ := hr.invariant
  have hnd := hi.toInvW.nodup hk
  refine ⟨hnd, ?_, ?_, hi.toInvW.wf0.used_eq, hi.toInvW.wf1.used_eq⟩
  · unfold Dict.entries at hnd
    exact (List.pairwise_append.1 hnd).2.2
  · rintro t i chain (rfl | rfl) hch e he
    · exact hi.toInvW.wf0.place hk i chain (by simpa [Dict.ht] using hch) e he
    · exact hi.toInvW.wf1.place hk i chain (by simpa [Dict.ht] using hch) e he

theorem tables_invariant_witness :
    (testDict (testAdds 20)).rehash 2 = some (((testDict (testAdds 20)).rehashTimes 2).getD Create, 1) ∧
    (((testDict (testAdds 20)).rehashTimes 2).getD Create).entries.Pairwise
      (fun a b => Key.Compare a.key b.key ≠ 0) ∧
    (∀ a ∈ (((testDict (testAdds 20)).rehashTimes 2).getD Create).ht0.entries,
      ∀ b ∈ (((testDict (testAdds 20)).rehashTimes 2).getD Create).ht1.entries,
        Key.Compare a.key b.key ≠ 0) ∧
    (∀ (t i : Nat) (chain : List (Entry keyT valueT)), t = 0 ∨ t = 1 →
      ((((testDict (testAdds 20)).rehashTimes 2).getD Create).ht t).table[i]? = some chain →
      ∀ e ∈ chain, Key.HashFunction e.key &&&
        ((((testDict (testAdds 20)).rehashTimes 2).getD Create).ht t).sizemask = i) ∧
    (((testDict (testAdds 20)).rehashTimes 2).getD Create).ht0.used =
      (((testDict (testAdds 20)).rehashTimes 2).getD Create).ht0.entries.length ∧
    (((testDict (testAdds 20)).rehashTimes 2).getD Create).ht1.used =
      (((testDict (testAdds 20)).rehashTimes 2).getD Create).ht1.entries.length :=
  ⟨by decide, tables_invariant keyLaws_keyT _
      (reachableR_rehash_testDict (testAdds 20) (by decide) 2 _ 1 (by decide))⟩

/-! ## Growth -/

/-- C19: for every dictionary, every requested size of at most `2 ^ 63` and every
machine: if the dictionary is rehashing, or `ht[0].used > size`, or
`nextPower(size) = ht[0].size`, then `expand(size)` returns `DictErr` and leaves the
dictionary as it was; otherwise it asks `make` for `nextPower(size)` buckets, and returns
`DictOK` if `make` returns and panics if `make` panics.  So whenever `expand` returns, its
result is `DictErr` or `DictOK`, it is `DictErr` if and only if one of the three conditions
holds, and then the dictionary is unchanged.  On `Create()`, `expand(1<<63)` asks for
`2 ^ 63` buckets, a length that does not fit `int`, and panics; `expand` of the reachable
dictionaries is `expand` on a machine on which every `make` returns. -/
theorem expand_error_iff (canMake : Nat → Bool) (d : Dict K V) (size : Nat)
    (hs : size ≤ 2 ^ 63) :
    ((d.isRehashing = true ∨ d.ht0.used > size ∨ nextPower size = some d.ht0.size) →
      d.expandOn canMake size = some (d, DictErr)) ∧
    (¬ (d.isRehashing = true ∨ d.ht0.used > size ∨ nextPower size = some d.ht0.size) →
      ∃ p, nextPower size = some p ∧
        (canMake p = true → ∃ d1, d.expandOn canMake size = some (d1, DictOK)) ∧
        (canMake p = false → d.expandOn canMake size = none)) ∧
    (∀ d1 r, d.expandOn canMake size = some (d1, r) →
      (r = DictErr ∨ r = DictOK) ∧
      (r = DictErr ↔
        (d.isRehashing = true ∨ d.ht0.used > size ∨ nextPower size = some d.ht0.size)) ∧
      (r = DictErr → d1 = d)) ∧
    (Create : Dict K V).expandOn fitsInt (2 ^ 63) = none ∧
    d.expand size = d.expandOn (fun _ => true) size := by
  obtain ⟨m, _, _, hp, _, _⟩ := nextPower_spec size hs
  have hne : ¬ (DictOK = DictErr) := by decide
  have hcreate : (Create : Dict K V).expandOn fitsInt (2 ^ 63) = none := by
    obtain ⟨m1, _, h63, hp1, hle, _⟩ := nextPower_spec (2 ^ 63) (le_refl _)
    have hm1 : m1 = 63 := by
      by_contra hcon
      have : 2 ^ m1 ≤ 2 ^ 62 := Nat.pow_le_pow_right (by norm_num) (by omega)
      omega
    subst hm1
    have hc0 : ((Create : Dict K V).isRehashing ||
        decide ((Create : Dict K V).ht0.used > 2 ^ 63)) = false := by
      simp [Create, Dict.isRehashing, _dictReset]
    unfold Dict.expandOn
    rw [hc0, hp1]
    simp [Create, _dictReset, fitsInt]
  by_cases h1 : d.isRehashing = true
  · have hE : d.expandOn canMake size = some (d, DictErr) := by simp [Dict.expandOn, h1]
    refine ⟨fun _ => hE, fun h => absurd (Or.inl h1) h, ?_, hcreate, rfl⟩
    intro d1 r hr
    rw [hE] at hr
    simp only [Option.some.injEq, Prod.mk.injEq] at hr
    obtain ⟨rfl, rfl⟩ := hr
    exact ⟨Or.inl rfl, by simp [h1], fun _ => rfl⟩
  · by_cases h2 : d.ht0.used > size
    · have hE : d.expandOn canMake size = some (d, DictErr) := by simp [Dict.expandOn, h2]
      refine ⟨fun _ => hE, fun h => absurd (Or.inr (Or.inl h2)) h, ?_, hcreate, rfl⟩
      intro d1 r hr
      rw [hE] at hr
      simp only [Option.some.injEq, Prod.mk.injEq] at hr
      obtain ⟨rfl, rfl⟩ := hr
      exact ⟨Or.inl rfl, by simp [h2], fun _ => rfl⟩
    · have hc : (d.isRehashing || decide (d.ht0.used > size)) = false := by
        simp only [Bool.or_eq_false_iff, decide_eq_false_iff_not]
        exact ⟨by simpa using h1, h2⟩
      by_cases h3 : 2 ^ m = d.ht0.size
      · have hE : d.expandOn canMake size = some (d, DictErr) := by
          unfold Dict.expandOn
          rw [hc, hp]
          simp [h3]
        have hcond : nextPower size = some d.ht0.size := by rw [hp, h3]
        refine ⟨fun _ => hE, fun h => absurd (Or.inr (Or.inr hcond)) h, ?_, hcreate, rfl⟩
        intro d1 r hr
        rw [hE] at hr
        simp only [Option.some.injEq, Prod.mk.injEq] at hr
        obtain ⟨rfl, rfl⟩ := hr
        exact ⟨Or.inl rfl, by simp [hcond], fun _ => rfl⟩
      · have hncond : ¬ (d.isRehashing = true ∨ d.ht0.used > size ∨
            nextPower size = some d.ht0.size) := by
          rw [hp]
          simp only [Option.some.injEq, not_or]
          exact ⟨h1, h2, h3⟩
        have hE : d.expandOn canMake size =
            if canMake (2 ^ m) = true then
              (if d.ht0.table.isEmpty = true then
                some ({ d with ht0 := freshTable (2 ^ m) }, DictOK)
              else some ({ d with ht1 := freshTable (2 ^ m), rehashidx := 0 }, DictOK))
            else none := by
          unfold Dict.expandOn
          rw [hc, hp]
          simp only [Bool.false_eq_true, if_false, h3]
        refine ⟨fun h => absurd h hncond, fun _ => ⟨2 ^ m, hp, ?_, ?_⟩, ?_, hcreate, rfl⟩
        · intro hm
          rw [hE, if_pos hm]
          by_cases h4 : d.ht0.table.isEmpty = true
          · exact ⟨{ d with ht0 := freshTable (2 ^ m) }, by rw [if_pos h4]⟩
          · exact ⟨{ d with ht1 := freshTable (2 ^ m), rehashidx := 0 }, by rw [if_neg h4]⟩
        · intro hm
          rw [hE, hm]
          simp
        · intro d1 r hr
          rw [hE] at hr
          by_cases hm : canMake (2 ^ m) = true
          · rw [if_pos hm] at hr
            have hrOK : r = DictOK := by
              by_cases h4 : d.ht0.table.isEmpty = true
              · rw [if_pos h4] at hr
                simp only [Option.some.injEq, Prod.mk.injEq] at hr
                exact hr.2.symm
              · rw [if_neg h4] at hr
                simp only [Option.some.injEq, Prod.mk.injEq] at hr
                exact hr.2.symm
            subst hrOK
            exact ⟨Or.inr rfl, ⟨fun h => absurd h hne, fun h => absurd h hncond⟩,
              fun h => absurd h hne⟩
          · rw [if_neg hm] at hr
            simp at hr

theorem expand_error_iff_witness :
    nextPower 4 = some (testDict (testAdds 3)).ht0.size ∧
    (testDict (testAdds 3)).expandOn fitsInt 4 = some (testDict (testAdds 3), DictErr) ∧
    (testDict (testAdds 3)).expandOn fitsInt 8 =
      some ({ testDict (testAdds 3) with ht1 := freshTable 8, rehashidx := 0 }, DictOK) :=
  ⟨by decide,
    (expand_error_iff fitsInt (testDict (testAdds 3)) 4 (by norm_num)).1
      (Or.inr (Or.inr (by decide))),
    by decide⟩

/-- C18: for every reachable dictionary (fewer than `2 ^ 62` entries), `expandIfNeeded`
returns `DictOK` and acts as follows: if the dictionary is rehashing it changes nothing;
else if `ht[0].size = 0` it makes `ht[0]` an empty table of size `4` and the dictionary
stays not rehashing; else if `ht[0].used >= ht[0].size` it installs as `ht[1]` an empty
table whose size is the least power of two that is at least `2 * ht[0].used` and sets
`rehashidx = 0`; otherwise it changes nothing.  The calls `Add` of the keys `0..19` on
`Create()` allocate tables of sizes `4`, `8`, `16`, `32` in that order and no others. -/
theorem expandIfNeeded_cases [Key K] [Value V] (d : Dict K V) (hr : Reachable d) :
    (d.isRehashing = true → d.expandIfNeeded = some (d, DictOK)) ∧
    (d.isRehashing = false → d.ht0.size = 0 →
      ∃ d1, d.expandIfNeeded = some (d1, DictOK) ∧ d1.ht0.size = 4 ∧ d1.ht0.sizemask = 3 ∧
        d1.ht0.used = 0 ∧ d1.ht0.table = List.replicate 4 [] ∧ d1.ht1 = d.ht1 ∧
        d1.isRehashing = false ∧ d1.iterators = d.iterators) ∧
    (d.isRehashing = false → d.ht0.size ≠ 0 → d.ht0.used ≥ d.ht0.size →
      ∃ d1 t, IsLeastPow2 (2 * d.ht0.used) t ∧ d.expandIfNeeded = some (d1, DictOK) ∧
        d1.ht1.size = t ∧ d1.ht1.sizemask = t - 1 ∧ d1.ht1.used = 0 ∧
        d1.ht1.table = List.replicate t [] ∧ d1.ht0 = d.ht0 ∧ d1.rehashidx = 0 ∧
        d1.iterators = d.iterators) ∧
    (d.isRehashing = false → d.ht0.size ≠ 0 → d.ht0.used < d.ht0.size →
      d.expandIfNeeded = some (d, DictOK)) ∧
    (Create : Dict keyT valueT).allocSizes (testPairs 20) = [4, 8, 16, 32] := by
  obtain ⟨hi, hb, _⟩ := hr.inv
  refine ⟨?_, ?_, ?_, ?_, by decide⟩
  · intro hre
    simp [Dict.expandIfNeeded, hre]
  · intro hre hs
    have hidle : d.rehashidx = -1 := by simpa [Dict.isRehashing] using hre
    have h0 := hi.toInvW.wf0.size_zero hs
    have hu : d.ht0.used ≤ dictHTInitailSize := by rw [h0]; simp [_dictReset]
    have hp : nextPower dictHTInitailSize = some (2 ^ 2) := by decide
    have hne : ¬ (2 ^ 2 = d.ht0.size) := by rw [hs]; norm_num
    have hem : d.ht0.table.isEmpty = true := by rw [h0]; rfl
    refine ⟨{ d with ht0 := freshTable (2 ^ 2) }, ?_, rfl, rfl, rfl, rfl, rfl, ?_, rfl⟩
    · unfold Dict.expandIfNeeded
      simp only [hre, Bool.false_eq_true, if_false, hs, if_true]
      rw [expand_eq d _ 2 hidle hu hp]
      simp only [hne, if_false, hem, if_true]
    · simpa [Dict.isRehashing] using hidle
  · intro hre hs hg
    have hidle : d.rehashidx = -1 := by simpa [Dict.isRehashing] using hre
    have ha := hi.toInvW.wf0.allocated_of_size hs
    have hu := hi.used0_le
    have hmod : d.ht0.used * 2 % 2 ^ 64 = d.ht0.used * 2 := Nat.mod_eq_of_lt (by omega)
    obtain ⟨m, h2, h63, hp, hsz, hm⟩ := nextPower_spec (d.ht0.used * 2) (by omega)
    have hleast := nextPower_least (d.ht0.used * 2) m h2 hsz hm
    have h4 : 4 ≤ d.ht0.size := by
      obtain ⟨n, hn2, _, hsn, _⟩ := ha
      rw [hsn]
      calc (4 : Nat) = 2 ^ 2 := by norm_num
        _ ≤ 2 ^ n := Nat.pow_le_pow_right (by norm_num) hn2
    have hmax : max (d.ht0.used * 2) 4 = 2 * d.ht0.used := by omega
    rw [hmax] at hleast
    have hne : ¬ (2 ^ m = d.ht0.size) := by omega
    refine ⟨{ d with ht1 := freshTable (2 ^ m), rehashidx := 0 }, 2 ^ m, hleast, ?_, rfl, ?_,
      rfl, rfl, rfl, rfl, rfl⟩
    · unfold Dict.expandIfNeeded
      have hcond : d.ht0.used ≥ d.ht0.size ∧
          (dictCanResize = 1 ∨ d.ht0.used / d.ht0.size > dictForceResizeRatio) :=
        ⟨hg, Or.inl rfl⟩
      simp only [hre, Bool.false_eq_true, if_false, hs, hcond, and_self, if_true]
      rw [hmod, expand_eq d _ m hidle (by omega) hp]
      simp only [hne, if_false, ha.table_ne_nil, Bool.false_eq_true]
    · simp only [freshTable]
      apply decr_eq
      · positivity
      · exact Nat.pow_lt_pow_right (by norm_num) (by omega)
  · intro hre hs hl
    unfold Dict.expandIfNeeded
    have hcond : ¬ (d.ht0.used ≥ d.ht0.size ∧
        (dictCanResize = 1 ∨ d.ht0.used / d.ht0.size > dictForceResizeRatio)) := by
      intro h; omega
    simp only [hre, Bool.false_eq_true, if_false, hs, hcond]

theorem expandIfNeeded_cases_witness :
    Reachable (testDict (testAdds 4)) ∧ (testDict (testAdds 4)).ht0.used = 4 ∧
    ∃ d1 t, IsLeastPow2 (2 * (testDict (testAdds 4)).ht0.used) t ∧
      (testDict (testAdds 4)).expandIfNeeded = some (d1, DictOK) ∧
      d1.ht1.size = t ∧ d1.ht1.sizemask = t - 1 ∧ d1.ht1.used = 0 ∧
      d1.ht1.table = List.replicate t [] ∧ d1.ht0 = (testDict (testAdds 4)).ht0 ∧
      d1.rehashidx = 0 ∧ d1.iterators = (testDict (testAdds 4)).iterators :=
  ⟨reachable_testDict _ (by decide), by decide,
    (expandIfNeeded_cases _ (reachable_testDict _ (by decide))).2.2.1
      (by decide) (by decide) (by decide)⟩

/-! ## Insertion never fails on capacity grounds -/

/-- The search stops only at a linked entry whose key is the key itself or compares equal
to it. -/
theorem lookup_sound [Key K] (d : Dict K V) (k : K) (e : Entry K V)
    (h : d.lookup k = some e) : e ∈ d.entries ∧ (k = e.key ∨ Key.Compare k e.key = 0) := by
  unfold Dict.lookup at h
  cases h0 : d.ht0.table[Key.HashFunction k &&& d.ht0.sizemask]? with
  | none => simp [h0] at h
  | some c0 =>
    simp only [h0] at h
    cases hf : chainFind k c0 with
    | some e0 =>
      simp only [hf, Option.some.injEq] at h
      subst h
      obtain ⟨hm, hc⟩ := chainFind_some_match k c0 e0 hf
      refine ⟨mem_entries_ht0 ?_, (keyMatch_iff_or _ _).1 hc⟩
      unfold dictht.entries
      exact List.mem_flatten.2 ⟨c0, List.mem_iff_getElem?.2 ⟨_, h0⟩, hm⟩
    | none =>
      simp only [hf] at h
      split at h
      · simp at h
      · cases h1 : d.ht1.table[Key.HashFunction k &&& d.ht1.sizemask]? with
        | none => simp [h1] at h
        | some c1 =>
          simp only [h1] at h
          obtain ⟨hm, hc⟩ := chainFind_some_match k c1 e h
          refine ⟨mem_entries_ht1 ?_, (keyMatch_iff_or _ _).1 hc⟩
          unfold dictht.entries
          exact List.mem_flatten.2 ⟨c1, List.mem_iff_getElem?.2 ⟨_, h1⟩, hm⟩

/-- C20: in every state reachable from `Create()` by `Add`, `Replace`, `Find`, `Delete`,
`Unlink` and `Resize` (fewer than `2 ^ 62` entries), for every key: the growth check that
`keyIndex` makes inside `addRaw` returns `DictOK`, and `keyIndex` returns `-1` only with
`*existing` set; `addRaw` returns, and it returns `nil` exactly when it sets `*existing`,
which then points to an entry linked before the call whose key is the key itself or
compares equal to it; `Replace` returns `0` or `1` (it dereferences no `nil` entry); and
`Add` returns, with `ErrDict` only when such an entry is linked.  For a key type that
keeps its contract, `addRaw` returns `nil` exactly when an entry with an equal key is
stored, `*existing` then points to an entry with an equal key, and `Add` returns `ErrDict`
only when an entry with an equal key is stored. -/
theorem addRaw_nil_iff_stored [Key K] [Value V] (d : Dict K V) (hr : Reachable d) (key : K) :
    (∃ d0 d1 idx ex, d.stepIfRehashing = some d0 ∧ d0.expandIfNeeded = some (d1, DictOK) ∧
      d0.keyIndex key (Key.HashFunction key) = some (d1, idx, ex) ∧
      (idx = -1 ↔ ex ≠ none)) ∧
    (∃ res, d.addRaw key = some res ∧ (res.entry = none ↔ res.existing ≠ none) ∧
      (∀ ref, res.existing = some ref →
        ∃ e, res.dict.deref ref = some e ∧ e ∈ d.entries ∧
          (key = e.key ∨ Key.Compare key e.key = 0)) ∧
      (KeyLaws K → (res.entry = none ↔ ∃ e, d.Stored key e)) ∧
      (KeyLaws K → ∀ ref, res.existing = some ref →
        ∃ e, res.dict.deref ref = some e ∧ d.Stored key e)) ∧
    (∀ v, ∃ d1 r ev, d.Replace key v = some (d1, r, ev) ∧ (r = 0 ∨ r = 1)) ∧
    (∀ v, ∃ d1 r ev, d.Add key v = some (d1, r, ev) ∧
      (r = GoError.ErrDict →
        ∃ e, e ∈ d.entries ∧ (key = e.key ∨ Key.Compare key e.key = 0)) ∧
      (KeyLaws K → r = GoError.ErrDict → ∃ e, d.Stored key e)) := by
  obtain ⟨hi, hb, _⟩ := hr.inv
  have hb1 := le_of_lt hb
  have hor : KeyLaws K → ∀ e : Entry K V, (key = e.key ∨ Key.Compare key e.key = 0) →
      Key.Compare key e.key = 0 := by
    intro hk e h
    rcases h with h | h
    · rw [← h]; exact hk.compare_refl key
    · exact h
  refine ⟨?_, ?_, ?_, ?_⟩
  · obtain ⟨d0, hstep, hi0, hp0, _, _⟩ := stepIfRehashing_spec hi hb1
    obtain ⟨d2, _, _, _, hex, hcase⟩ :=
      keyIndex_spec hi0 (by rw [hp0.length_eq]; exact hb1) key
    rcases hcase with ⟨e, t, i, p, ch, _, hki, _⟩ | ⟨_, t, ch, hki, _⟩
    · exact ⟨d0, d2, -1, some ⟨t, i, p⟩, hstep, hex, hki, by simp⟩
    · refine ⟨d0, d2, _, none, hstep, hex, hki, ?_⟩
      constructor
      · intro h; omega
      · intro h; exact absurd rfl h
  · obtain ⟨d2, hi2, hp2, _, hcase⟩ := addRaw_spec hi hb1 key
    rcases hcase with ⟨e, t, i, p, ch, hl, hadd, ht, ha, hch, hp⟩ | ⟨hns, t, ch, hadd, _⟩
    · obtain ⟨hmem, hcmp⟩ := lookup_sound d2 key e hl
      have hmem1 : e ∈ d.entries := hp2.mem_iff.1 hmem
      have hderef : d2.deref ⟨t, i, p⟩ = some e := by simp [Dict.deref, hch, hp]
      refine ⟨_, hadd, by simp, ?_, fun hk => by simpa using ⟨e, hmem1, hor hk e hcmp⟩, ?_⟩
      · intro ref href
        simp only [Option.some.injEq] at href
        subst href
        exact ⟨e, hderef, hmem1, hcmp⟩
      · intro hk ref href
        simp only [Option.some.injEq] at href
        subst href
        exact ⟨e, hderef, hmem1, hor hk e hcmp⟩
    · refine ⟨_, hadd, by simp, by simp, fun hk => ?_, by simp⟩
      simp only [reduceCtorEq, false_iff, not_exists]
      intro e he
      have := (hi2.lookup_iff hk key e).2 ((stored_perm hp2 key e).2 he)
      rw [hns] at this
      simp at this
  · intro v
    obtain ⟨d2, _, _, _, hcase⟩ := Replace_eq hi hb1 key v
    rcases hcase with ⟨e, d3, old, m, _, _, hrep, _⟩ | ⟨_, d4, hrep, _⟩
    · exact ⟨d3, 0, _, hrep, Or.inl rfl⟩
    · exact ⟨d4, 1, _, hrep, Or.inr rfl⟩
  · intro v
    obtain ⟨d2, hi2, hp2, _, hcase⟩ := Add_eq hi hb1 key v
    rcases hcase with ⟨e, hl, hadd⟩ | ⟨_, d4, hadd, _⟩
    · obtain ⟨hm, hc⟩ := lookup_sound d2 key e hl
      exact ⟨d2, _, _, hadd, fun _ => ⟨e, hp2.mem_iff.1 hm, hc⟩,
        fun hk _ => ⟨e, hp2.mem_iff.1 hm, hor hk e hc⟩⟩
    · exact ⟨d4, _, _, hadd, fun h => by simp at h, fun _ h => by simp at h⟩

theorem addRaw_nil_iff_stored_witness :
    Reachable (testDict (testAdds 20)) ∧
    (∃ res, (testDict (testAdds 20)).addRaw (⟨5⟩ : keyT) = some res ∧
      (res.entry = none ↔ res.existing ≠ none) ∧
      (∀ ref, res.existing = some ref →
        ∃ e, res.dict.deref ref = some e ∧ e ∈ (testDict (testAdds 20)).entries ∧
          ((⟨5⟩ : keyT) = e.key ∨ Key.Compare (⟨5⟩ : keyT) e.key = 0)) ∧
      (KeyLaws keyT →
        (res.entry = none ↔ ∃ e, (testDict (testAdds 20)).Stored (⟨5⟩ : keyT) e)) ∧
      (KeyLaws keyT → ∀ ref, res.existing = some ref →
        ∃ e, res.dict.deref ref = some e ∧ (testDict (testAdds 20)).Stored (⟨5⟩ : keyT) e)) ∧
    ((testDict (testAdds 20)).addRaw (⟨5⟩ : keyT)).map (fun res => res.entry) = some none :=
  ⟨reachable_testDict _ (by decide),
    (addRaw_nil_iff_stored _ (reachable_testDict _ (by decide)) (⟨5⟩ : keyT)).2.1, by decide⟩

/-- The identity test of the chain walk alone finds a key: with a `Compare` that never
returns `0` and a `Dup` that returns its receiver, the second `Add` of a key returns
`ErrDict` and links nothing. -/
theorem Add_same_key_twice :
    (((Create : Dict loneKeyT valueT).Add ⟨1⟩ ⟨1⟩).bind
      (fun r => (r.1.Add ⟨1⟩ ⟨2⟩).map (fun r1 => (r.2.1, r1.2.1, r1.1.ht0.used)))) =
      some (GoError.nil, GoError.ErrDict, 1) := by
  decide

/-! ## The order of a chain -/

/-- The value stored in a new entry leaves it at the head of its chain. -/
theorem setVal_head [Value V] (d2 : Dict K V) (e0 : Entry K V) (v : V) (t i : Nat)
    (ch : List (Entry K V)) (ht : t = 0 ∨ t = 1) (hch : (d2.ht t).table[i]? = some ch)
    (u : Nat) (d4 : Dict K V) (ev : List (Event K V))
    (hset : (d2.setHt t { d2.ht t with
                table := (d2.ht t).table.set i (e0 :: ch), used := u }).setVal
              ⟨t, i, 0⟩ v = some (d4, ev)) :
    (d4.ht t).table[i]? = some ({ e0 with value := some (Value.Dup v) } :: ch) := by
  have hlt : i < (d2.ht t).table.length := (List.getElem?_eq_some.1 hch).1
  rcases ht with rfl | rfl
  · simp only [Dict.ht, if_true] at hch hlt
    simp [Dict.setVal, Dict.storeVal, Dict.setHt, Dict.ht, hlt] at hset
    obtain ⟨rfl, _⟩ := hset
    simp [Dict.ht, hlt]
  · simp only [Dict.ht, one_ne_zero, if_false] at hch hlt
    simp [Dict.setVal, Dict.storeVal, Dict.setHt, Dict.ht, hlt] at hset
    obtain ⟨rfl, _⟩ := hset
    simp [Dict.ht, hlt]

/-- The loop `for de != nil` of `rehash` links every entry of the chain at the head of
its bucket of `ht[1]`: afterwards bucket `j` holds the entries of the chain whose hash
selects `j`, in the reverse of their order in the chain, in front of its former chain. -/
theorem migrate_buckets [Key K] (de : List (Entry K V)) :
    ∀ (h0 h1 : dictht K V),
      (∀ e ∈ de, Key.HashFunction e.key &&& h1.sizemask < h1.table.length) →
      ∃ h0' h1', migrate de h0 h1 = some (h0', h1') ∧
        ∀ (j : Nat) (chain : List (Entry K V)), h1.table[j]? = some chain →
          h1'.table[j]? = some
            ((de.filter (fun e => decide (Key.HashFunction e.key &&& h1.sizemask = j))).reverse
              ++ chain) := by
  induction de with
  | nil =>
    intro h0 h1 _
    exact ⟨h0, h1, rfl, fun j chain hj => by simpa using hj⟩
  | cons e next ih =>
    intro h0 h1 hlt
    have hl : Key.HashFunction e.key &&& h1.sizemask < h1.table.length :=
      hlt e (List.mem_cons_self _ _)
    have hget : h1.table[Key.HashFunction e.key &&& h1.sizemask]? =
        some (h1.table[Key.HashFunction e.key &&& h1.sizemask]) := List.getElem?_eq_getElem hl
    simp only [migrate, hget]
    obtain ⟨h0', h1', hm, hb⟩ := ih { h0 with used := decr h0.used }
      { h1 with table := h1.table.set (Key.HashFunction e.key &&& h1.sizemask)
                  (e :: h1.table[Key.HashFunction e.key &&& h1.sizemask]),
                used := incr h1.used }
      (by
        intro x hx
        simp only [List.length_set]
        exact hlt x (List.mem_cons_of_mem _ hx))
    refine ⟨h0', h1', hm, ?_⟩
    intro j chain hj
    by_cases hjh : Key.HashFunction e.key &&& h1.sizemask = j
    · subst hjh
      rw [hget] at hj
      simp only [Option.some.injEq] at hj
      have := hb (Key.HashFunction e.key &&& h1.sizemask) (e :: chain)
        (by simp [hl, hj])
      rw [this]
      simp [List.filter_cons]
    · have := hb j chain (by
        simp only
        rw [List.getElem?_set_ne hjh]
        exact hj)
      rw [this]
      simp [List.filter_cons, hjh]

/-- A call `rehash(1)` on a rehashing dictionary whose bucket at `rehashidx` is not empty
migrates the chain of that bucket: bucket `j` of the table that was `ht[1]`, which is
`ht[0]` once the rehash is complete, holds the entries of the chain whose hash selects
`j`, in the reverse of their order in the chain, in front of its former chain. -/
theorem rehash_moves_bucket [Key K] {d : Dict K V} (hi : Inv d) (r : Nat) (x : Entry K V)
    (xs : List (Entry K V)) (hr : d.rehashidx = (r : Int))
    (hb : d.ht0.table[r]? = some (x :: xs)) :
    ∃ d1, d.rehash 1 = some (d1, 1) ∧
      ∀ (j : Nat) (chain : List (Entry K V)), d.ht1.table[j]? = some chain →
        (if d1.rehashidx = -1 then d1.ht0 else d1.ht1).table[j]? = some
          (((x :: xs).filter
              (fun e => decide (Key.HashFunction e.key &&& d.ht1.sizemask = j))).reverse
            ++ chain) := by
  have hne : d.rehashidx ≠ -1 := by rw [hr]; omega
  have hre : d.isRehashing = true := by simp [Dict.isRehashing, hne]
  obtain ⟨_, _, _, _, ha1, _, _⟩ := hi.toInvW.busy hne
  have hused : d.ht0.used ≠ 0 := by
    rw [hi.toInvW.wf0.used_eq]
    have hx : x ∈ d.ht0.entries :=
      mem_entries_of_bucket r (x :: xs) x hb (List.mem_cons_self _ _)
    intro h0
    rw [List.length_eq_zero] at h0
    rw [h0] at hx
    simp at hx
  obtain ⟨h0', h1', hm, hbk⟩ := migrate_buckets (x :: xs) d.ht0 d.ht1
    (fun e _ => ha1.index_lt _)
  have hskip : skipEmpty d.ht0.table 10 d.rehashidx = some ((r : Int), 10, false) := by
    rw [hr]
    simp only [skipEmpty, bucketAt_natCast, hb]
  have hloop : rehashLoop 1 (1 * 10) d = some
      ({ d with ht0 := { h0' with table := h0'.table.set r [] },
                ht1 := h1', rehashidx := (r : Int) + 1 }, false) := by
    simp only [rehashLoop, hused, if_false, Nat.one_mul, hskip]
    rw [hr] at hskip
    simp only [bucketAt_natCast, hb, hm, Int.toNat_ofNat]
  unfold Dict.rehash
  simp only [hre, Bool.not_true, Bool.false_eq_true, if_false, hloop]
  split
  · refine ⟨_, rfl, ?_⟩
    intro j chain hj
    simp only [if_true]
    exact hbk j chain hj
  · refine ⟨_, rfl, ?_⟩
    intro j chain hj
    have : ¬ ((r : Int) + 1 = -1) := by omega
    simp only [this, if_false]
    exact hbk j chain hj

/-- Where `addRaw` creates an entry and `setVal` stores the value, the entry is the head
of its chain, in front of the chain that was there. -/
theorem created_at_head [Key K] [Value V] {d : Dict K V} (hi : Inv d)
    (hb : d.entries.length ≤ 2 ^ 62) (key : K) (v : V) :
    (∃ d2 : Dict K V, d.Add key v = some (d2, GoError.ErrDict, []) ∧
        ∃ d3 r ev, d.Replace key v = some (d3, r, ev) ∧ r = 0) ∨
    (∃ (d4 : Dict K V) (t i : Nat) (chain : List (Entry K V)), (t = 0 ∨ t = 1) ∧
        d.Add key v = some (d4, GoError.nil, [Event.keyDup key, Event.valDup v]) ∧
        d.Replace key v = some (d4, 1, [Event.keyDup key, Event.valDup v]) ∧
        (d4.ht t).table[i]? =
          some ({ key := Key.Dup key, value := some (Value.Dup v) } :: chain) ∧
        ∀ e ∈ chain, e ∈ d.entries) := by
  obtain ⟨d2, hi2, hp2, _, hcase⟩ := addRaw_spec hi hb key
  rcases hcase with ⟨e, t, i, p, ch, hl, hadd, ht, ha, hch, hp⟩ | ⟨hns, t, ch, hadd, ht, ha, hch⟩
  · left
    obtain ⟨d3, m, hderef, hset, _⟩ := setVal_existing hi2 v t i p ch e ht ha hch hp
    have hmem : e ∈ d2.entries := mem_entries_of_ref t i ch e hch (List.mem_iff_getElem?.2 ⟨p, hp⟩)
    obtain ⟨old, hold⟩ := Option.ne_none_iff_exists'.1 (hi2.value_ne_none e hmem)
    refine ⟨d2, by simp [Dict.Add, hadd], d3, 0,
      [Event.valDup v, Event.valDestructor old], ?_, rfl⟩
    simp [Dict.Replace, hadd, hderef, hset, Entry.freeVal, hold]
  · right
    obtain ⟨d4, hset, _⟩ := setVal_new hi2 (by rw [hp2.length_eq]; exact hb) key v t ch hns ht ha hch
    have ht1 : t = 0 ∨ t = 1 := by
      rcases ht with ⟨h, _⟩ | ⟨h, _⟩
      · exact Or.inl h
      · exact Or.inr h
    have hhead := setVal_head d2 { key := Key.Dup key, value := none } v t _ ch ht1 hch _ d4 _ hset
    exact ⟨d4, t, Key.HashFunction key &&& (d2.ht t).sizemask, ch, ht1,
      by simp [Dict.Add, hadd, hset], by simp [Dict.Replace, hadd, hset], hhead, fun e he => hp2.mem_iff.1 (mem_entries_of_ref t _ ch e hch he)⟩

/-- C11 (counterexample): after the calls `Add` of the keys `0..19` on `Create()`, the
chain of bucket `0` of `ht[1]` holds the entry of key `0` in front of the entry of key
`10`, although key `10` was added by a later call: the rehash step that migrated bucket
`0` of `ht[0]` relinked its chain entry by entry at the head of the new chain. -/
theorem chain_order_not_most_recent_first :
    Reachable (testDict (testAdds 20)) ∧
    (Create : Dict keyT valueT).run (testAdds 20) = some (testDict (testAdds 20)) ∧
    (testDict (testAdds 20)).ht1.table[0]? = some [⟨⟨0⟩, some ⟨0⟩⟩, ⟨⟨10⟩, some ⟨10⟩⟩] ∧
    (Create : Dict keyT valueT).linkedAt ⟨0⟩ 0 none (testAdds 20) = some 0 ∧
    (Create : Dict keyT valueT).linkedAt ⟨10⟩ 0 none (testAdds 20) = some 10 ∧
    ¬ MostRecentFirst (testAdds 20) (testDict (testAdds 20)) := by
  refine ⟨reachable_testDict _ (by decide), by decide, by decide, by decide, by decide, ?_⟩
  intro h
  obtain ⟨ta, tb, h1, h2, hlt⟩ := h 1 0 0 1 [⟨⟨0⟩, some ⟨0⟩⟩, ⟨⟨10⟩, some ⟨10⟩⟩]
    ⟨⟨0⟩, some ⟨0⟩⟩ ⟨⟨10⟩, some ⟨10⟩⟩ (Or.inr rfl) (by decide) (by decide) (by decide) (by decide)
  have e1 : (Create : Dict keyT valueT).linkedAt ⟨0⟩ 0 none (testAdds 20) = some 0 := by decide
  have e2 : (Create : Dict keyT valueT).linkedAt ⟨10⟩ 0 none (testAdds 20) = some 10 := by decide
  rw [e1] at h1
  rw [e2] at h2
  simp only [Option.some.injEq] at h1 h2
  omega

theorem reachable_splitDict : Reachable splitDict := by
  obtain ⟨d1, hrun, hr, _⟩ := reachable_run splitOps (Create : Dict idKeyT valueT)
    Reachable.create (by rw [entries_Create]; decide)
  unfold splitDict
  rw [hrun]
  exact hr

/-- C11 (amended): in every state reachable from `Create()` by `Add`, `Replace`, `Find`,
`Delete`, `Unlink` and `Resize`, a call of `Add` that returns `nil`, and a call of
`Replace` that returns `1`, leaves the new entry at the head of a bucket chain of `ht[0]`
or of `ht[1]`, in front of entries that were linked before the call.  The loop of
`rehash` that migrates a chain links each entry at the head of its bucket of `ht[1]`:
afterwards every bucket `j` of that table holds the entries of the migrated chain whose
hash selects `j`, in the reverse of their order in the migrated chain, in front of the
chain it held before.  This holds for the loop on any chain in a rehashing state, and
for the call `rehash(1)` on a dictionary whose bucket at `rehashidx` is not empty, where
the table is `ht[1]`, or `ht[0]` once the call has completed the rehash. -/
theorem new_entry_at_head [Key K] [Value V] (d : Dict K V) (hr : Reachable d) (key : K)
    (v : V) :
    (∀ d1 ev, d.Add key v = some (d1, GoError.nil, ev) →
      ∃ (t i : Nat) (chain : List (Entry K V)), (t = 0 ∨ t = 1) ∧
        (d1.ht t).table[i]? =
          some ({ key := Key.Dup key, value := some (Value.Dup v) } :: chain) ∧
        ∀ e ∈ chain, e ∈ d.entries) ∧
    (∀ d1 ev, d.Replace key v = some (d1, 1, ev) →
      ∃ (t i : Nat) (chain : List (Entry K V)), (t = 0 ∨ t = 1) ∧
        (d1.ht t).table[i]? =
          some ({ key := Key.Dup key, value := some (Value.Dup v) } :: chain) ∧
        ∀ e ∈ chain, e ∈ d.entries) ∧
    (∀ de : List (Entry K V), d.rehashidx ≠ -1 →
      ∃ h0' h1', migrate de d.ht0 d.ht1 = some (h0', h1') ∧
        ∀ (j : Nat) (chain : List (Entry K V)), d.ht1.table[j]? = some chain →
          h1'.table[j]? = some
            ((de.filter
                (fun e => decide (Key.HashFunction e.key &&& d.ht1.sizemask = j))).reverse
              ++ chain)) ∧
    (∀ (r : Nat) (x : Entry K V) (xs : List (Entry K V)),
      d.rehashidx = (r : Int) → d.ht0.table[r]? = some (x :: xs) →
      ∃ d1, d.rehash 1 = some (d1, 1) ∧
        ∀ (j : Nat) (chain : List (Entry K V)), d.ht1.table[j]? = some chain →
          (if d1.rehashidx = -1 then d1.ht0 else d1.ht1).table[j]? = some
            (((x :: xs).filter
                (fun e => decide (Key.HashFunction e.key &&& d.ht1.sizemask = j))).reverse
              ++ chain)) := by
  obtain ⟨hi, hb, _⟩ := hr.inv
  refine ⟨?_, ?_, ?_, fun r x xs hidx hbk => rehash_moves_bucket hi r x xs hidx hbk⟩
  · intro d1 ev hAdd
    rcases created_at_head hi (le_of_lt hb) key v with
      ⟨d2, hA, _⟩ | ⟨d4, t, i, chain, ht, hA, _, hhead, hmem⟩
    · rw [hA] at hAdd
      simp at hAdd
    · rw [hA] at hAdd
      simp only [Option.some.injEq, Prod.mk.injEq] at hAdd
      obtain ⟨rfl, _⟩ := hAdd
      exact ⟨t, i, chain, ht, hhead, hmem⟩
  · intro d1 ev hRep
    rcases created_at_head hi (le_of_lt hb) key v with
      ⟨d2, _, d3, r, ev3, hR, hr0⟩ | ⟨d4, t, i, chain, ht, _, hR, hhead, hmem⟩
    · rw [hR] at hRep
      simp only [Option.some.injEq, Prod.mk.injEq] at hRep
      omega
    · rw [hR] at hRep
      simp only [Option.some.injEq, Prod.mk.injEq] at hRep
      obtain ⟨rfl, _⟩ := hRep
      exact ⟨t, i, chain, ht, hhead, hmem⟩
  · intro de hne
    obtain ⟨_, _, _, _, ha1, _, _⟩ := hi.toInvW.busy hne
    exact migrate_buckets de d.ht0 d.ht1 (fun e _ => ha1.index_lt _)

theorem new_entry_at_head_witness :
    Reachable splitDict ∧ splitDict.rehashidx = 0 ∧
    splitDict.ht0.table[0]? =
      some [⟨⟨12⟩, some ⟨12⟩⟩, ⟨⟨8⟩, some ⟨8⟩⟩, ⟨⟨4⟩, some ⟨4⟩⟩, ⟨⟨0⟩, some ⟨0⟩⟩] ∧
    (splitDict.rehash 1).map (fun r => r.1.ht0.table.map (fun ch => ch.map (fun e => e.key.key)))
      = some [[0, 8, 16], [], [], [], [4, 12], [], [], []] ∧
    ∃ d1, splitDict.rehash 1 = some (d1, 1) ∧
      ∀ (j : Nat) (chain : List (Entry idKeyT valueT)), splitDict.ht1.table[j]? = some chain →
        (if d1.rehashidx = -1 then d1.ht0 else d1.ht1).table[j]? = some
          ((([⟨⟨12⟩, some ⟨12⟩⟩, ⟨⟨8⟩, some ⟨8⟩⟩, ⟨⟨4⟩, some ⟨4⟩⟩, ⟨⟨0⟩, some ⟨0⟩⟩] :
              List (Entry idKeyT valueT)).filter
              (fun e => decide (Key.HashFunction e.key &&& splitDict.ht1.sizemask = j))).reverse
            ++ chain) :=
  ⟨reachable_splitDict, by decide, by decide, by decide,
    (new_entry_at_head splitDict reachable_splitDict (⟨20⟩ : idKeyT) (⟨20⟩ : valueT)).2.2.2
      0 _ _ (by decide) (by decide)⟩

/-! ## The function `nextPower` -/

theorem nextPowerFuel_spec (size : Nat) (hs : size ≤ 2 ^ 63) (fuel : Nat) (hf : 64 ≤ fuel) :
    ∃ m, 2 ≤ m ∧ m ≤ 63 ∧ nextPowerFuel fuel size = some (2 ^ m) ∧ size ≤ 2 ^ m ∧
      (m = 2 ∨ 2 ^ (m - 1) < size) := by
  unfold nextPowerFuel
  have hg : ¬ (size >>> 1 ≥ 2 ^ 63 - 1) := by
    rw [Nat.shiftRight_eq_div_pow]
    omega
  simp only [hg, if_false]
  have := nextPowerLoop_spec size hs fuel 2 (by norm_num) (by norm_num) (by omega) (Or.inl rfl)
  simpa [dictHTInitailSize] using this

/-- C21: for every unsigned 64-bit `size <= 2^63`, `nextPower(size)` terminates (its loop
exits within 64 tests of the condition, whatever bound of at least 64 is put on them) and
returns the least power of two `p` with `p >= 4` and `p >= size`; so
`nextPower(0) = nextPower(4) = 4` and `nextPower(5) = 8`. -/
theorem nextPower_least_power (size : Nat) (hs : size ≤ 2 ^ 63) :
    ∃ p, nextPower size = some p ∧
      (∀ fuel, 64 ≤ fuel → nextPowerFuel fuel size = some p) ∧
      (∃ n, p = 2 ^ n) ∧ 4 ≤ p ∧ size ≤ p ∧
      (∀ n, 4 ≤ 2 ^ n → size ≤ 2 ^ n → p ≤ 2 ^ n) ∧
      nextPower 0 = some 4 ∧ nextPower 4 = some 4 ∧ nextPower 5 = some 8 := by
  obtain ⟨m, h2, h63, hp, hsz, hm⟩ := nextPower_spec size hs
  obtain ⟨hpow, hmax, hleast⟩ := nextPower_least size m h2 hsz hm
  refine ⟨2 ^ m, hp, ?_, hpow, le_trans (le_max_right _ _) hmax, hsz, ?_, by decide, by decide,
    by decide⟩
  · intro fuel hf
    obtain ⟨m1, h21, _, hp1, hsz1, hm1⟩ := nextPowerFuel_spec size hs fuel hf
    rw [hp1, isLeastPow2_unique _ _ _ (nextPower_least size m1 h21 hsz1 hm1)
      (nextPower_least size m h2 hsz hm)]
  · intro n h4 hn
    exact hleast (2 ^ n) ⟨n, rfl⟩ (max_le hn h4)

theorem nextPower_least_power_witness :
    ∃ p, nextPower 5 = some p ∧
      (∀ fuel, 64 ≤ fuel → nextPowerFuel fuel 5 = some p) ∧
      (∃ n, p = 2 ^ n) ∧ 4 ≤ p ∧ 5 ≤ p ∧
      (∀ n, 4 ≤ 2 ^ n → 5 ≤ 2 ^ n → p ≤ 2 ^ n) ∧
      nextPower 0 = some 4 ∧ nextPower 4 = some 4 ∧ nextPower 5 = some 8 :=
  nextPower_least_power 5 (by norm_num)

theorem nextPowerLoop_zero (size : Nat) (hs : 0 < size) :
    ∀ fuel, nextPowerLoop fuel 0 size = none := by
  intro fuel
  induction fuel with
  | zero => rfl
  | succ fuel ih => simp only [nextPowerLoop, hs, if_true, Nat.zero_mul, Nat.zero_mod, ih]

theorem nextPowerLoop_diverges (size : Nat) (hs : 2 ^ 63 < size) :
    ∀ fuel n, n ≤ 63 → nextPowerLoop fuel (2 ^ n) size = none := by
  intro fuel
  induction fuel with
  | zero => intro n _; rfl
  | succ fuel ih =>
    intro n hn
    have hle : 2 ^ n ≤ 2 ^ 63 := Nat.pow_le_pow_right (by norm_num) hn
    have hlt : 2 ^ n < size := by omega
    simp only [nextPowerLoop, hlt, if_true]
    by_cases h63 : n = 63
    · subst h63
      have : 2 ^ 63 * 2 % 2 ^ 64 = 0 := by norm_num
      rw [this]
      exact nextPowerLoop_zero size (by omega) fuel
    · have hpow : 2 ^ n * 2 % 2 ^ 64 = 2 ^ (n + 1) := by
        rw [← pow_succ]
        apply Nat.mod_eq_of_lt
        exact Nat.pow_lt_pow_right (by norm_num) (by omega)
      rw [hpow]
      exact ih (n + 1) (by omega)

/-- For every `size` with `2^63 < size < 2^64 - 2` the guard of `nextPower` does not
apply, the variable `i` goes from `2^63` to `0` and stays there, and the loop has not
exited after any number of tests of its condition. -/
theorem nextPowerFuel_diverges (size : Nat) (h1 : 2 ^ 63 < size) (h2 : size < 2 ^ 64 - 2)
    (fuel : Nat) : nextPowerFuel fuel size = none := by
  unfold nextPowerFuel
  have hg : ¬ (size >>> 1 ≥ 2 ^ 63 - 1) := by
    rw [Nat.shiftRight_eq_div_pow]
    omega
  simp only [hg, if_false]
  have := nextPowerLoop_diverges size h1 fuel 2 (by norm_num)
  simpa [dictHTInitailSize] using this

/-- C22 (the code departs from the specification): on `size = 2^63 + 1` the guard
`int64(size>>1) >= math.MaxInt64` of `nextPower` does not apply, and the loop
`for i < size { i *= 2 }` has not exited after any number of tests of its condition, where
the specification says that `2^63` is returned; the guard applies, and `2^63` is returned,
only for the sizes `2^64 - 2` and `2^64 - 1`. -/
theorem nextPower_guard_misses :
    (∀ fuel, nextPowerFuel fuel (2 ^ 63 + 1) = none) ∧
    nextPower (2 ^ 63 + 1) = none ∧
    (∀ fuel, nextPowerFuel fuel (2 ^ 64 - 3) = none) ∧
    nextPower (2 ^ 64 - 2) = some (2 ^ 63) ∧ nextPower (2 ^ 64 - 1) = some (2 ^ 63) :=
  ⟨fun fuel => nextPowerFuel_diverges _ (by norm_num) (by norm_num) fuel,
    nextPowerFuel_diverges _ (by norm_num) (by norm_num) 64,
    fun fuel => nextPowerFuel_diverges _ (by norm_num) (by norm_num) fuel,
    by decide, by decide⟩

end dict

/-! # Theorems about the package `adlist` -/

namespace adlist

theorem searchLoop_oneNodeList (key : valueT) (hk : key.value ≠ 1) (fuel : Nat) :
    oneNodeList.searchLoop key fuel { next := some 0, direction := ALStartHead } = none := by
  induction fuel with
  | zero => rfl
  | succ n ih =>
    have hm : ¬ (testMatch (⟨1⟩ : valueT) key > 0) := by
      unfold testMatch
      simp [hk]
    have hstep : oneNodeList.searchLoop key (n + 1) { next := some 0, direction := ALStartHead }
        = if testMatch (⟨1⟩ : valueT) key > 0 then some (some 0)
          else oneNodeList.searchLoop key n { next := some 0, direction := ALStartHead } := rfl
    rw [hstep, if_neg hm, ih]

/-- C13 (the code departs from the specification): the first node added to an empty list is made
its own successor (and predecessor), so on `ListCreate(WithMatch(match))` after
`AddNodeHead(&valueT{1})` the iterator of `SearchKey(&valueT{2})` returns that node again
and again: the loop has not returned after any number of rounds, where the specification, and the
comment above the method, say that `nil` is returned.  On the list of the test, where
`AddNodeTail` overwrote the link, the search for an absent key returns `nil`. -/
theorem SearchKey_loops_on_absent_key :
    (ListCreate (some testMatch)).AddNodeHead (⟨1⟩ : valueT) = some oneNodeList ∧
    oneNodeList.head = some 0 ∧
    oneNodeList.heap.map (fun n => (n.prev, n.next, n.value)) = [(some 0, some 0, ⟨1⟩)] ∧
    (∀ fuel, oneNodeList.SearchKey ⟨2⟩ fuel = none) ∧
    testList.bind (fun l => l.SearchKey ⟨1⟩ 5) = some (some 0) ∧
    testList.bind (fun l => l.SearchKey ⟨5⟩ 5) = some none :=
  ⟨rfl, rfl, by decide, fun fuel => searchLoop_oneNodeList ⟨2⟩ (by decide) fuel, by decide,
    by decide⟩

end adlist
